import Mathlib

/-!
# Pairwise sequence alignment: Needleman–Wunsch and Smith–Waterman

A shallow embedding of `src/alignment_visualization/needleman_wunsch.cpp` and
`src/smith_waterman.cpp`.

Modelling conventions.

* `std::string` is `List Char`; `s[k]` is `s.getD k default` (every access made
  by the program is in range).
* `std::vector<std::vector<Cell>>` is `Array (Array Cell)`, read and written
  with `Grid.get` / `Grid.set`.
* `size_t` values are natural numbers.  `int` values are integers.  Every
  conversion between the two that the program performs (`size_t * int`,
  `size_t` narrowed to `int`) is modelled exactly, by reduction modulo `2^64`
  and by taking the low 32 bits in two's complement.  Signed `int` addition,
  whose overflow C++ leaves undefined, is exact integer addition; the theorems
  on global scores are stated for sequences of fewer than `2^30` symbols, for
  which `scoreMatrix_sums_fit_int` shows that no sum leaves the range of `int`.
* A counting `for` loop is a `List.foldl` over `List.range'`; the `while` loops
  of the tracebacks take a fuel argument and return `none` when it runs out.
* A file that could be opened is the list of its lines, as `std::getline`
  delivers them.
* A `float` or `double` is a `FloatValue`: a finite value, an infinity, or the
  result of `0.0 / 0.0`.  The rounding of a finite result is a parameter
  (`Rounding`), of which only `round 0 = 0` is known.
-/

/-! ## Scoring constants and integer conversions -/

/-- `const int MATCH_SCORE = 1;` -/
def MATCH_SCORE : Int := 1

/-- `const int MISMATCH_SCORE = -1;` -/
def MISMATCH_SCORE : Int := -1

/-- `const int GAP_SCORE = -2;` -/
def GAP_SCORE : Int := -2

/-- Conversion of an `int` to `size_t` (64 bit): the value modulo `2^64`. -/
def intToSize (k : Int) : Nat := (k % 18446744073709551616).toNat

/-- Conversion of a `size_t` to `int` (32 bit): the low 32 bits, read in two's
complement. -/
def sizeToInt (x : Nat) : Int :=
  if x % 4294967296 < 2147483648 then ((x % 4294967296 : Nat) : Int)
  else ((x % 4294967296 : Nat) : Int) - 4294967296

/-- The C++ expression `n * k` for `size_t n` and `int k`: `k` is converted to
`size_t` and the product is taken modulo `2^64`. -/
def sizeMulInt (n : Nat) (k : Int) : Nat := (n * intToSize k) % 18446744073709551616

/-- The value lies in the range of a 32-bit `int`. -/
def FitsInt32 (x : Int) : Prop := -2147483648 ≤ x ∧ x ≤ 2147483647

/-! ## The matrix -/

/-- A vector of vectors of cells. -/
abbrev Grid (α : Type) := Array (Array α)

/-- The element `m[i][j]`. -/
def Grid.get {α : Type} [Inhabited α] (m : Grid α) (i j : Nat) : α :=
  (m.getD i #[]).getD j default

/-- The assignment `m[i][j] = c`. -/
def Grid.set {α : Type} (m : Grid α) (i j : Nat) (c : α) : Grid α :=
  m.setD i ((m.getD i #[]).setD j c)

/-- The grid has `r` rows of `c` cells each. -/
def Grid.HasDim {α : Type} (m : Grid α) (r c : Nat) : Prop :=
  m.size = r ∧ ∀ i, i < r → (m.getD i #[]).size = c

/-! ## Alignment columns (used to state the contracts) -/

/-- Score of one column of an emitted alignment: `-2` if one side is the gap
symbol, else `+1` for equal symbols and `-1` for different ones. -/
def columnScore (a b : Char) : Int :=
  if a = '-' ∨ b = '-' then -2 else if a = b then 1 else -1

/-- Column-by-column score of a pair of aligned strings. -/
def rescore : List Char → List Char → Int
  | a :: as, b :: bs => columnScore a b + rescore as bs
  | _, _ => 0

/-- Deleting every gap symbol from an aligned string. -/
def stripGaps (s : List Char) : List Char := s.filter (fun c => c != '-')

/-- A column of a global alignment: symbol/symbol, symbol/gap or gap/symbol. -/
inductive Col where
  | both (a b : Char)
  | del (a : Char)
  | ins (b : Char)
  deriving DecidableEq, Repr

/-- Score of a column: match `+1`, mismatch `-1`, gap `-2`. -/
def Col.score : Col → Int
  | .both a b => if a = b then 1 else -1
  | .del _ => -2
  | .ins _ => -2

/-- The symbols of the first sequence that a column list spells out. -/
def spellFst : List Col → List Char
  | [] => []
  | .both a _ :: cs => a :: spellFst cs
  | .del a :: cs => a :: spellFst cs
  | .ins _ :: cs => spellFst cs

/-- The symbols of the second sequence that a column list spells out. -/
def spellSnd : List Col → List Char
  | [] => []
  | .both _ b :: cs => b :: spellSnd cs
  | .del _ :: cs => spellSnd cs
  | .ins b :: cs => b :: spellSnd cs

/-- Sum of the column scores. -/
def alignmentScore : List Col → Int
  | [] => 0
  | c :: cs => c.score + alignmentScore cs

/-- The value `v` is the optimal global alignment score of `A` with `B`: some
alignment attains it and none exceeds it. -/
def IsOptimalGlobal (A B : List Char) (v : Int) : Prop :=
  (∃ al, spellFst al = A ∧ spellSnd al = B ∧ alignmentScore al = v) ∧
  ∀ al, spellFst al = A → spellSnd al = B → alignmentScore al ≤ v

/-! ## Alignment statistics (`AlignmentVisualizer::visualizeAlignment`) -/

/-- The counters `matches`, `mismatches`, `gaps`. -/
structure Stats where
  numMatches : Nat
  numMismatches : Nat
  numGaps : Nat
  deriving DecidableEq, Repr

namespace AlignmentVisualizer

/-- One iteration of the statistics loop of `visualizeAlignment`. -/
def statsStep (st : Stats) (a b : Char) : Stats :=
  if a = b ∧ a ≠ '-' then { st with numMatches := st.numMatches + 1 }
  else if a = '-' ∨ b = '-' then { st with numGaps := st.numGaps + 1 }
  else { st with numMismatches := st.numMismatches + 1 }

/-- The statistics loop of `visualizeAlignment`, over `i < seq1.length()`. -/
def alignmentStats (seq1 seq2 : List Char) : Stats :=
  (List.range' 0 seq1.length).foldl
    (fun st i => statsStep st (seq1.getD i default) (seq2.getD i default))
    { numMatches := 0, numMismatches := 0, numGaps := 0 }

end AlignmentVisualizer

/-! ## Needleman–Wunsch -/

namespace NeedlemanWunsch

/-- `struct Cell { int score; char direction; }` with `Cell(int s = 0, char d = '0')`. -/
structure Cell where
  score : Int
  direction : Char
  deriving DecidableEq, Repr

instance : Inhabited Cell := ⟨⟨0, '0'⟩⟩

/-- `NeedlemanWunsch::initializeMatrix`, on the empty matrix of a fresh object. -/
def initializeMatrix (seq1 seq2 : List Char) : Grid Cell :=
  let matrix : Grid Cell :=
    mkArray (seq1.length + 1) (mkArray (seq2.length + 1) (default : Cell))
  let matrix := (List.range' 0 (seq2.length + 1)).foldl
    (fun m j => m.set 0 j ⟨sizeToInt (sizeMulInt j GAP_SCORE), 'L'⟩) matrix
  let matrix := (List.range' 0 (seq1.length + 1)).foldl
    (fun m i => m.set i 0 ⟨sizeToInt (sizeMulInt i GAP_SCORE), 'U'⟩) matrix
  matrix.set 0 0 ⟨0, '0'⟩

/-- The body of the inner loop of `NeedlemanWunsch::fillMatrix`.  The three
`int` sums are formed exactly; for sequences of fewer than `2^30` symbols they
lie in the range of `int` (`scoreMatrix_sums_fit_int`). -/
def fillCell (seq1 seq2 : List Char) (i : Nat) (m : Grid Cell) (j : Nat) : Grid Cell :=
  let matchScore := (m.get (i - 1) (j - 1)).score +
    (if seq1.getD (i - 1) default = seq2.getD (j - 1) default
      then MATCH_SCORE else MISMATCH_SCORE)
  let deleteScore := (m.get (i - 1) j).score + GAP_SCORE
  let insertScore := (m.get i (j - 1)).score + GAP_SCORE
  if matchScore ≥ deleteScore ∧ matchScore ≥ insertScore then
    m.set i j ⟨matchScore, 'D'⟩
  else if deleteScore ≥ insertScore then
    m.set i j ⟨deleteScore, 'U'⟩
  else
    m.set i j ⟨insertScore, 'L'⟩

/-- `NeedlemanWunsch::fillMatrix`. -/
def fillMatrix (seq1 seq2 : List Char) (matrix : Grid Cell) : Grid Cell :=
  (List.range' 1 seq1.length).foldl
    (fun m i => (List.range' 1 seq2.length).foldl (fillCell seq1 seq2 i) m) matrix

/-- The `while (i > 0 || j > 0)` loop of `NeedlemanWunsch::traceback`; `none`
when the fuel runs out before the loop condition fails. -/
def tracebackLoop (seq1 seq2 : List Char) (matrix : Grid Cell) :
    Nat → Nat → Nat → List Char → List Char → Option (List Char × List Char)
  | fuel, i, j, aligned1, aligned2 =>
    if i > 0 ∨ j > 0 then
      match fuel with
      | 0 => none
      | fuel + 1 =>
        let direction := (matrix.get i j).direction
        if direction = 'D' ∧ i > 0 ∧ j > 0 then
          tracebackLoop seq1 seq2 matrix fuel (i - 1) (j - 1)
            (seq1.getD (i - 1) default :: aligned1) (seq2.getD (j - 1) default :: aligned2)
        else if direction = 'U' ∧ i > 0 then
          tracebackLoop seq1 seq2 matrix fuel (i - 1) j
            (seq1.getD (i - 1) default :: aligned1) ('-' :: aligned2)
        else if j > 0 then
          tracebackLoop seq1 seq2 matrix fuel i (j - 1)
            ('-' :: aligned1) (seq2.getD (j - 1) default :: aligned2)
        else
          tracebackLoop seq1 seq2 matrix fuel i j aligned1 aligned2
    else some (aligned1, aligned2)

/-- `NeedlemanWunsch::traceback`, run with `fuel` loop iterations available. -/
def traceback (fuel : Nat) (seq1 seq2 : List Char) (matrix : Grid Cell) :
    Option (List Char × List Char) :=
  tracebackLoop seq1 seq2 matrix fuel seq1.length seq2.length [] []

/-- The object after `align()`: the matrix and the two aligned strings. -/
structure Aligned where
  matrix : Grid Cell
  aligned1 : List Char
  aligned2 : List Char

/-- The matrix after `initializeMatrix(); fillMatrix();`. -/
def scoreMatrix (seq1 seq2 : List Char) : Grid Cell :=
  fillMatrix seq1 seq2 (initializeMatrix seq1 seq2)

/-- `NeedlemanWunsch::align` with `fuel` traceback iterations available. -/
def alignWith (fuel : Nat) (seq1 seq2 : List Char) : Option Aligned :=
  let matrix := scoreMatrix seq1 seq2
  (traceback fuel seq1 seq2 matrix).map fun r => ⟨matrix, r.1, r.2⟩

/-- `NeedlemanWunsch::align`; the traceback is given `len1 + len2` iterations. -/
def align (seq1 seq2 : List Char) : Option Aligned :=
  alignWith (seq1.length + seq2.length) seq1 seq2

/-- The reported score `matrix[len1][len2].score`. -/
def globalScore (seq1 seq2 : List Char) : Int :=
  ((scoreMatrix seq1 seq2).get seq1.length seq2.length).score

end NeedlemanWunsch

/-! ## Rendering an alignment as two strings -/

/-- The symbol a column shows in the first output string. -/
def Col.top : Col → Char
  | .both a _ => a
  | .del a => a
  | .ins _ => '-'

/-- The symbol a column shows in the second output string. -/
def Col.bottom : Col → Char
  | .both _ b => b
  | .del _ => '-'
  | .ins b => b

/-! ## The recurrence behind the Needleman–Wunsch matrix -/

namespace NeedlemanWunsch

/-- The cell chosen by the three-way comparison of `fillMatrix`. -/
def chooseCell (matchScore deleteScore insertScore : Int) : Cell :=
  if matchScore ≥ deleteScore ∧ matchScore ≥ insertScore then ⟨matchScore, 'D'⟩
  else if deleteScore ≥ insertScore then ⟨deleteScore, 'U'⟩
  else ⟨insertScore, 'L'⟩

/-- The substitution term `seq1[i-1] == seq2[j-1] ? MATCH_SCORE : MISMATCH_SCORE`. -/
def substScore (seq1 seq2 : List Char) (i j : Nat) : Int :=
  if seq1.getD (i - 1) default = seq2.getD (j - 1) default then MATCH_SCORE else MISMATCH_SCORE

/-- Closed description of `matrix[i][j]` after `initializeMatrix` and
`fillMatrix`, as a recurrence on the indices. -/
def cellAt (seq1 seq2 : List Char) : Nat → Nat → Cell
  | 0, 0 => ⟨0, '0'⟩
  | 0, j + 1 => ⟨sizeToInt (sizeMulInt (j + 1) GAP_SCORE), 'L'⟩
  | i + 1, 0 => ⟨sizeToInt (sizeMulInt (i + 1) GAP_SCORE), 'U'⟩
  | i + 1, j + 1 =>
    chooseCell ((cellAt seq1 seq2 i j).score + substScore seq1 seq2 (i + 1) (j + 1))
      ((cellAt seq1 seq2 i (j + 1)).score + GAP_SCORE)
      ((cellAt seq1 seq2 (i + 1) j).score + GAP_SCORE)

/-- Rows `< r` and the first `k` interior columns of row `r` hold the cells of
the recurrence (as does the boundary). -/
def FilledUpTo (seq1 seq2 : List Char) (m : Grid Cell) (r k : Nat) : Prop :=
  m.HasDim (seq1.length + 1) (seq2.length + 1) ∧
  ∀ i j, i ≤ seq1.length → j ≤ seq2.length →
    (i = 0 ∨ j = 0 ∨ i < r ∨ (i = r ∧ j ≤ k)) → m.get i j = cellAt seq1 seq2 i j

end NeedlemanWunsch

/-! ## Smith–Waterman -/

namespace SmithWaterman

/-- `struct Cell { int score; int i; int j; char direction; }` with
`Cell(int s = 0, int ii = 0, int jj = 0, char d = '0')`. -/
structure Cell where
  score : Int
  i : Int
  j : Int
  direction : Char
  deriving DecidableEq, Repr

instance : Inhabited Cell := ⟨⟨0, 0, 0, '0'⟩⟩

/-- `SmithWaterman::initializeMatrix`, on the empty matrix of a fresh object. -/
def initializeMatrix (seq1 seq2 : List Char) : Grid Cell :=
  let matrix : Grid Cell :=
    mkArray (seq1.length + 1) (mkArray (seq2.length + 1) (default : Cell))
  let matrix := (List.range' 0 (seq1.length + 1)).foldl
    (fun m i => m.set i 0 ⟨0, 0, 0, '0'⟩) matrix
  (List.range' 0 (seq2.length + 1)).foldl (fun m j => m.set 0 j ⟨0, 0, 0, '0'⟩) matrix

/-- The members written by `SmithWaterman::fillMatrix`. -/
structure FillState where
  matrix : Grid Cell
  maxScore : Int
  maxCell : Cell

/-- The body of the inner loop of `SmithWaterman::fillMatrix`.  The loop
counters `i`, `j` are `size_t`; they are narrowed to `int` where they are passed
to the `Cell` constructor and assigned to `maxCell.i`, `maxCell.j`. -/
def fillCell (seq1 seq2 : List Char) (i : Nat) (s : FillState) (j : Nat) : FillState :=
  let matchSc := (s.matrix.get (i - 1) (j - 1)).score +
    (if seq1.getD (i - 1) default = seq2.getD (j - 1) default
      then MATCH_SCORE else MISMATCH_SCORE)
  let del := (s.matrix.get (i - 1) j).score + GAP_SCORE
  let ins := (s.matrix.get i (j - 1)).score + GAP_SCORE
  let maxLocal := max 0 (max matchSc (max del ins))
  let matrix :=
    if maxLocal = 0 then s.matrix.set i j ⟨0, sizeToInt i, sizeToInt j, '0'⟩
    else if maxLocal = matchSc then s.matrix.set i j ⟨maxLocal, sizeToInt i, sizeToInt j, 'D'⟩
    else if maxLocal = del then s.matrix.set i j ⟨maxLocal, sizeToInt i, sizeToInt j, 'U'⟩
    else s.matrix.set i j ⟨maxLocal, sizeToInt i, sizeToInt j, 'L'⟩
  if (matrix.get i j).score > s.maxScore then
    { matrix := matrix
      maxScore := (matrix.get i j).score
      maxCell := { matrix.get i j with i := sizeToInt i, j := sizeToInt j } }
  else
    { s with matrix := matrix }

/-- `SmithWaterman::fillMatrix`; `maxCell` enters as the default-constructed
member of a fresh object. -/
def fillMatrix (seq1 seq2 : List Char) (matrix : Grid Cell) : FillState :=
  (List.range' 1 seq1.length).foldl
    (fun s i => (List.range' 1 seq2.length).foldl (fillCell seq1 seq2 i) s)
    { matrix := matrix, maxScore := 0, maxCell := default }

/-- The `while (i > 0 && j > 0 && matrix[i][j].score > 0)` loop of
`SmithWaterman::traceback`, with `int i, j`; `none` when the fuel runs out
before the loop condition fails. -/
def tracebackLoop (seq1 seq2 : List Char) (matrix : Grid Cell) :
    Nat → Int → Int → List Char → List Char → Option (List Char × List Char)
  | fuel, i, j, aligned1, aligned2 =>
    if i > 0 ∧ j > 0 ∧ (matrix.get i.toNat j.toNat).score > 0 then
      match fuel with
      | 0 => none
      | fuel + 1 =>
        let direction := (matrix.get i.toNat j.toNat).direction
        if direction = 'D' then
          tracebackLoop seq1 seq2 matrix fuel (i - 1) (j - 1)
            (seq1.getD (i - 1).toNat default :: aligned1)
            (seq2.getD (j - 1).toNat default :: aligned2)
        else if direction = 'U' then
          tracebackLoop seq1 seq2 matrix fuel (i - 1) j
            (seq1.getD (i - 1).toNat default :: aligned1) ('-' :: aligned2)
        else if direction = 'L' then
          tracebackLoop seq1 seq2 matrix fuel i (j - 1)
            ('-' :: aligned1) (seq2.getD (j - 1).toNat default :: aligned2)
        else
          tracebackLoop seq1 seq2 matrix fuel i j aligned1 aligned2
    else some (aligned1, aligned2)

/-- `SmithWaterman::traceback`, run with `fuel` loop iterations available. -/
def traceback (fuel : Nat) (seq1 seq2 : List Char) (s : FillState) :
    Option (List Char × List Char) :=
  tracebackLoop seq1 seq2 s.matrix fuel s.maxCell.i s.maxCell.j [] []

/-- The object after `align()`. -/
structure Aligned where
  matrix : Grid Cell
  maxScore : Int
  maxCell : Cell
  aligned1 : List Char
  aligned2 : List Char

/-- The members after `initializeMatrix(); fillMatrix();`. -/
def filled (seq1 seq2 : List Char) : FillState :=
  fillMatrix seq1 seq2 (initializeMatrix seq1 seq2)

/-- `SmithWaterman::align` with `fuel` traceback iterations available. -/
def alignWith (fuel : Nat) (seq1 seq2 : List Char) : Option Aligned :=
  let s := filled seq1 seq2
  (traceback fuel seq1 seq2 s).map fun r => ⟨s.matrix, s.maxScore, s.maxCell, r.1, r.2⟩

/-- `SmithWaterman::align`; the traceback is given `len1 + len2` iterations. -/
def align (seq1 seq2 : List Char) : Option Aligned :=
  alignWith (seq1.length + seq2.length) seq1 seq2

/-- The substitution term `seq1[i-1] == seq2[j-1] ? MATCH_SCORE : MISMATCH_SCORE`. -/
def substScore (seq1 seq2 : List Char) (i j : Nat) : Int :=
  if seq1.getD (i - 1) default = seq2.getD (j - 1) default then MATCH_SCORE else MISMATCH_SCORE

/-- The cell stored by one iteration of `fillMatrix` at `(i, j)`, from the three
candidate scores. -/
def localCell (matchSc del ins : Int) (i j : Nat) : Cell :=
  if max 0 (max matchSc (max del ins)) = 0 then ⟨0, sizeToInt i, sizeToInt j, '0'⟩
  else if max 0 (max matchSc (max del ins)) = matchSc then
    ⟨max 0 (max matchSc (max del ins)), sizeToInt i, sizeToInt j, 'D'⟩
  else if max 0 (max matchSc (max del ins)) = del then
    ⟨max 0 (max matchSc (max del ins)), sizeToInt i, sizeToInt j, 'U'⟩
  else ⟨max 0 (max matchSc (max del ins)), sizeToInt i, sizeToInt j, 'L'⟩

/-- Closed description of `matrix[i][j]` after `initializeMatrix` and
`fillMatrix`, as a recurrence on the indices. -/
def cellAt (seq1 seq2 : List Char) : Nat → Nat → Cell
  | 0, _ => ⟨0, 0, 0, '0'⟩
  | _ + 1, 0 => ⟨0, 0, 0, '0'⟩
  | i + 1, j + 1 =>
    localCell ((cellAt seq1 seq2 i j).score + substScore seq1 seq2 (i + 1) (j + 1))
      ((cellAt seq1 seq2 i (j + 1)).score + GAP_SCORE)
      ((cellAt seq1 seq2 (i + 1) j).score + GAP_SCORE) (i + 1) (j + 1)

/-- Cell `(i, j)` has been visited when the scan is in row `r` with `k` columns
of that row done. -/
def Visited (r k i j : Nat) : Prop := 0 < i ∧ 0 < j ∧ (i < r ∨ (i = r ∧ j ≤ k))

/-- Cell `(i, j)` comes before cell `(a, b)` in row-major scan order. -/
def ScanBefore (i j a b : Nat) : Prop := i < a ∨ (i = a ∧ j < b)

/-- The state of the scan in row `r` with `k` columns of that row done: the
visited cells and the boundary hold the cells of the recurrence, and
`maxScore`, `maxCell` track the first visited cell of highest score. -/
def ScanInvariant (seq1 seq2 : List Char) (s : FillState) (r k : Nat) : Prop :=
  s.matrix.HasDim (seq1.length + 1) (seq2.length + 1) ∧
  (∀ i j, i ≤ seq1.length → j ≤ seq2.length →
    (i = 0 ∨ j = 0 ∨ i < r ∨ (i = r ∧ j ≤ k)) → s.matrix.get i j = cellAt seq1 seq2 i j) ∧
  ((s.maxScore = 0 ∧ s.maxCell = default ∧
      ∀ i j, j ≤ seq2.length → Visited r k i j → (cellAt seq1 seq2 i j).score ≤ 0) ∨
   (∃ a b, b ≤ seq2.length ∧ Visited r k a b ∧ 0 < s.maxScore ∧
      s.maxScore = (cellAt seq1 seq2 a b).score ∧ s.maxCell = cellAt seq1 seq2 a b ∧
      (∀ i j, j ≤ seq2.length → Visited r k i j → (cellAt seq1 seq2 i j).score ≤ s.maxScore) ∧
      (∀ i j, 0 < i → 0 < j → j ≤ seq2.length → ScanBefore i j a b →
        (cellAt seq1 seq2 i j).score < s.maxScore)))

end SmithWaterman

/-! ## Reading a FASTA file -/

/-- `::isspace` in the C locale: space, `\t`, `\n`, `\v`, `\f`, `\r`. -/
def isSpace (c : Char) : Bool :=
  c = ' ' || c = '\t' || c = '\n' || c = Char.ofNat 11 || c = Char.ofNat 12 || c = '\r'

/-- A line whose first character is `'>'`. -/
def isHeader (line : List Char) : Bool := line.head? = some '>'

/-- The lines of a file that come before its second header line. -/
def untilSecondHeader : List (List Char) → Bool → List (List Char)
  | [], _ => []
  | line :: rest, seenHeader =>
    if isHeader line then
      if seenHeader then [] else line :: untilSecondHeader rest true
    else line :: untilSecondHeader rest seenHeader

/-- The non-empty, non-header lines up to (not including) the second header. -/
def sequenceLines (lines : List (List Char)) : List (List Char) :=
  (untilSecondHeader lines false).filter (fun line => !line.isEmpty && !isHeader line)

/-- The cleaned sequence of a file: the concatenation of its sequence lines with
every whitespace character removed. -/
def cleanedSequence (lines : List (List Char)) : List Char :=
  (sequenceLines lines).flatten.filter (fun c => !isSpace c)

namespace NeedlemanWunsch

/-- The `while (std::getline(file, line))` loop of `NeedlemanWunsch::readFasta`,
over the lines of the opened file. -/
def readFastaLoop : List (List Char) → Bool → List Char → List Char
  | [], _, sequence => sequence
  | line :: rest, firstLine, sequence =>
    if line.isEmpty then readFastaLoop rest firstLine sequence
    else if line.getD 0 default = '>' then
      if firstLine then readFastaLoop rest false sequence
      else sequence
    else readFastaLoop rest firstLine (sequence ++ line.filter (fun c => !isSpace c))

/-- `NeedlemanWunsch::readFasta` on a file that could be opened. -/
def readFasta (lines : List (List Char)) : List Char := readFastaLoop lines true []

end NeedlemanWunsch

namespace SmithWaterman

/-- The `while (std::getline(file, line))` loop of `SmithWaterman::readFasta`,
over the lines of the opened file. -/
def readFastaLoop : List (List Char) → Bool → List Char → List Char
  | [], _, sequence => sequence
  | line :: rest, firstLine, sequence =>
    if line.isEmpty then readFastaLoop rest firstLine sequence
    else if line.getD 0 default = '>' then
      if firstLine then readFastaLoop rest false sequence
      else sequence
    else readFastaLoop rest firstLine (sequence ++ line)

/-- `SmithWaterman::readFasta` on a file that could be opened. -/
def readFasta (lines : List (List Char)) : List Char := readFastaLoop lines true []

end SmithWaterman

/-! ## Statistics and percentages -/

/-- A floating-point value: a finite value, an infinity, or the result of
`0.0 / 0.0`.  The signs of zeros and infinities are not distinguished. -/
inductive FloatValue where
  | finite (q : ℚ)
  | infinite
  | nan
  deriving DecidableEq

/-- The rounding of an exact result to a value of a floating-point format.
Zero is a value of every format. -/
structure Rounding where
  round : ℚ → ℚ
  round_zero : round 0 = 0

/-- Conversion of an `int` or `size_t` value to floating point. -/
def floatOfNat (r : Rounding) (n : Nat) : FloatValue := FloatValue.finite (r.round n)

/-- Floating-point division: `0 / 0` is not a number, any other quotient by
zero is infinite, and a finite quotient is rounded. -/
def floatDiv (r : Rounding) (x y : FloatValue) : FloatValue :=
  match x, y with
  | FloatValue.finite a, FloatValue.finite b =>
    if b = 0 then (if a = 0 then FloatValue.nan else FloatValue.infinite)
    else FloatValue.finite (r.round (a / b))
  | FloatValue.finite _, FloatValue.infinite => FloatValue.finite 0
  | FloatValue.infinite, FloatValue.finite _ => FloatValue.infinite
  | FloatValue.infinite, FloatValue.infinite => FloatValue.nan
  | FloatValue.nan, _ => FloatValue.nan
  | _, FloatValue.nan => FloatValue.nan

/-- Floating-point multiplication: a finite product is rounded, and a result
that is not a number stays so. -/
def floatMul (r : Rounding) (x y : FloatValue) : FloatValue :=
  match x, y with
  | FloatValue.finite a, FloatValue.finite b => FloatValue.finite (r.round (a * b))
  | FloatValue.finite a, FloatValue.infinite =>
    if a = 0 then FloatValue.nan else FloatValue.infinite
  | FloatValue.infinite, FloatValue.finite b =>
    if b = 0 then FloatValue.nan else FloatValue.infinite
  | FloatValue.infinite, FloatValue.infinite => FloatValue.infinite
  | FloatValue.nan, _ => FloatValue.nan
  | _, FloatValue.nan => FloatValue.nan

namespace AlignmentVisualizer

/-- The percentage printed after `Matches:` by `visualizeAlignment`:
`100.0 * matches / seq1.length()`, computed in `double`. -/
def matchPercent (r : Rounding) (seq1 seq2 : List Char) : FloatValue :=
  floatDiv r
    (floatMul r (FloatValue.finite 100) (floatOfNat r (alignmentStats seq1 seq2).numMatches))
    (floatOfNat r seq1.length)

end AlignmentVisualizer

namespace SmithWaterman

/-- One iteration of the statistics loop of `SmithWaterman::printResults`. -/
def statsStep (st : Stats) (a b : Char) : Stats :=
  if a = b then { st with numMatches := st.numMatches + 1 }
  else if a = '-' ∨ b = '-' then { st with numGaps := st.numGaps + 1 }
  else { st with numMismatches := st.numMismatches + 1 }

/-- The statistics loop of `SmithWaterman::printResults`, over
`i < aligned1.length()`. -/
def alignmentStats (aligned1 aligned2 : List Char) : Stats :=
  (List.range' 0 aligned1.length).foldl
    (fun st i => statsStep st (aligned1.getD i default) (aligned2.getD i default))
    { numMatches := 0, numMismatches := 0, numGaps := 0 }

/-- The value printed after `Sequence identity:` by `printResults`:
`(float)matches / aligned1.length() * 100`, computed in `float`. -/
def sequenceIdentity (r : Rounding) (aligned1 aligned2 : List Char) : FloatValue :=
  floatMul r
    (floatDiv r (floatOfNat r (alignmentStats aligned1 aligned2).numMatches)
      (floatOfNat r aligned1.length))
    (FloatValue.finite 100)

end SmithWaterman

/-! ## The substitution score -/

/-- The expression `x == y ? MATCH_SCORE : MISMATCH_SCORE` that both fill
routines add to `cell[i-1][j-1].score`. -/
def substitutionScore (x y : Char) : Int := if x = y then MATCH_SCORE else MISMATCH_SCORE

/-- The substitution score as the contract words it: the match score if the
symbols are equal and neither is the gap marker, else the mismatch score. -/
def contractSubstitutionScore (x y : Char) : Int :=
  if x = y ∧ x ≠ '-' ∧ y ≠ '-' then MATCH_SCORE else MISMATCH_SCORE

/-! ## The traceback loops with iteration counters -/

/-- Where a traceback loop stopped: the final indices and output strings, the
number of iterations made, and how many of them took none of the three
branches. -/
structure LoopEnd (ι : Type) where
  i : ι
  j : ι
  aligned1 : List Char
  aligned2 : List Char
  iterations : Nat
  idle : Nat

namespace NeedlemanWunsch

/-- The `while` loop of `NeedlemanWunsch::traceback`, as `tracebackLoop`, with
the iterations counted. -/
def tracebackRun (seq1 seq2 : List Char) (matrix : Grid Cell) :
    Nat → Nat → Nat → List Char → List Char → Nat → Nat → Option (LoopEnd Nat)
  | fuel, i, j, aligned1, aligned2, iterations, idle =>
    if i > 0 ∨ j > 0 then
      match fuel with
      | 0 => none
      | fuel + 1 =>
        let direction := (matrix.get i j).direction
        if direction = 'D' ∧ i > 0 ∧ j > 0 then
          tracebackRun seq1 seq2 matrix fuel (i - 1) (j - 1)
            (seq1.getD (i - 1) default :: aligned1) (seq2.getD (j - 1) default :: aligned2)
            (iterations + 1) idle
        else if direction = 'U' ∧ i > 0 then
          tracebackRun seq1 seq2 matrix fuel (i - 1) j
            (seq1.getD (i - 1) default :: aligned1) ('-' :: aligned2) (iterations + 1) idle
        else if j > 0 then
          tracebackRun seq1 seq2 matrix fuel i (j - 1)
            ('-' :: aligned1) (seq2.getD (j - 1) default :: aligned2) (iterations + 1) idle
        else
          tracebackRun seq1 seq2 matrix fuel i j aligned1 aligned2 (iterations + 1) (idle + 1)
    else some ⟨i, j, aligned1, aligned2, iterations, idle⟩

end NeedlemanWunsch

namespace SmithWaterman

/-- The `while` loop of `SmithWaterman::traceback`, as `tracebackLoop`, with
the iterations counted. -/
def tracebackRun (seq1 seq2 : List Char) (matrix : Grid Cell) :
    Nat → Int → Int → List Char → List Char → Nat → Nat → Option (LoopEnd Int)
  | fuel, i, j, aligned1, aligned2, iterations, idle =>
    if i > 0 ∧ j > 0 ∧ (matrix.get i.toNat j.toNat).score > 0 then
      match fuel with
      | 0 => none
      | fuel + 1 =>
        let direction := (matrix.get i.toNat j.toNat).direction
        if direction = 'D' then
          tracebackRun seq1 seq2 matrix fuel (i - 1) (j - 1)
            (seq1.getD (i - 1).toNat default :: aligned1)
            (seq2.getD (j - 1).toNat default :: aligned2) (iterations + 1) idle
        else if direction = 'U' then
          tracebackRun seq1 seq2 matrix fuel (i - 1) j
            (seq1.getD (i - 1).toNat default :: aligned1) ('-' :: aligned2) (iterations + 1) idle
        else if direction = 'L' then
          tracebackRun seq1 seq2 matrix fuel i (j - 1)
            ('-' :: aligned1) (seq2.getD (j - 1).toNat default :: aligned2) (iterations + 1) idle
        else
          tracebackRun seq1 seq2 matrix fuel i j aligned1 aligned2 (iterations + 1) (idle + 1)
    else some ⟨i, j, aligned1, aligned2, iterations, idle⟩

end SmithWaterman

/-! # Theorems -/

/-! ## Arrays, grids and loops -/

theorem Array.getD_setD_self {α : Type} (a : Array α) (i : Nat) (v d : α) (h : i < a.size) :
    (a.setD i v).getD i d = v := by
  simp [Array.getD, Array.setD, h]

theorem Array.getD_setD_of_ne {α : Type} (a : Array α) (i j : Nat) (v d : α) (h : i ≠ j) :
    (a.setD i v).getD j d = a.getD j d := by
  unfold Array.setD Array.getD
  by_cases hi : i < a.size
  · simp [hi, Array.get_set, h]
  · simp [hi]

theorem Grid.hasDim_set {α : Type} {m : Grid α} {r c : Nat} (h : m.HasDim r c)
    (i j : Nat) (x : α) : (m.set i j x).HasDim r c := by
  obtain ⟨h1, h2⟩ := h
  refine ⟨by simp [Grid.set, h1], fun k hk => ?_⟩
  unfold Grid.set
  by_cases hik : i = k
  · subst hik
    rw [Array.getD_setD_self _ _ _ _ (by omega)]
    rw [Array.size_setD]
    exact h2 i hk
  · rw [Array.getD_setD_of_ne _ _ _ _ _ hik]
    exact h2 k hk

theorem Grid.get_set_self {α : Type} [Inhabited α] {m : Grid α} {r c : Nat}
    (h : m.HasDim r c) {i j : Nat} (hi : i < r) (hj : j < c) (x : α) :
    (m.set i j x).get i j = x := by
  obtain ⟨h1, h2⟩ := h
  unfold Grid.get Grid.set
  rw [Array.getD_setD_self _ _ _ _ (by omega)]
  exact Array.getD_setD_self _ _ _ _ (by rw [h2 i hi]; exact hj)

theorem Grid.get_set_of_ne {α : Type} [Inhabited α] (m : Grid α) {i j i' j' : Nat}
    (h : i ≠ i' ∨ j ≠ j') (x : α) : (m.set i j x).get i' j' = m.get i' j' := by
  unfold Grid.get Grid.set
  by_cases hi : i = i'
  · subst hi
    have hj : j ≠ j' := by tauto
    by_cases hs : i < m.size
    · rw [Array.getD_setD_self _ _ _ _ hs]
      exact Array.getD_setD_of_ne _ _ _ _ _ hj
    · simp [Array.setD, hs]
  · rw [Array.getD_setD_of_ne _ _ _ _ _ hi]

theorem Grid.hasDim_mkArray {α : Type} (r c : Nat) (x : α) :
    Grid.HasDim (mkArray r (mkArray c x)) r c := by
  refine ⟨by simp, fun i hi => ?_⟩
  simp [Array.getD, hi]

theorem Grid.get_mkArray {α : Type} [Inhabited α] (r c : Nat) (x : α) {i j : Nat}
    (hi : i < r) (hj : j < c) : Grid.get (mkArray r (mkArray c x)) i j = x := by
  simp [Grid.get, Array.getD, hi, hj]

/-- Invariant rule for a counting loop. -/
theorem foldl_range'_invariant {σ : Type} (P : Nat → σ → Prop) (f : σ → Nat → σ)
    (lo n : Nat) (s : σ) (h0 : P 0 s)
    (hstep : ∀ k, k < n → ∀ t, P k t → P (k + 1) (f t (lo + k))) :
    P n ((List.range' lo n).foldl f s) := by
  induction n with
  | zero => simpa using h0
  | succ n ih =>
    rw [List.range'_concat, List.foldl_append]
    simp only [List.foldl_cons, List.foldl_nil, one_mul]
    exact hstep n (Nat.lt_succ_self n) _ (ih fun k hk t ht => hstep k (Nat.lt_succ_of_lt hk) t ht)

/-! ## Needleman–Wunsch: contents of the matrix -/

namespace NeedlemanWunsch

theorem fillCell_eq (seq1 seq2 : List Char) (i : Nat) (m : Grid Cell) (j : Nat) :
    fillCell seq1 seq2 i m j = m.set i j
      (chooseCell ((m.get (i - 1) (j - 1)).score + substScore seq1 seq2 i j)
        ((m.get (i - 1) j).score + GAP_SCORE) ((m.get i (j - 1)).score + GAP_SCORE)) := by
  unfold fillCell chooseCell substScore
  simp only
  split_ifs <;> rfl

theorem cellAt_zero_left (seq1 seq2 : List Char) (j : Nat) (hj : 0 < j) :
    cellAt seq1 seq2 0 j = ⟨sizeToInt (sizeMulInt j GAP_SCORE), 'L'⟩ := by
  obtain ⟨k, rfl⟩ := Nat.exists_eq_succ_of_ne_zero (Nat.pos_iff_ne_zero.mp hj)
  simp [cellAt]

theorem cellAt_zero_right (seq1 seq2 : List Char) (i : Nat) (hi : 0 < i) :
    cellAt seq1 seq2 i 0 = ⟨sizeToInt (sizeMulInt i GAP_SCORE), 'U'⟩ := by
  obtain ⟨k, rfl⟩ := Nat.exists_eq_succ_of_ne_zero (Nat.pos_iff_ne_zero.mp hi)
  simp [cellAt]

theorem cellAt_succ (seq1 seq2 : List Char) (i j : Nat) :
    cellAt seq1 seq2 (i + 1) (j + 1) =
      chooseCell ((cellAt seq1 seq2 i j).score + substScore seq1 seq2 (i + 1) (j + 1))
        ((cellAt seq1 seq2 i (j + 1)).score + GAP_SCORE)
        ((cellAt seq1 seq2 (i + 1) j).score + GAP_SCORE) := by
  rw [cellAt]

/-- After `initializeMatrix` the matrix has its full size and the boundary row
and column hold the cells of the recurrence. -/
theorem initializeMatrix_spec (seq1 seq2 : List Char) :
    (initializeMatrix seq1 seq2).HasDim (seq1.length + 1) (seq2.length + 1) ∧
    ∀ i j, i ≤ seq1.length → j ≤ seq2.length → (i = 0 ∨ j = 0) →
      (initializeMatrix seq1 seq2).get i j = cellAt seq1 seq2 i j := by
  have h1 := foldl_range'_invariant
    (fun k (m : Grid Cell) => m.HasDim (seq1.length + 1) (seq2.length + 1) ∧
      ∀ j, j < k → m.get 0 j = ⟨sizeToInt (sizeMulInt j GAP_SCORE), 'L'⟩)
    (fun m j => m.set 0 j ⟨sizeToInt (sizeMulInt j GAP_SCORE), 'L'⟩) 0 (seq2.length + 1)
    (mkArray (seq1.length + 1) (mkArray (seq2.length + 1) (default : Cell)))
    ⟨Grid.hasDim_mkArray _ _ _, fun j hj => absurd hj (Nat.not_lt_zero j)⟩
    (by
      intro k hk t ⟨hd, ht⟩
      refine ⟨Grid.hasDim_set hd _ _ _, fun j hj => ?_⟩
      rw [Nat.zero_add]
      by_cases hjk : j = k
      · subst hjk
        exact Grid.get_set_self hd (Nat.succ_pos _) hk _
      · rw [Grid.get_set_of_ne _ (Or.inr (Ne.symm hjk))]
        exact ht j (by omega))
  have h2 := foldl_range'_invariant
    (fun k (m : Grid Cell) => m.HasDim (seq1.length + 1) (seq2.length + 1) ∧
      (∀ j, 0 < j → j ≤ seq2.length → m.get 0 j = ⟨sizeToInt (sizeMulInt j GAP_SCORE), 'L'⟩) ∧
      ∀ i, i < k → m.get i 0 = ⟨sizeToInt (sizeMulInt i GAP_SCORE), 'U'⟩)
    (fun m i => m.set i 0 ⟨sizeToInt (sizeMulInt i GAP_SCORE), 'U'⟩) 0 (seq1.length + 1) _
    ⟨h1.1, fun j _ hj => h1.2 j (by omega), fun i hi => absurd hi (Nat.not_lt_zero i)⟩
    (by
      intro k hk t ⟨hd, ht1, ht2⟩
      refine ⟨Grid.hasDim_set hd _ _ _, fun j hj0 hj => ?_, fun i hi => ?_⟩
      · rw [Grid.get_set_of_ne _ (Or.inr (by omega))]
        exact ht1 j hj0 hj
      · rw [Nat.zero_add]
        by_cases hik : i = k
        · subst hik
          exact Grid.get_set_self hd hk (Nat.succ_pos _) _
        · rw [Grid.get_set_of_ne _ (Or.inl (Ne.symm hik))]
          exact ht2 i (by omega))
  obtain ⟨hd, hrow, hcol⟩ := h2
  refine ⟨Grid.hasDim_set hd _ _ _, fun i j hi hj hij => ?_⟩
  show Grid.get (Grid.set _ 0 0 _) i j = _
  by_cases h00 : i = 0 ∧ j = 0
  · obtain ⟨rfl, rfl⟩ := h00
    rw [Grid.get_set_self hd (Nat.succ_pos _) (Nat.succ_pos _)]
    simp [cellAt]
  · rw [Grid.get_set_of_ne _ (by omega)]
    rcases hij with rfl | rfl
    · rw [cellAt_zero_left _ _ j (by omega)]
      exact hrow j (by omega) hj
    · rw [cellAt_zero_right _ _ i (by omega)]
      exact hcol i (by omega)

end NeedlemanWunsch

namespace NeedlemanWunsch

theorem fillCell_filledUpTo (seq1 seq2 : List Char) (m : Grid Cell) (i k : Nat)
    (hi : i < seq1.length) (hk : k < seq2.length)
    (h : FilledUpTo seq1 seq2 m (i + 1) k) :
    FilledUpTo seq1 seq2 (fillCell seq1 seq2 (1 + i) m (1 + k)) (i + 1) (k + 1) := by
  obtain ⟨hd, hc⟩ := h
  rw [fillCell_eq]
  refine ⟨Grid.hasDim_set hd _ _ _, fun a b ha hb hab => ?_⟩
  by_cases hnew : a = 1 + i ∧ b = 1 + k
  · obtain ⟨rfl, rfl⟩ := hnew
    rw [Grid.get_set_self hd (by omega) (by omega)]
    have e1 : 1 + i - 1 = i := by omega
    have e2 : 1 + k - 1 = k := by omega
    rw [e1, e2, hc i k (by omega) (by omega) (by omega),
      hc i (1 + k) (by omega) (by omega) (by omega),
      hc (1 + i) k (by omega) (by omega) (by omega)]
    rw [Nat.add_comm 1 i, Nat.add_comm 1 k, cellAt_succ]
  · rw [Grid.get_set_of_ne _ (by omega)]
    exact hc a b ha hb (by omega)

theorem fillRow_filledUpTo (seq1 seq2 : List Char) (m : Grid Cell) (i : Nat)
    (hi : i < seq1.length) (h : FilledUpTo seq1 seq2 m (i + 1) 0) :
    FilledUpTo seq1 seq2
      ((List.range' 1 seq2.length).foldl (fillCell seq1 seq2 (1 + i)) m) (i + 1) seq2.length :=
  foldl_range'_invariant (fun k t => FilledUpTo seq1 seq2 t (i + 1) k)
    (fillCell seq1 seq2 (1 + i)) 1 seq2.length m h
    (fun k hk t ht => fillCell_filledUpTo seq1 seq2 t i k hi hk ht)

/-- After `initializeMatrix` and `fillMatrix` every cell of the matrix is the
cell of the recurrence `cellAt`. -/
theorem scoreMatrix_spec (seq1 seq2 : List Char) :
    (scoreMatrix seq1 seq2).HasDim (seq1.length + 1) (seq2.length + 1) ∧
    ∀ i j, i ≤ seq1.length → j ≤ seq2.length →
      (scoreMatrix seq1 seq2).get i j = cellAt seq1 seq2 i j := by
  have h := foldl_range'_invariant (fun k t => FilledUpTo seq1 seq2 t (k + 1) 0)
    (fun m i => (List.range' 1 seq2.length).foldl (fillCell seq1 seq2 i) m) 1 seq1.length
    (initializeMatrix seq1 seq2)
    ⟨(initializeMatrix_spec seq1 seq2).1, fun i j hi hj hij =>
      (initializeMatrix_spec seq1 seq2).2 i j hi hj (by omega)⟩
    (by
      intro k hk t ht
      obtain ⟨hd, hc⟩ := fillRow_filledUpTo seq1 seq2 t k hk ht
      exact ⟨hd, fun i j hi hj hij => hc i j hi hj (by omega)⟩)
  exact ⟨h.1, fun i j hi hj => h.2 i j hi hj (by omega)⟩

theorem scoreMatrix_get (seq1 seq2 : List Char) {i j : Nat} (hi : i ≤ seq1.length)
    (hj : j ≤ seq2.length) : (scoreMatrix seq1 seq2).get i j = cellAt seq1 seq2 i j :=
  (scoreMatrix_spec seq1 seq2).2 i j hi hj

theorem globalScore_eq (seq1 seq2 : List Char) :
    globalScore seq1 seq2 = (cellAt seq1 seq2 seq1.length seq2.length).score := by
  unfold globalScore
  rw [scoreMatrix_get seq1 seq2 le_rfl le_rfl]

end NeedlemanWunsch

/-! ## Integer conversions -/

theorem sizeToInt_sizeMulInt_gap (k : Nat) (hk : k ≤ 1073741824) :
    sizeToInt (sizeMulInt k GAP_SCORE) = -2 * (k : Int) := by
  have h2 : intToSize GAP_SCORE = 18446744073709551614 := by decide
  unfold sizeToInt sizeMulInt
  rw [h2]
  split_ifs with h <;> omega

/-! ## Alignments -/

theorem spellFst_append (xs ys : List Col) : spellFst (xs ++ ys) = spellFst xs ++ spellFst ys := by
  induction xs with
  | nil => rfl
  | cons c cs ih => cases c <;> simp [spellFst, ih]

theorem spellSnd_append (xs ys : List Col) : spellSnd (xs ++ ys) = spellSnd xs ++ spellSnd ys := by
  induction xs with
  | nil => rfl
  | cons c cs ih => cases c <;> simp [spellSnd, ih]

theorem alignmentScore_append (xs ys : List Col) :
    alignmentScore (xs ++ ys) = alignmentScore xs + alignmentScore ys := by
  induction xs with
  | nil => simp [alignmentScore]
  | cons c cs ih => simp [alignmentScore, ih, add_assoc]

theorem take_succ_getD (s : List Char) (k : Nat) (hk : k < s.length) :
    s.take (k + 1) = s.take k ++ [s.getD k default] := by
  rw [List.take_succ, List.getD_eq_getElem?_getD, List.getElem?_eq_getElem hk]
  rfl

namespace NeedlemanWunsch

theorem chooseCell_cases (m d l : Int) :
    ((chooseCell m d l).direction = 'D' ∧ (chooseCell m d l).score = m) ∨
    ((chooseCell m d l).direction = 'U' ∧ (chooseCell m d l).score = d) ∨
    ((chooseCell m d l).direction = 'L' ∧ (chooseCell m d l).score = l) := by
  unfold chooseCell
  split_ifs <;> simp

theorem chooseCell_score (m d l : Int) : (chooseCell m d l).score = max m (max d l) := by
  unfold chooseCell
  split_ifs <;> simp only <;> omega

end NeedlemanWunsch

namespace NeedlemanWunsch

theorem cellAt_interior (seq1 seq2 : List Char) (i j : Nat) (hi : 0 < i) (hj : 0 < j) :
    ((cellAt seq1 seq2 i j).direction = 'D' ∧ (cellAt seq1 seq2 i j).score =
        (cellAt seq1 seq2 (i - 1) (j - 1)).score + substScore seq1 seq2 i j) ∨
    ((cellAt seq1 seq2 i j).direction = 'U' ∧ (cellAt seq1 seq2 i j).score =
        (cellAt seq1 seq2 (i - 1) j).score + GAP_SCORE) ∨
    ((cellAt seq1 seq2 i j).direction = 'L' ∧ (cellAt seq1 seq2 i j).score =
        (cellAt seq1 seq2 i (j - 1)).score + GAP_SCORE) := by
  obtain ⟨a, rfl⟩ := Nat.exists_eq_succ_of_ne_zero (Nat.pos_iff_ne_zero.mp hi)
  obtain ⟨b, rfl⟩ := Nat.exists_eq_succ_of_ne_zero (Nat.pos_iff_ne_zero.mp hj)
  rw [cellAt_succ]
  exact chooseCell_cases _ _ _

theorem cellAt_boundary_score (seq1 seq2 : List Char) (i j : Nat) (h : i = 0 ∨ j = 0)
    (hi : i ≤ 1073741824) (hj : j ≤ 1073741824) :
    (cellAt seq1 seq2 i j).score = -2 * ((i : Int) + j) := by
  rcases Nat.eq_zero_or_pos i with rfl | hi0
  · rcases Nat.eq_zero_or_pos j with rfl | hj0
    · simp [cellAt]
    · rw [cellAt_zero_left _ _ j hj0]
      simp [sizeToInt_sizeMulInt_gap j hj]
  · have hj0 : j = 0 := by omega
    subst hj0
    rw [cellAt_zero_right _ _ i hi0]
    simp [sizeToInt_sizeMulInt_gap i hi]

theorem tracebackLoop_done (seq1 seq2 : List Char) (m : Grid Cell) (fuel : Nat)
    (a1 a2 : List Char) : tracebackLoop seq1 seq2 m fuel 0 0 a1 a2 = some (a1, a2) := by
  unfold tracebackLoop
  simp

theorem tracebackLoop_succ (seq1 seq2 : List Char) (m : Grid Cell) (fuel i j : Nat)
    (a1 a2 : List Char) (h : i > 0 ∨ j > 0) :
    tracebackLoop seq1 seq2 m (fuel + 1) i j a1 a2 =
      if (m.get i j).direction = 'D' ∧ i > 0 ∧ j > 0 then
        tracebackLoop seq1 seq2 m fuel (i - 1) (j - 1)
          (seq1.getD (i - 1) default :: a1) (seq2.getD (j - 1) default :: a2)
      else if (m.get i j).direction = 'U' ∧ i > 0 then
        tracebackLoop seq1 seq2 m fuel (i - 1) j (seq1.getD (i - 1) default :: a1) ('-' :: a2)
      else if j > 0 then
        tracebackLoop seq1 seq2 m fuel i (j - 1) ('-' :: a1) (seq2.getD (j - 1) default :: a2)
      else tracebackLoop seq1 seq2 m fuel i j a1 a2 := by
  rw [tracebackLoop]
  simp only [h, if_true]

/-- The traceback from cell `(i, j)` emits an alignment of the prefixes of
length `i` and `j`; its score is the score of that cell when the boundary
scores are not truncated. -/
theorem tracebackLoop_spec (seq1 seq2 : List Char) :
    ∀ n i j, i + j = n → i ≤ seq1.length → j ≤ seq2.length →
    ∃ al : List Col, spellFst al = seq1.take i ∧ spellSnd al = seq2.take j ∧
      (seq1.length ≤ 1073741824 → seq2.length ≤ 1073741824 →
        alignmentScore al = (cellAt seq1 seq2 i j).score) ∧
      ∀ fuel, n ≤ fuel → ∀ a1 a2,
        tracebackLoop seq1 seq2 (scoreMatrix seq1 seq2) fuel i j a1 a2 =
          some (al.map Col.top ++ a1, al.map Col.bottom ++ a2) := by
  intro n
  induction n using Nat.strong_induction_on with
  | _ n ih =>
    intro i j hn hi hj
    by_cases h0 : i = 0 ∧ j = 0
    · obtain ⟨rfl, rfl⟩ := h0
      refine ⟨[], by simp [spellFst], by simp [spellSnd], fun _ _ => by simp [alignmentScore, cellAt],
        fun fuel _ a1 a2 => ?_⟩
      simpa using tracebackLoop_done seq1 seq2 _ fuel a1 a2
    · have hpos : i > 0 ∨ j > 0 := by omega
      have hget : (scoreMatrix seq1 seq2).get i j = cellAt seq1 seq2 i j :=
        scoreMatrix_get seq1 seq2 hi hj
      by_cases hD : (cellAt seq1 seq2 i j).direction = 'D' ∧ i > 0 ∧ j > 0
      · -- diagonal move
        obtain ⟨hd, hi0, hj0⟩ := hD
        obtain ⟨al, h1, h2, h3, h4⟩ := ih (i - 1 + (j - 1)) (by omega) (i - 1) (j - 1) rfl
          (by omega) (by omega)
        refine ⟨al ++ [Col.both (seq1.getD (i - 1) default) (seq2.getD (j - 1) default)],
          ?_, ?_, ?_, ?_⟩
        · rw [spellFst_append, h1]
          have := take_succ_getD seq1 (i - 1) (by omega)
          rw [Nat.sub_add_cancel hi0] at this
          rw [this]; rfl
        · rw [spellSnd_append, h2]
          have := take_succ_getD seq2 (j - 1) (by omega)
          rw [Nat.sub_add_cancel hj0] at this
          rw [this]; rfl
        · intro hb1 hb2
          rw [alignmentScore_append, h3 hb1 hb2]
          rcases cellAt_interior seq1 seq2 i j hi0 hj0 with h | h | h
          · rw [h.2]
            simp [alignmentScore, Col.score, substScore, MATCH_SCORE, MISMATCH_SCORE]
          · rw [hd] at h; exact absurd h.1 (by decide)
          · rw [hd] at h; exact absurd h.1 (by decide)
        · intro fuel hf a1 a2
          obtain ⟨f, rfl⟩ : ∃ f, fuel = f + 1 := ⟨fuel - 1, by omega⟩
          rw [tracebackLoop_succ _ _ _ _ _ _ _ _ hpos, hget, if_pos ⟨hd, hi0, hj0⟩,
            h4 f (by omega)]
          simp [Col.top, Col.bottom]
      · by_cases hU : (cellAt seq1 seq2 i j).direction = 'U' ∧ i > 0
        · -- upward move
          obtain ⟨hd, hi0⟩ := hU
          obtain ⟨al, h1, h2, h3, h4⟩ := ih (i - 1 + j) (by omega) (i - 1) j rfl
            (by omega) hj
          refine ⟨al ++ [Col.del (seq1.getD (i - 1) default)], ?_, ?_, ?_, ?_⟩
          · rw [spellFst_append, h1]
            have := take_succ_getD seq1 (i - 1) (by omega)
            rw [Nat.sub_add_cancel hi0] at this
            rw [this]; rfl
          · rw [spellSnd_append, h2]; simp [spellSnd]
          · intro hb1 hb2
            rw [alignmentScore_append, h3 hb1 hb2]
            rcases Nat.eq_zero_or_pos j with rfl | hj0
            · rw [cellAt_boundary_score _ _ i 0 (Or.inr rfl) (by omega) (by omega),
                cellAt_boundary_score _ _ (i - 1) 0 (Or.inr rfl) (by omega) (by omega)]
              simp [alignmentScore, Col.score]
              omega
            · rcases cellAt_interior seq1 seq2 i j hi0 hj0 with h | h | h
              · rw [hd] at h; exact absurd h.1 (by decide)
              · rw [h.2]; simp [alignmentScore, Col.score, GAP_SCORE]
              · rw [hd] at h; exact absurd h.1 (by decide)
          · intro fuel hf a1 a2
            obtain ⟨f, rfl⟩ : ∃ f, fuel = f + 1 := ⟨fuel - 1, by omega⟩
            rw [tracebackLoop_succ _ _ _ _ _ _ _ _ hpos, hget, if_neg hD, if_pos ⟨hd, hi0⟩,
              h4 f (by omega)]
            simp [Col.top, Col.bottom]
        · -- leftward move; the remaining branch cannot be reached
          have hj0 : j > 0 := by
            by_contra hc
            have hj' : j = 0 := by omega
            subst hj'
            have hi0 : 0 < i := by omega
            apply hU
            rw [cellAt_zero_right _ _ i hi0]
            exact ⟨rfl, hi0⟩
          obtain ⟨al, h1, h2, h3, h4⟩ := ih (i + (j - 1)) (by omega) i (j - 1) rfl
            hi (by omega)
          refine ⟨al ++ [Col.ins (seq2.getD (j - 1) default)], ?_, ?_, ?_, ?_⟩
          · rw [spellFst_append, h1]; simp [spellFst]
          · rw [spellSnd_append, h2]
            have := take_succ_getD seq2 (j - 1) (by omega)
            rw [Nat.sub_add_cancel hj0] at this
            rw [this]; rfl
          · intro hb1 hb2
            rw [alignmentScore_append, h3 hb1 hb2]
            rcases Nat.eq_zero_or_pos i with rfl | hi0
            · rw [cellAt_boundary_score _ _ 0 j (Or.inl rfl) (by omega) (by omega),
                cellAt_boundary_score _ _ 0 (j - 1) (Or.inl rfl) (by omega) (by omega)]
              simp [alignmentScore, Col.score]
              omega
            · rcases cellAt_interior seq1 seq2 i j hi0 hj0 with h | h | h
              · exact absurd ⟨h.1, hi0, hj0⟩ hD
              · exact absurd ⟨h.1, hi0⟩ hU
              · rw [h.2]; simp [alignmentScore, Col.score, GAP_SCORE]
          · intro fuel hf a1 a2
            obtain ⟨f, rfl⟩ : ∃ f, fuel = f + 1 := ⟨fuel - 1, by omega⟩
            rw [tracebackLoop_succ _ _ _ _ _ _ _ _ hpos, hget, if_neg hD, if_neg hU,
              if_pos hj0, h4 f (by omega)]
            simp [Col.top, Col.bottom]

end NeedlemanWunsch

/-! ## Rendered alignments -/

theorem stripGaps_map_top (al : List Col) (h : '-' ∉ spellFst al) :
    stripGaps (al.map Col.top) = spellFst al := by
  induction al with
  | nil => rfl
  | cons c cs ih =>
    cases c with
    | both a b =>
      simp only [spellFst, List.mem_cons, not_or] at h
      simp only [List.map_cons, Col.top, spellFst, stripGaps] at ih ⊢
      rw [List.filter_cons_of_pos (by simpa using Ne.symm h.1), ih h.2]
    | del a =>
      simp only [spellFst, List.mem_cons, not_or] at h
      simp only [List.map_cons, Col.top, spellFst, stripGaps] at ih ⊢
      rw [List.filter_cons_of_pos (by simpa using Ne.symm h.1), ih h.2]
    | ins b =>
      simp only [spellFst] at h
      simp only [List.map_cons, Col.top, spellFst, stripGaps] at ih ⊢
      rw [List.filter_cons_of_neg (by simp), ih h]

theorem stripGaps_map_bottom (al : List Col) (h : '-' ∉ spellSnd al) :
    stripGaps (al.map Col.bottom) = spellSnd al := by
  induction al with
  | nil => rfl
  | cons c cs ih =>
    cases c with
    | both a b =>
      simp only [spellSnd, List.mem_cons, not_or] at h
      simp only [List.map_cons, Col.bottom, spellSnd, stripGaps] at ih ⊢
      rw [List.filter_cons_of_pos (by simpa using Ne.symm h.1), ih h.2]
    | del a =>
      simp only [spellSnd] at h
      simp only [List.map_cons, Col.bottom, spellSnd, stripGaps] at ih ⊢
      rw [List.filter_cons_of_neg (by simp), ih h]
    | ins b =>
      simp only [spellSnd, List.mem_cons, not_or] at h
      simp only [List.map_cons, Col.bottom, spellSnd, stripGaps] at ih ⊢
      rw [List.filter_cons_of_pos (by simpa using Ne.symm h.1), ih h.2]

theorem rescore_render (al : List Col) (h1 : '-' ∉ spellFst al) (h2 : '-' ∉ spellSnd al) :
    rescore (al.map Col.top) (al.map Col.bottom) = alignmentScore al := by
  induction al with
  | nil => rfl
  | cons c cs ih =>
    cases c with
    | both a b =>
      simp only [spellFst, spellSnd, List.mem_cons, not_or] at h1 h2
      simp only [List.map_cons, rescore, alignmentScore, Col.top, Col.bottom, Col.score,
        columnScore, ih h1.2 h2.2]
      rw [if_neg (by
        rintro (h | h)
        · exact h1.1 h.symm
        · exact h2.1 h.symm)]
    | del a =>
      simp only [spellFst, spellSnd, List.mem_cons, not_or] at h1 h2
      simp [rescore, alignmentScore, Col.top, Col.bottom, Col.score, columnScore, ih h1.2 h2]
    | ins b =>
      simp only [spellFst, spellSnd, List.mem_cons, not_or] at h1 h2
      simp [rescore, alignmentScore, Col.top, Col.bottom, Col.score, columnScore, ih h1 h2.2]

theorem render_no_double_gap (al : List Col) (h1 : '-' ∉ spellFst al) (h2 : '-' ∉ spellSnd al) :
    ∀ p ∈ List.zip (al.map Col.top) (al.map Col.bottom), ¬ (p.1 = '-' ∧ p.2 = '-') := by
  induction al with
  | nil => simp
  | cons c cs ih =>
    intro p hp
    cases c with
    | both a b =>
      simp only [spellFst, spellSnd, List.mem_cons, not_or] at h1 h2
      simp only [List.map_cons, List.zip_cons_cons, List.mem_cons, Col.top, Col.bottom] at hp
      rcases hp with rfl | hp
      · exact fun h => h1.1 h.1.symm
      · exact ih h1.2 h2.2 p hp
    | del a =>
      simp only [spellFst, spellSnd, List.mem_cons, not_or] at h1 h2
      simp only [List.map_cons, List.zip_cons_cons, List.mem_cons, Col.top, Col.bottom] at hp
      rcases hp with rfl | hp
      · exact fun h => h1.1 h.1.symm
      · exact ih h1.2 h2 p hp
    | ins b =>
      simp only [spellFst, spellSnd, List.mem_cons, not_or] at h1 h2
      simp only [List.map_cons, List.zip_cons_cons, List.mem_cons, Col.top, Col.bottom] at hp
      rcases hp with rfl | hp
      · exact fun h => h2.1 h.2.symm
      · exact ih h1 h2.2 p hp

theorem snoc_eq_take (s xs : List Char) (a : Char) (i : Nat) (hi : i ≤ s.length)
    (h : xs ++ [a] = s.take i) : 0 < i ∧ xs = s.take (i - 1) ∧ a = s.getD (i - 1) default := by
  rcases Nat.eq_zero_or_pos i with rfl | hpos
  · simp at h
  · obtain ⟨k, rfl⟩ : ∃ k, i = k + 1 := ⟨i - 1, by omega⟩
    rw [take_succ_getD s k (by omega)] at h
    have := List.append_inj' h rfl
    exact ⟨hpos, this.1, by simpa using this.2⟩

namespace NeedlemanWunsch

theorem cellAt_score_interior (seq1 seq2 : List Char) (i j : Nat) (hi : 0 < i) (hj : 0 < j) :
    (cellAt seq1 seq2 i j).score =
      max ((cellAt seq1 seq2 (i - 1) (j - 1)).score + substScore seq1 seq2 i j)
        (max ((cellAt seq1 seq2 (i - 1) j).score + GAP_SCORE)
          ((cellAt seq1 seq2 i (j - 1)).score + GAP_SCORE)) := by
  obtain ⟨a, rfl⟩ := Nat.exists_eq_succ_of_ne_zero (Nat.pos_iff_ne_zero.mp hi)
  obtain ⟨b, rfl⟩ := Nat.exists_eq_succ_of_ne_zero (Nat.pos_iff_ne_zero.mp hj)
  rw [cellAt_succ, chooseCell_score]
  rfl

/-- No alignment of two prefixes scores more than the matrix cell of those
prefixes. -/
theorem alignmentScore_le_cellAt (seq1 seq2 : List Char) (h1 : seq1.length ≤ 1073741824)
    (h2 : seq2.length ≤ 1073741824) (al : List Col) :
    ∀ i j, i ≤ seq1.length → j ≤ seq2.length → spellFst al = seq1.take i →
      spellSnd al = seq2.take j → alignmentScore al ≤ (cellAt seq1 seq2 i j).score := by
  induction al using List.reverseRecOn with
  | nil =>
    intro i j hi hj hf hs
    have hi0 : i = 0 := by
      by_contra hc
      have : (seq1.take i).length = i := List.length_take_of_le hi
      rw [← hf] at this
      simp [spellFst] at this
      omega
    have hj0 : j = 0 := by
      by_contra hc
      have : (seq2.take j).length = j := List.length_take_of_le hj
      rw [← hs] at this
      simp [spellSnd] at this
      omega
    subst hi0 hj0
    simp [alignmentScore, cellAt]
  | append_singleton cs c ih =>
    intro i j hi hj hf hs
    rw [alignmentScore_append]
    rw [spellFst_append] at hf
    rw [spellSnd_append] at hs
    cases c with
    | both a b =>
      obtain ⟨hi0, hf', ha⟩ := snoc_eq_take seq1 _ a i hi hf
      obtain ⟨hj0, hs', hb⟩ := snoc_eq_take seq2 _ b j hj hs
      have := ih (i - 1) (j - 1) (by omega) (by omega) hf' hs'
      rw [cellAt_score_interior _ _ i j hi0 hj0]
      have hsub : alignmentScore [Col.both a b] = substScore seq1 seq2 i j := by
        simp [alignmentScore, Col.score, substScore, MATCH_SCORE, MISMATCH_SCORE, ha, hb]
      rw [hsub]
      exact le_max_of_le_left (by omega)
    | del a =>
      obtain ⟨hi0, hf', _⟩ := snoc_eq_take seq1 _ a i hi hf
      have hs' : spellSnd cs = seq2.take j := by simpa [spellSnd] using hs
      have := ih (i - 1) j (by omega) hj hf' hs'
      have hsc : alignmentScore [Col.del a] = -2 := by simp [alignmentScore, Col.score]
      rw [hsc]
      rcases Nat.eq_zero_or_pos j with rfl | hj0
      · rw [cellAt_boundary_score _ _ i 0 (Or.inr rfl) (by omega) (by omega)]
        rw [cellAt_boundary_score _ _ (i - 1) 0 (Or.inr rfl) (by omega) (by omega)] at this
        omega
      · rw [cellAt_score_interior _ _ i j hi0 hj0]
        exact le_max_of_le_right (le_max_of_le_left (by simp only [GAP_SCORE]; omega))
    | ins b =>
      obtain ⟨hj0, hs', _⟩ := snoc_eq_take seq2 _ b j hj hs
      have hf' : spellFst cs = seq1.take i := by simpa [spellFst] using hf
      have := ih i (j - 1) hi (by omega) hf' hs'
      have hsc : alignmentScore [Col.ins b] = -2 := by simp [alignmentScore, Col.score]
      rw [hsc]
      rcases Nat.eq_zero_or_pos i with rfl | hi0
      · rw [cellAt_boundary_score _ _ 0 j (Or.inl rfl) (by omega) (by omega)]
        rw [cellAt_boundary_score _ _ 0 (j - 1) (Or.inl rfl) (by omega) (by omega)] at this
        omega
      · rw [cellAt_score_interior _ _ i j hi0 hj0]
        exact le_max_of_le_right (le_max_of_le_right (by simp only [GAP_SCORE]; omega))

/-- The alignment emitted by `align`, described through its columns. -/
theorem align_spec (seq1 seq2 : List Char) :
    ∃ al : List Col, spellFst al = seq1 ∧ spellSnd al = seq2 ∧
      (seq1.length ≤ 1073741824 → seq2.length ≤ 1073741824 →
        alignmentScore al = globalScore seq1 seq2) ∧
      ∃ r, align seq1 seq2 = some r ∧ r.matrix = scoreMatrix seq1 seq2 ∧
        r.aligned1 = al.map Col.top ∧ r.aligned2 = al.map Col.bottom := by
  obtain ⟨al, h1, h2, h3, h4⟩ :=
    tracebackLoop_spec seq1 seq2 _ seq1.length seq2.length rfl le_rfl le_rfl
  refine ⟨al, by simpa using h1, by simpa using h2, ?_, ?_⟩
  · intro hb1 hb2
    rw [globalScore_eq]
    exact h3 hb1 hb2
  · refine ⟨⟨scoreMatrix seq1 seq2, al.map Col.top, al.map Col.bottom⟩, ?_, rfl, rfl, rfl⟩
    unfold align alignWith traceback
    simp only
    rw [h4 _ le_rfl]
    simp

end NeedlemanWunsch

theorem sizeToInt_lt (x : Nat) : sizeToInt x < 2147483648 := by
  unfold sizeToInt
  split_ifs <;> omega

theorem sizeToInt_sizeMulInt_gap_le (k : Nat) :
    sizeToInt (sizeMulInt k GAP_SCORE) ≤ 3 * (k : Int) := by
  by_cases hk : k ≤ 1073741824
  · rw [sizeToInt_sizeMulInt_gap k hk]; omega
  · have := sizeToInt_lt (sizeMulInt k GAP_SCORE)
    omega

namespace NeedlemanWunsch

theorem substScore_le (seq1 seq2 : List Char) (i j : Nat) : substScore seq1 seq2 i j ≤ 1 := by
  unfold substScore MATCH_SCORE MISMATCH_SCORE
  split_ifs <;> omega

theorem substScore_self (seq : List Char) (i : Nat) : substScore seq seq i i = 1 := by
  simp [substScore, MATCH_SCORE]

theorem substScore_swap (seq1 seq2 : List Char) (i j : Nat) :
    substScore seq1 seq2 i j = substScore seq2 seq1 j i := by
  unfold substScore
  by_cases h : seq1.getD (i - 1) default = seq2.getD (j - 1) default
  · rw [if_pos h, if_pos h.symm]
  · rw [if_neg h, if_neg (Ne.symm h)]

/-- A bound on every cell that is tight on the main diagonal; it holds
whatever the lengths, truncated boundary scores included. -/
theorem cellAt_score_le (seq1 seq2 : List Char) :
    ∀ i j, (cellAt seq1 seq2 i j).score ≤ max (3 * (j : Int) - 2 * i) (3 * (i : Int) - 2 * j) := by
  intro i
  induction i with
  | zero =>
    intro j
    rcases Nat.eq_zero_or_pos j with rfl | hj
    · simp [cellAt]
    · rw [cellAt_zero_left _ _ j hj]
      have := sizeToInt_sizeMulInt_gap_le j
      simp only
      omega
  | succ i ih =>
    intro j
    induction j with
    | zero =>
      rw [cellAt_zero_right _ _ (i + 1) (Nat.succ_pos i)]
      have := sizeToInt_sizeMulInt_gap_le (i + 1)
      simp only
      omega
    | succ j ihj =>
      rw [cellAt_succ, chooseCell_score]
      have h1 := ih j
      have h2 := ih (j + 1)
      have h3 := substScore_le seq1 seq2 (i + 1) (j + 1)
      simp only [GAP_SCORE]
      push_cast at h1 h2 ihj ⊢
      omega

theorem cellAt_diagonal (seq : List Char) (i : Nat) :
    cellAt seq seq (i + 1) (i + 1) = ⟨(i : Int) + 1, 'D'⟩ ∧
      (cellAt seq seq i i).score = i := by
  induction i with
  | zero =>
    have h1 := cellAt_score_le seq seq 0 1
    have h2 := cellAt_score_le seq seq 1 0
    rw [cellAt_succ, substScore_self]
    refine ⟨?_, by simp [cellAt]⟩
    unfold chooseCell
    simp only [GAP_SCORE]
    have h0 : (cellAt seq seq 0 0).score = 0 := by simp [cellAt]
    rw [if_pos (by push_cast at h1 h2 ⊢; omega), h0]
    simp
  | succ i ih =>
    have hs : (cellAt seq seq (i + 1) (i + 1)).score = ((i + 1 : Nat) : Int) := by
      rw [ih.1]; simp
    refine ⟨?_, hs⟩
    have h1 := cellAt_score_le seq seq (i + 1) (i + 1 + 1)
    have h2 := cellAt_score_le seq seq (i + 1 + 1) (i + 1)
    rw [cellAt_succ, substScore_self]
    unfold chooseCell
    simp only [GAP_SCORE]
    rw [if_pos (by push_cast at h1 h2 hs ⊢; omega), hs]

theorem tracebackLoop_diagonal (seq : List Char) :
    ∀ i, i ≤ seq.length → ∀ fuel, i ≤ fuel → ∀ a1 a2,
      tracebackLoop seq seq (scoreMatrix seq seq) fuel i i a1 a2 =
        some (seq.take i ++ a1, seq.take i ++ a2) := by
  intro i
  induction i with
  | zero =>
    intro _ fuel _ a1 a2
    simpa using tracebackLoop_done seq seq _ fuel a1 a2
  | succ i ih =>
    intro hi fuel hf a1 a2
    obtain ⟨f, rfl⟩ : ∃ f, fuel = f + 1 := ⟨fuel - 1, by omega⟩
    rw [tracebackLoop_succ _ _ _ _ _ _ _ _ (Or.inl (Nat.succ_pos i)),
      scoreMatrix_get seq seq hi hi, (cellAt_diagonal seq i).1,
      if_pos ⟨rfl, Nat.succ_pos i, Nat.succ_pos i⟩]
    have e : i + 1 - 1 = i := rfl
    rw [e, ih (by omega) f (by omega), take_succ_getD seq i (by omega)]
    simp

theorem cellAt_score_swap (seq1 seq2 : List Char) :
    ∀ i j, (cellAt seq1 seq2 i j).score = (cellAt seq2 seq1 j i).score := by
  intro i
  induction i with
  | zero =>
    intro j
    rcases Nat.eq_zero_or_pos j with rfl | hj
    · simp [cellAt]
    · rw [cellAt_zero_left _ _ j hj, cellAt_zero_right _ _ j hj]
  | succ i ih =>
    intro j
    induction j with
    | zero =>
      rw [cellAt_zero_right _ _ (i + 1) (Nat.succ_pos i),
        cellAt_zero_left _ _ (i + 1) (Nat.succ_pos i)]
    | succ j ihj =>
      rw [cellAt_succ, cellAt_succ, chooseCell_score, chooseCell_score, ih j, ih (j + 1), ihj,
        substScore_swap seq1 seq2]
      rw [max_comm (_ + GAP_SCORE) (_ + GAP_SCORE)]

end NeedlemanWunsch

namespace AlignmentVisualizer

theorem alignmentStats_self (seq : List Char) (h : '-' ∉ seq) :
    alignmentStats seq seq = ⟨seq.length, 0, 0⟩ := by
  unfold alignmentStats
  refine foldl_range'_invariant (fun k st => st = (⟨k, 0, 0⟩ : Stats))
    (fun st i => statsStep st (seq.getD i default) (seq.getD i default)) 0 seq.length _ rfl ?_
  intro k hk t ht
  subst ht
  have hne : seq.getD (0 + k) default ≠ '-' := by
    rw [Nat.zero_add, List.getD_eq_getElem?_getD, List.getElem?_eq_getElem hk]
    intro hc
    exact h (hc ▸ List.getElem_mem _)
  show statsStep _ _ _ = _
  unfold statsStep
  rw [if_pos ⟨rfl, hne⟩]

end AlignmentVisualizer

/-! ## The range of the global scores -/

namespace NeedlemanWunsch

theorem substScore_ge (seq1 seq2 : List Char) (i j : Nat) : -1 ≤ substScore seq1 seq2 i j := by
  unfold substScore MATCH_SCORE MISMATCH_SCORE
  split_ifs <;> omega

/-- Where the boundary scores are not truncated, cell `(i, j)` scores between
`-2 * max i j` and `min i j`. -/
theorem cellAt_score_range (seq1 seq2 : List Char) :
    ∀ i j : Nat, i ≤ 1073741824 → j ≤ 1073741824 →
      -2 * max ((i : Nat) : Int) ((j : Nat) : Int) ≤ (cellAt seq1 seq2 i j).score ∧
      (cellAt seq1 seq2 i j).score ≤ min ((i : Nat) : Int) ((j : Nat) : Int) := by
  intro i
  induction i with
  | zero =>
    intro j _ hj
    rw [cellAt_boundary_score seq1 seq2 0 j (Or.inl rfl) (by omega) hj]
    push_cast
    omega
  | succ i ih =>
    intro j
    induction j with
    | zero =>
      intro hi _
      rw [cellAt_boundary_score seq1 seq2 (i + 1) 0 (Or.inr rfl) hi (by omega)]
      push_cast
      omega
    | succ j ihj =>
      intro hi hj
      rw [cellAt_succ, chooseCell_score]
      have h1 := ih j (by omega) (by omega)
      have h2 := ih (j + 1) (by omega) hj
      have h3 := ihj hi (by omega)
      have h4 := substScore_le seq1 seq2 (i + 1) (j + 1)
      have h5 := substScore_ge seq1 seq2 (i + 1) (j + 1)
      simp only [GAP_SCORE]
      push_cast at h1 h2 h3 ⊢
      omega

end NeedlemanWunsch

/-- For sequences of fewer than `2^30` symbols every cell of the global matrix
and each of the three sums `fillMatrix` forms at an interior cell lies in the
range of a 32-bit `int`: the additions of the program do not overflow, and
exact integer addition computes what they compute. -/
theorem scoreMatrix_sums_fit_int (A B : List Char) (hA : A.length < 1073741824)
    (hB : B.length < 1073741824) :
    (∀ i j, i ≤ A.length → j ≤ B.length →
      FitsInt32 ((NeedlemanWunsch.scoreMatrix A B).get i j).score) ∧
    ∀ i j, 0 < i → i ≤ A.length → 0 < j → j ≤ B.length →
      FitsInt32 (((NeedlemanWunsch.scoreMatrix A B).get (i - 1) (j - 1)).score +
        (if A.getD (i - 1) default = B.getD (j - 1) default
          then MATCH_SCORE else MISMATCH_SCORE)) ∧
      FitsInt32 (((NeedlemanWunsch.scoreMatrix A B).get (i - 1) j).score + GAP_SCORE) ∧
      FitsInt32 (((NeedlemanWunsch.scoreMatrix A B).get i (j - 1)).score + GAP_SCORE) := by
  constructor
  · intro i j hi hj
    rw [NeedlemanWunsch.scoreMatrix_get A B hi hj]
    have h := NeedlemanWunsch.cellAt_score_range A B i j (by omega) (by omega)
    unfold FitsInt32
    omega
  · intro i j hi0 hi hj0 hj
    rw [NeedlemanWunsch.scoreMatrix_get A B (by omega : i - 1 ≤ A.length)
        (by omega : j - 1 ≤ B.length),
      NeedlemanWunsch.scoreMatrix_get A B (by omega : i - 1 ≤ A.length) hj,
      NeedlemanWunsch.scoreMatrix_get A B hi (by omega : j - 1 ≤ B.length)]
    have h1 := NeedlemanWunsch.cellAt_score_range A B (i - 1) (j - 1) (by omega) (by omega)
    have h2 := NeedlemanWunsch.cellAt_score_range A B (i - 1) j (by omega) (by omega)
    have h3 := NeedlemanWunsch.cellAt_score_range A B i (j - 1) (by omega) (by omega)
    have h4 := NeedlemanWunsch.substScore_le A B i j
    have h5 := NeedlemanWunsch.substScore_ge A B i j
    show FitsInt32 (_ + NeedlemanWunsch.substScore A B i j) ∧ _
    unfold FitsInt32
    simp only [GAP_SCORE]
    have e1 : ((i - 1 : Nat) : Int) = (i : Int) - 1 := by omega
    have e2 : ((j - 1 : Nat) : Int) = (j : Int) - 1 := by omega
    rw [e1, e2] at h1
    rw [e1] at h2
    rw [e2] at h3
    refine ⟨⟨?_, ?_⟩, ⟨?_, ?_⟩, ⟨?_, ?_⟩⟩ <;> omega

/-! ## Contracts of the global aligner -/

/-- C1: for sequences `A`, `B` short enough that all scores fit a 32-bit `int`
(fewer than `2^30` symbols each, see `scoreMatrix_sums_fit_int`), the score
`matrix[len(A)][len(B)].score` left by `initializeMatrix` and `fillMatrix` is
the maximum of the column-score sums over all global alignments of `A` with
`B`: some alignment attains it and no alignment exceeds it. -/
theorem C1_global_score_is_optimal (A B : List Char) (hA : A.length < 1073741824)
    (hB : B.length < 1073741824) :
    (∃ al, spellFst al = A ∧ spellSnd al = B ∧
      alignmentScore al = NeedlemanWunsch.globalScore A B) ∧
    ∀ al, spellFst al = A → spellSnd al = B →
      alignmentScore al ≤ NeedlemanWunsch.globalScore A B := by
  constructor
  · obtain ⟨al, h1, h2, h3, _⟩ := NeedlemanWunsch.align_spec A B
    exact ⟨al, h1, h2, h3 (le_of_lt hA) (le_of_lt hB)⟩
  · intro al h1 h2
    rw [NeedlemanWunsch.globalScore_eq]
    exact NeedlemanWunsch.alignmentScore_le_cellAt A B (le_of_lt hA) (le_of_lt hB) al
      A.length B.length le_rfl le_rfl
      (by simpa using h1) (by simpa using h2)

/-- C1 at `A = "ACGT"`, `B = "AGT"`. -/
theorem C1_global_score_is_optimal_witness :
    (['A', 'C', 'G', 'T'].length < 1073741824 ∧ ['A', 'G', 'T'].length < 1073741824) ∧
    ((∃ al, spellFst al = ['A', 'C', 'G', 'T'] ∧ spellSnd al = ['A', 'G', 'T'] ∧
      alignmentScore al = NeedlemanWunsch.globalScore ['A', 'C', 'G', 'T'] ['A', 'G', 'T']) ∧
    ∀ al, spellFst al = ['A', 'C', 'G', 'T'] → spellSnd al = ['A', 'G', 'T'] →
      alignmentScore al ≤ NeedlemanWunsch.globalScore ['A', 'C', 'G', 'T'] ['A', 'G', 'T']) :=
  ⟨⟨by decide, by decide⟩,
    C1_global_score_is_optimal ['A', 'C', 'G', 'T'] ['A', 'G', 'T'] (by decide) (by decide)⟩

/-- C2 as stated is false: for the empty first sequence and a second sequence
of `2^30 + 1` symbols the emitted alignment re-scores to `-2147483650`, while
the reported score `matrix[0][2^30 + 1].score` is `2147483646`. -/
theorem C2_rescore_counterexample :
    '-' ∉ ([] : List Char) ∧ '-' ∉ List.replicate 1073741825 'A' ∧
    ∃ r, NeedlemanWunsch.align [] (List.replicate 1073741825 'A') = some r ∧
      rescore r.aligned1 r.aligned2 = -2147483650 ∧
      (r.matrix.get ([] : List Char).length (List.replicate 1073741825 'A').length).score
        = 2147483646 := by
  have hB : '-' ∉ List.replicate 1073741825 'A' := by
    rw [List.mem_replicate]
    rintro ⟨_, h⟩
    exact absurd h (by decide)
  refine ⟨List.not_mem_nil _, hB, ?_⟩
  obtain ⟨al, h1, h2, _, r, hr, hm, ha1, ha2⟩ :=
    NeedlemanWunsch.align_spec [] (List.replicate 1073741825 'A')
  refine ⟨r, hr, ?_, ?_⟩
  · rw [ha1, ha2, rescore_render al (by rw [h1]; exact List.not_mem_nil _) (by rw [h2]; exact hB)]
    have hlen : ∀ cs : List Col, spellFst cs = [] →
        alignmentScore cs = -2 * ((spellSnd cs).length : Int) := by
      intro cs
      induction cs with
      | nil => intro _; simp [alignmentScore, spellSnd]
      | cons c cs ih =>
        intro h
        cases c with
        | both a b => simp [spellFst] at h
        | del a => simp [spellFst] at h
        | ins b =>
          simp only [spellFst] at h
          simp only [alignmentScore, Col.score, spellSnd, List.length_cons, ih h]
          push_cast
          ring
    rw [hlen al h1, h2, List.length_replicate]
    norm_num
  · rw [hm, List.length_nil, List.length_replicate,
      NeedlemanWunsch.scoreMatrix_get _ _ (Nat.zero_le _) (by rw [List.length_replicate]),
      NeedlemanWunsch.cellAt_zero_left _ _ _ (by norm_num)]
    decide

/-- C2 (amended): for sequences `A`, `B` without the gap symbol and of fewer
than `2^30` symbols each (so that no score leaves the range of `int`, see
`scoreMatrix_sums_fit_int`), `align` returns, and re-scoring the emitted pair
column by column gives exactly the reported score
`matrix[len(A)][len(B)].score`. -/
theorem C2_rescore_equals_reported_score (A B : List Char) (hA : '-' ∉ A) (hB : '-' ∉ B)
    (hlA : A.length < 1073741824) (hlB : B.length < 1073741824) :
    ∃ r, NeedlemanWunsch.align A B = some r ∧
      rescore r.aligned1 r.aligned2 = (r.matrix.get A.length B.length).score := by
  obtain ⟨al, h1, h2, h3, r, hr, hm, ha1, ha2⟩ := NeedlemanWunsch.align_spec A B
  refine ⟨r, hr, ?_⟩
  rw [ha1, ha2, hm, rescore_render al (by rw [h1]; exact hA) (by rw [h2]; exact hB),
    h3 (le_of_lt hlA) (le_of_lt hlB)]
  rfl

/-- C2 (amended) at `A = "ACGT"`, `B = "AGT"`. -/
theorem C2_rescore_equals_reported_score_witness :
    ('-' ∉ ['A', 'C', 'G', 'T'] ∧ '-' ∉ ['A', 'G', 'T'] ∧
      ['A', 'C', 'G', 'T'].length < 1073741824 ∧ ['A', 'G', 'T'].length < 1073741824) ∧
    ∃ r, NeedlemanWunsch.align ['A', 'C', 'G', 'T'] ['A', 'G', 'T'] = some r ∧
      rescore r.aligned1 r.aligned2 =
        (r.matrix.get ['A', 'C', 'G', 'T'].length ['A', 'G', 'T'].length).score :=
  ⟨⟨by decide, by decide, by decide, by decide⟩,
    C2_rescore_equals_reported_score ['A', 'C', 'G', 'T'] ['A', 'G', 'T']
      (by decide) (by decide) (by decide) (by decide)⟩

/-- C3: for sequences `A`, `B` without the gap symbol, `align` returns, deleting
every `'-'` from `aligned1` gives `A`, deleting every `'-'` from `aligned2`
gives `B`, and no column of the output has `'-'` on both sides. -/
theorem C3_outputs_spell_inputs (A B : List Char) (hA : '-' ∉ A) (hB : '-' ∉ B) :
    ∃ r, NeedlemanWunsch.align A B = some r ∧
      stripGaps r.aligned1 = A ∧ stripGaps r.aligned2 = B ∧
      ∀ p ∈ List.zip r.aligned1 r.aligned2, ¬ (p.1 = '-' ∧ p.2 = '-') := by
  obtain ⟨al, h1, h2, _, r, hr, _, ha1, ha2⟩ := NeedlemanWunsch.align_spec A B
  have hA' : '-' ∉ spellFst al := by rw [h1]; exact hA
  have hB' : '-' ∉ spellSnd al := by rw [h2]; exact hB
  refine ⟨r, hr, ?_, ?_, ?_⟩
  · rw [ha1, stripGaps_map_top al hA', h1]
  · rw [ha2, stripGaps_map_bottom al hB', h2]
  · rw [ha1, ha2]
    exact render_no_double_gap al hA' hB'

/-- C3 at `A = "ACGT"`, `B = "AGT"`. -/
theorem C3_outputs_spell_inputs_witness :
    ('-' ∉ ['A', 'C', 'G', 'T'] ∧ '-' ∉ ['A', 'G', 'T']) ∧
    ∃ r, NeedlemanWunsch.align ['A', 'C', 'G', 'T'] ['A', 'G', 'T'] = some r ∧
      stripGaps r.aligned1 = ['A', 'C', 'G', 'T'] ∧ stripGaps r.aligned2 = ['A', 'G', 'T'] ∧
      ∀ p ∈ List.zip r.aligned1 r.aligned2, ¬ (p.1 = '-' ∧ p.2 = '-') :=
  ⟨⟨by decide, by decide⟩,
    C3_outputs_spell_inputs ['A', 'C', 'G', 'T'] ['A', 'G', 'T'] (by decide) (by decide)⟩

/-- C4: for all sequences `A`, `B`, empty ones included, `align` returns and
its two outputs have the same length. -/
theorem C4_outputs_same_length (A B : List Char) :
    ∃ r, NeedlemanWunsch.align A B = some r ∧ r.aligned1.length = r.aligned2.length := by
  obtain ⟨al, _, _, _, r, hr, _, ha1, ha2⟩ := NeedlemanWunsch.align_spec A B
  exact ⟨r, hr, by rw [ha1, ha2, List.length_map, List.length_map]⟩

/-- C5: for every sequence `A` without the gap symbol, aligning `A` with itself
returns with score `len(A) * MATCH_SCORE`, `aligned1 = aligned2 = A`, and the
statistics are `len(A)` matches, no mismatch and no gap. -/
theorem C5_self_alignment (A : List Char) (hA : '-' ∉ A) :
    ∃ r, NeedlemanWunsch.align A A = some r ∧
      (r.matrix.get A.length A.length).score = (A.length : Int) * MATCH_SCORE ∧
      r.aligned1 = A ∧ r.aligned2 = A ∧
      AlignmentVisualizer.alignmentStats r.aligned1 r.aligned2 =
        { numMatches := A.length, numMismatches := 0, numGaps := 0 } := by
  refine ⟨⟨NeedlemanWunsch.scoreMatrix A A, A, A⟩, ?_, ?_, rfl, rfl,
    AlignmentVisualizer.alignmentStats_self A hA⟩
  · unfold NeedlemanWunsch.align NeedlemanWunsch.alignWith NeedlemanWunsch.traceback
    simp only
    rw [NeedlemanWunsch.tracebackLoop_diagonal A A.length le_rfl _ (Nat.le_add_right _ _)]
    simp
  · show ((NeedlemanWunsch.scoreMatrix A A).get A.length A.length).score = _
    rw [NeedlemanWunsch.scoreMatrix_get A A le_rfl le_rfl,
      (NeedlemanWunsch.cellAt_diagonal A A.length).2]
    simp [MATCH_SCORE]

/-- C5 at `A = "ACGT"`: score 4, four matches. -/
theorem C5_self_alignment_witness :
    '-' ∉ ['A', 'C', 'G', 'T'] ∧
    ∃ r, NeedlemanWunsch.align ['A', 'C', 'G', 'T'] ['A', 'C', 'G', 'T'] = some r ∧
      (r.matrix.get ['A', 'C', 'G', 'T'].length ['A', 'C', 'G', 'T'].length).score
        = (['A', 'C', 'G', 'T'].length : Int) * MATCH_SCORE ∧
      r.aligned1 = ['A', 'C', 'G', 'T'] ∧ r.aligned2 = ['A', 'C', 'G', 'T'] ∧
      AlignmentVisualizer.alignmentStats r.aligned1 r.aligned2 =
        { numMatches := ['A', 'C', 'G', 'T'].length, numMismatches := 0, numGaps := 0 } :=
  ⟨by decide, C5_self_alignment ['A', 'C', 'G', 'T'] (by decide)⟩

/-- C6: the global score is swap-invariant: `matrix[len(A)][len(B)].score` for
inputs `(A, B)` equals `matrix[len(B)][len(A)].score` for inputs `(B, A)`. -/
theorem C6_global_score_swap (A B : List Char) :
    ((NeedlemanWunsch.scoreMatrix A B).get A.length B.length).score =
      ((NeedlemanWunsch.scoreMatrix B A).get B.length A.length).score := by
  rw [NeedlemanWunsch.scoreMatrix_get A B le_rfl le_rfl,
    NeedlemanWunsch.scoreMatrix_get B A le_rfl le_rfl]
  exact NeedlemanWunsch.cellAt_score_swap A B A.length B.length

/-! ## Smith–Waterman: contents of the matrix and the tracked maximum -/

namespace SmithWaterman

theorem local_initializeMatrix_spec (seq1 seq2 : List Char) :
    (initializeMatrix seq1 seq2).HasDim (seq1.length + 1) (seq2.length + 1) ∧
    ∀ i j, i ≤ seq1.length → j ≤ seq2.length →
      (initializeMatrix seq1 seq2).get i j = ⟨0, 0, 0, '0'⟩ := by
  have h1 := foldl_range'_invariant
    (fun _ (m : Grid Cell) => m.HasDim (seq1.length + 1) (seq2.length + 1) ∧
      ∀ i j, i ≤ seq1.length → j ≤ seq2.length → m.get i j = ⟨0, 0, 0, '0'⟩)
    (fun m i => m.set i 0 ⟨0, 0, 0, '0'⟩) 0 (seq1.length + 1)
    (mkArray (seq1.length + 1) (mkArray (seq2.length + 1) (default : Cell)))
    ⟨Grid.hasDim_mkArray _ _ _, fun i j hi hj =>
      Grid.get_mkArray _ _ _ (Nat.lt_succ_of_le hi) (Nat.lt_succ_of_le hj)⟩
    (by
      intro k hk t ⟨hd, ht⟩
      refine ⟨Grid.hasDim_set hd _ _ _, fun i j hi hj => ?_⟩
      by_cases h : 0 + k = i ∧ 0 = j
      · obtain ⟨rfl, rfl⟩ := h
        exact Grid.get_set_self hd (by omega) (Nat.succ_pos _) _
      · rw [Grid.get_set_of_ne _ (by omega)]
        exact ht i j hi hj)
  exact foldl_range'_invariant
    (fun _ (m : Grid Cell) => m.HasDim (seq1.length + 1) (seq2.length + 1) ∧
      ∀ i j, i ≤ seq1.length → j ≤ seq2.length → m.get i j = ⟨0, 0, 0, '0'⟩)
    (fun m j => m.set 0 j ⟨0, 0, 0, '0'⟩) 0 (seq2.length + 1) _ h1
    (by
      intro k hk t ⟨hd, ht⟩
      refine ⟨Grid.hasDim_set hd _ _ _, fun i j hi hj => ?_⟩
      by_cases h : 0 = i ∧ 0 + k = j
      · obtain ⟨rfl, rfl⟩ := h
        exact Grid.get_set_self hd (Nat.succ_pos _) (by omega) _
      · rw [Grid.get_set_of_ne _ (by omega)]
        exact ht i j hi hj)

theorem local_fillCell_eq (seq1 seq2 : List Char) (i : Nat) (s : FillState) (j : Nat) :
    fillCell seq1 seq2 i s j =
      if ((s.matrix.set i j (localCell
            ((s.matrix.get (i - 1) (j - 1)).score + substScore seq1 seq2 i j)
            ((s.matrix.get (i - 1) j).score + GAP_SCORE)
            ((s.matrix.get i (j - 1)).score + GAP_SCORE) i j)).get i j).score > s.maxScore then
        { matrix := s.matrix.set i j (localCell
            ((s.matrix.get (i - 1) (j - 1)).score + substScore seq1 seq2 i j)
            ((s.matrix.get (i - 1) j).score + GAP_SCORE)
            ((s.matrix.get i (j - 1)).score + GAP_SCORE) i j)
          maxScore := ((s.matrix.set i j (localCell
            ((s.matrix.get (i - 1) (j - 1)).score + substScore seq1 seq2 i j)
            ((s.matrix.get (i - 1) j).score + GAP_SCORE)
            ((s.matrix.get i (j - 1)).score + GAP_SCORE) i j)).get i j).score
          maxCell := { (s.matrix.set i j (localCell
            ((s.matrix.get (i - 1) (j - 1)).score + substScore seq1 seq2 i j)
            ((s.matrix.get (i - 1) j).score + GAP_SCORE)
            ((s.matrix.get i (j - 1)).score + GAP_SCORE) i j)).get i j with
              i := sizeToInt i, j := sizeToInt j } }
      else
        { s with matrix := s.matrix.set i j (localCell
            ((s.matrix.get (i - 1) (j - 1)).score + substScore seq1 seq2 i j)
            ((s.matrix.get (i - 1) j).score + GAP_SCORE)
            ((s.matrix.get i (j - 1)).score + GAP_SCORE) i j) } := by
  unfold fillCell localCell substScore
  simp only
  split_ifs <;> rfl

theorem local_cellAt_zero_left (seq1 seq2 : List Char) (j : Nat) :
    cellAt seq1 seq2 0 j = ⟨0, 0, 0, '0'⟩ := by
  rw [cellAt]

theorem local_cellAt_zero_right (seq1 seq2 : List Char) (i : Nat) :
    cellAt seq1 seq2 i 0 = ⟨0, 0, 0, '0'⟩ := by
  cases i <;> rw [cellAt]

theorem local_cellAt_succ (seq1 seq2 : List Char) (i j : Nat) :
    cellAt seq1 seq2 (i + 1) (j + 1) =
      localCell ((cellAt seq1 seq2 i j).score + substScore seq1 seq2 (i + 1) (j + 1))
        ((cellAt seq1 seq2 i (j + 1)).score + GAP_SCORE)
        ((cellAt seq1 seq2 (i + 1) j).score + GAP_SCORE) (i + 1) (j + 1) := by
  rw [cellAt]

theorem localCell_index (m d l : Int) (i j : Nat) :
    ({ localCell m d l i j with i := sizeToInt i, j := sizeToInt j } : Cell) =
      localCell m d l i j := by
  unfold localCell
  split_ifs <;> rfl

theorem localCell_score (m d l : Int) (i j : Nat) :
    (localCell m d l i j).score = max 0 (max m (max d l)) := by
  unfold localCell
  split_ifs with h <;> simp only
  exact h.symm

end SmithWaterman

namespace SmithWaterman

theorem fillCell_scanInvariant (seq1 seq2 : List Char) (s : FillState) (i k : Nat)
    (hi : i < seq1.length) (hk : k < seq2.length)
    (h : ScanInvariant seq1 seq2 s (i + 1) k) :
    ScanInvariant seq1 seq2 (fillCell seq1 seq2 (1 + i) s (1 + k)) (i + 1) (k + 1) := by
  obtain ⟨hd, hc, htr⟩ := h
  have e1 : 1 + i - 1 = i := by omega
  have e2 : 1 + k - 1 = k := by omega
  have hcell : localCell
      ((s.matrix.get (1 + i - 1) (1 + k - 1)).score + substScore seq1 seq2 (1 + i) (1 + k))
      ((s.matrix.get (1 + i - 1) (1 + k)).score + GAP_SCORE)
      ((s.matrix.get (1 + i) (1 + k - 1)).score + GAP_SCORE) (1 + i) (1 + k) =
        cellAt seq1 seq2 (i + 1) (k + 1) := by
    rw [e1, e2, hc i k (by omega) (by omega) (by omega),
      hc i (1 + k) (by omega) (by omega) (by omega),
      hc (1 + i) k (by omega) (by omega) (by omega)]
    rw [Nat.add_comm 1 i, Nat.add_comm 1 k, local_cellAt_succ]
  have hidx : ({ cellAt seq1 seq2 (i + 1) (k + 1) with
      i := sizeToInt (1 + i), j := sizeToInt (1 + k) } : Cell) =
        cellAt seq1 seq2 (i + 1) (k + 1) := by
    rw [local_cellAt_succ, Nat.add_comm 1 i, Nat.add_comm 1 k]
    exact localCell_index _ _ _ _ _
  have hmat : ∀ a b, a ≤ seq1.length → b ≤ seq2.length →
      (a = 0 ∨ b = 0 ∨ a < i + 1 ∨ (a = i + 1 ∧ b ≤ k + 1)) →
      (s.matrix.set (1 + i) (1 + k) (cellAt seq1 seq2 (i + 1) (k + 1))).get a b =
        cellAt seq1 seq2 a b := by
    intro a b ha hb hab
    by_cases hnew : a = 1 + i ∧ b = 1 + k
    · obtain ⟨rfl, rfl⟩ := hnew
      rw [Grid.get_set_self hd (by omega) (by omega), Nat.add_comm 1 i, Nat.add_comm 1 k]
    · rw [Grid.get_set_of_ne _ (by omega)]
      exact hc a b ha hb (by omega)
  have hnew : (s.matrix.set (1 + i) (1 + k) (cellAt seq1 seq2 (i + 1) (k + 1))).get
      (1 + i) (1 + k) = cellAt seq1 seq2 (i + 1) (k + 1) :=
    Grid.get_set_self hd (by omega) (by omega) _
  rw [local_fillCell_eq, hcell, hnew, hidx]
  split_ifs with hgt
  · -- the new cell becomes the tracked maximum
    refine ⟨Grid.hasDim_set hd _ _ _, hmat, Or.inr ⟨i + 1, k + 1, by omega, ?_, ?_, rfl, rfl, ?_, ?_⟩⟩
    · exact ⟨by omega, by omega, Or.inr ⟨rfl, le_rfl⟩⟩
    · show 0 < (cellAt seq1 seq2 (i + 1) (k + 1)).score
      rcases htr with ⟨h0, _, _⟩ | ⟨_, _, _, _, hp, _, _, _, _⟩
      · rw [h0] at hgt; exact hgt
      · exact lt_trans hp hgt
    · intro a b hb ⟨ha0, hb0, hv⟩
      show (cellAt seq1 seq2 a b).score ≤ (cellAt seq1 seq2 (i + 1) (k + 1)).score
      by_cases hab : a = i + 1 ∧ b = k + 1
      · obtain ⟨rfl, rfl⟩ := hab; exact le_rfl
      · have hv' : Visited (i + 1) k a b := ⟨ha0, hb0, by omega⟩
        rcases htr with ⟨h0, _, hz⟩ | ⟨_, _, _, _, _, _, _, hle, _⟩
        · have := hz a b hb hv'
          rw [h0] at hgt
          exact le_of_lt (lt_of_le_of_lt this hgt)
        · exact le_of_lt (lt_of_le_of_lt (hle a b hb hv') hgt)
    · intro a b ha0 hb0 hb hbefore
      show (cellAt seq1 seq2 a b).score < (cellAt seq1 seq2 (i + 1) (k + 1)).score
      have hv' : Visited (i + 1) k a b := by
        unfold ScanBefore at hbefore
        exact ⟨ha0, hb0, by omega⟩
      rcases htr with ⟨h0, _, hz⟩ | ⟨_, _, _, _, _, _, _, hle, _⟩
      · have := hz a b hb hv'
        rw [h0] at hgt
        exact lt_of_le_of_lt this hgt
      · exact lt_of_le_of_lt (hle a b hb hv') hgt
  · -- the tracked maximum stays
    refine ⟨Grid.hasDim_set hd _ _ _, hmat, ?_⟩
    have hle : (cellAt seq1 seq2 (i + 1) (k + 1)).score ≤ s.maxScore := not_lt.mp hgt
    rcases htr with ⟨h0, hdef, hz⟩ | ⟨a, b, hb, hv, hp, hsc, hcell', hmax, hfirst⟩
    · refine Or.inl ⟨h0, hdef, fun a b hb ⟨ha0, hb0, hv⟩ => ?_⟩
      by_cases hab : a = i + 1 ∧ b = k + 1
      · obtain ⟨rfl, rfl⟩ := hab
        rw [h0] at hle; exact hle
      · exact hz a b hb ⟨ha0, hb0, by omega⟩
    · refine Or.inr ⟨a, b, hb, ?_, hp, hsc, hcell', ?_, hfirst⟩
      · obtain ⟨ha0, hb0, hv⟩ := hv
        exact ⟨ha0, hb0, by omega⟩
      · intro a' b' hb' ⟨ha0, hb0, hv'⟩
        by_cases hab : a' = i + 1 ∧ b' = k + 1
        · obtain ⟨rfl, rfl⟩ := hab
          exact hle
        · exact hmax a' b' hb' ⟨ha0, hb0, by omega⟩

theorem fillRow_scanInvariant (seq1 seq2 : List Char) (s : FillState) (i : Nat)
    (hi : i < seq1.length) (h : ScanInvariant seq1 seq2 s (i + 1) 0) :
    ScanInvariant seq1 seq2
      ((List.range' 1 seq2.length).foldl (fillCell seq1 seq2 (1 + i)) s) (i + 1) seq2.length :=
  foldl_range'_invariant (fun k t => ScanInvariant seq1 seq2 t (i + 1) k)
    (fillCell seq1 seq2 (1 + i)) 1 seq2.length s h
    (fun k hk t ht => fillCell_scanInvariant seq1 seq2 t i k hi hk ht)

theorem scanInvariant_next_row (seq1 seq2 : List Char) (s : FillState) (i : Nat)
    (h : ScanInvariant seq1 seq2 s (i + 1) seq2.length) :
    ScanInvariant seq1 seq2 s (i + 2) 0 := by
  obtain ⟨hd, hc, htr⟩ := h
  have hv : ∀ a b, b ≤ seq2.length → (Visited (i + 2) 0 a b ↔ Visited (i + 1) seq2.length a b) := by
    intro a b hb
    unfold Visited
    constructor <;> rintro ⟨h1, h2, h3⟩ <;> exact ⟨h1, h2, by omega⟩
  refine ⟨hd, fun a b ha hb hab => hc a b ha hb (by omega), ?_⟩
  rcases htr with ⟨h0, hdef, hz⟩ | ⟨a, b, hb, hvis, hp, hsc, hcell, hmax, hfirst⟩
  · exact Or.inl ⟨h0, hdef, fun a b hb hvis => hz a b hb ((hv a b hb).mp hvis)⟩
  · exact Or.inr ⟨a, b, hb, (hv a b hb).mpr hvis, hp, hsc, hcell,
      fun a' b' hb' hvis' => hmax a' b' hb' ((hv a' b' hb').mp hvis'), hfirst⟩

/-- After `initializeMatrix` and `fillMatrix` every cell is the cell of the
recurrence, and `maxScore`, `maxCell` are those of the first cell of highest
score in scan order (or `0` and the default cell when no score is positive). -/
theorem filled_spec (seq1 seq2 : List Char) :
    ScanInvariant seq1 seq2 (filled seq1 seq2) (seq1.length + 1) 0 := by
  refine foldl_range'_invariant (fun k t => ScanInvariant seq1 seq2 t (k + 1) 0)
    (fun s i => (List.range' 1 seq2.length).foldl (fillCell seq1 seq2 i) s) 1 seq1.length
    { matrix := initializeMatrix seq1 seq2, maxScore := 0, maxCell := default } ?_ ?_
  · refine ⟨(local_initializeMatrix_spec seq1 seq2).1, fun i j hi hj hij => ?_, Or.inl ⟨rfl, rfl, ?_⟩⟩
    · rw [(local_initializeMatrix_spec seq1 seq2).2 i j hi hj]
      have h0 : i = 0 ∨ j = 0 := by omega
      rcases h0 with rfl | rfl
      · rw [local_cellAt_zero_left]
      · rw [local_cellAt_zero_right]
    · rintro i j _ ⟨h1, h2, h3⟩
      omega
  · intro k hk t ht
    exact scanInvariant_next_row seq1 seq2 _ k (fillRow_scanInvariant seq1 seq2 t k hk ht)

theorem filled_get (seq1 seq2 : List Char) {i j : Nat} (hi : i ≤ seq1.length)
    (hj : j ≤ seq2.length) : (filled seq1 seq2).matrix.get i j = cellAt seq1 seq2 i j :=
  (filled_spec seq1 seq2).2.1 i j hi hj (by omega)

end SmithWaterman

/-! ## Smith–Waterman: scores and traceback -/

theorem take_succ_drop (s : List Char) (k a : Nat) (hk : k < s.length) (ha : a ≤ k) :
    (s.take (k + 1)).drop a = (s.take k).drop a ++ [s.getD k default] := by
  rw [take_succ_getD s k hk, List.drop_append_of_le_length]
  rw [List.length_take_of_le (le_of_lt hk)]
  exact ha

theorem snoc_eq_take_drop (s xs : List Char) (x : Char) (i a : Nat) (hi : i ≤ s.length)
    (ha : a ≤ i) (h : xs ++ [x] = (s.take i).drop a) :
    a < i ∧ xs = (s.take (i - 1)).drop a ∧ x = s.getD (i - 1) default := by
  have hlt : a < i := by
    by_contra hc
    have hai : a = i := by omega
    subst hai
    rw [List.drop_eq_nil_of_le (by rw [List.length_take_of_le hi])] at h
    simp at h
  obtain ⟨k, rfl⟩ : ∃ k, i = k + 1 := ⟨i - 1, by omega⟩
  rw [take_succ_drop s k a (by omega) (by omega)] at h
  have := List.append_inj' h rfl
  exact ⟨hlt, this.1, by simpa using this.2⟩

theorem sizeToInt_le (x : Nat) : sizeToInt x ≤ x := by
  unfold sizeToInt
  split_ifs <;> omega

theorem sizeToInt_of_lt (x : Nat) (h : x < 2147483648) : sizeToInt x = x := by
  unfold sizeToInt
  split_ifs <;> omega

namespace SmithWaterman

theorem local_substScore_le (seq1 seq2 : List Char) (i j : Nat) : substScore seq1 seq2 i j ≤ 1 := by
  unfold substScore MATCH_SCORE MISMATCH_SCORE
  split_ifs <;> omega

theorem cellAt_score_succ (seq1 seq2 : List Char) (i j : Nat) :
    (cellAt seq1 seq2 (i + 1) (j + 1)).score =
      max 0 (max ((cellAt seq1 seq2 i j).score + substScore seq1 seq2 (i + 1) (j + 1))
        (max ((cellAt seq1 seq2 i (j + 1)).score + GAP_SCORE)
          ((cellAt seq1 seq2 (i + 1) j).score + GAP_SCORE))) := by
  rw [local_cellAt_succ, localCell_score]

theorem cellAt_score_nonneg (seq1 seq2 : List Char) (i j : Nat) :
    0 ≤ (cellAt seq1 seq2 i j).score := by
  cases i with
  | zero => rw [local_cellAt_zero_left]
  | succ i =>
    cases j with
    | zero => rw [local_cellAt_zero_right]
    | succ j => rw [cellAt_score_succ]; exact le_max_left _ _

theorem cellAt_index (seq1 seq2 : List Char) (i j : Nat) (hi : 0 < i) (hj : 0 < j) :
    (cellAt seq1 seq2 i j).i = sizeToInt i ∧ (cellAt seq1 seq2 i j).j = sizeToInt j := by
  obtain ⟨a, rfl⟩ := Nat.exists_eq_succ_of_ne_zero (Nat.pos_iff_ne_zero.mp hi)
  obtain ⟨b, rfl⟩ := Nat.exists_eq_succ_of_ne_zero (Nat.pos_iff_ne_zero.mp hj)
  rw [local_cellAt_succ]
  unfold localCell
  split_ifs <;> exact ⟨rfl, rfl⟩

theorem localCell_cases (m d l : Int) (i j : Nat) :
    (localCell m d l i j).score = 0 ∨
    ((localCell m d l i j).direction = 'D' ∧ (localCell m d l i j).score = m) ∨
    ((localCell m d l i j).direction = 'U' ∧ (localCell m d l i j).score = d) ∨
    ((localCell m d l i j).direction = 'L' ∧ (localCell m d l i j).score = l) := by
  unfold localCell
  split_ifs with h1 h2 h3
  · exact Or.inl rfl
  · exact Or.inr (Or.inl ⟨rfl, h2⟩)
  · exact Or.inr (Or.inr (Or.inl ⟨rfl, h3⟩))
  · refine Or.inr (Or.inr (Or.inr ⟨rfl, ?_⟩))
    simp only
    omega

/-- A cell of positive score lies in the interior and records a move to the
predecessor its score comes from. -/
theorem cellAt_positive (seq1 seq2 : List Char) (i j : Nat)
    (h : 0 < (cellAt seq1 seq2 i j).score) :
    0 < i ∧ 0 < j ∧
    (((cellAt seq1 seq2 i j).direction = 'D' ∧ (cellAt seq1 seq2 i j).score =
        (cellAt seq1 seq2 (i - 1) (j - 1)).score + substScore seq1 seq2 i j) ∨
    ((cellAt seq1 seq2 i j).direction = 'U' ∧ (cellAt seq1 seq2 i j).score =
        (cellAt seq1 seq2 (i - 1) j).score + GAP_SCORE) ∨
    ((cellAt seq1 seq2 i j).direction = 'L' ∧ (cellAt seq1 seq2 i j).score =
        (cellAt seq1 seq2 i (j - 1)).score + GAP_SCORE)) := by
  cases i with
  | zero => rw [local_cellAt_zero_left] at h; exact absurd h (lt_irrefl _)
  | succ i =>
    cases j with
    | zero => rw [local_cellAt_zero_right] at h; exact absurd h (lt_irrefl _)
    | succ j =>
      refine ⟨Nat.succ_pos _, Nat.succ_pos _, ?_⟩
      rw [local_cellAt_succ] at h ⊢
      rcases localCell_cases
        ((cellAt seq1 seq2 i j).score + substScore seq1 seq2 (i + 1) (j + 1))
        ((cellAt seq1 seq2 i (j + 1)).score + GAP_SCORE)
        ((cellAt seq1 seq2 (i + 1) j).score + GAP_SCORE) (i + 1) (j + 1) with h0 | h1 | h1 | h1
      · rw [h0] at h; exact absurd h (lt_irrefl _)
      · exact Or.inl h1
      · exact Or.inr (Or.inl h1)
      · exact Or.inr (Or.inr h1)

theorem tracebackLoop_stop (seq1 seq2 : List Char) (m : Grid Cell) (fuel : Nat) (i j : Int)
    (a1 a2 : List Char) (h : ¬ (i > 0 ∧ j > 0 ∧ (m.get i.toNat j.toNat).score > 0)) :
    tracebackLoop seq1 seq2 m fuel i j a1 a2 = some (a1, a2) := by
  unfold tracebackLoop
  rw [if_neg h]

theorem local_tracebackLoop_succ (seq1 seq2 : List Char) (m : Grid Cell) (fuel i j : Nat)
    (a1 a2 : List Char) (hi : 0 < i) (hj : 0 < j) (hs : 0 < (m.get i j).score) :
    tracebackLoop seq1 seq2 m (fuel + 1) i j a1 a2 =
      if (m.get i j).direction = 'D' then
        tracebackLoop seq1 seq2 m fuel ((i - 1 : Nat) : Int) ((j - 1 : Nat) : Int)
          (seq1.getD (i - 1) default :: a1) (seq2.getD (j - 1) default :: a2)
      else if (m.get i j).direction = 'U' then
        tracebackLoop seq1 seq2 m fuel ((i - 1 : Nat) : Int) j
          (seq1.getD (i - 1) default :: a1) ('-' :: a2)
      else if (m.get i j).direction = 'L' then
        tracebackLoop seq1 seq2 m fuel i ((j - 1 : Nat) : Int)
          ('-' :: a1) (seq2.getD (j - 1) default :: a2)
      else tracebackLoop seq1 seq2 m fuel i j a1 a2 := by
  have e1 : ((i : Int) - 1) = ((i - 1 : Nat) : Int) := by omega
  have e2 : ((j : Int) - 1) = ((j - 1 : Nat) : Int) := by omega
  rw [tracebackLoop]
  simp only [Int.toNat_ofNat, e1, e2]
  rw [if_pos ⟨by omega, by omega, hs⟩]

end SmithWaterman

namespace SmithWaterman

/-- The traceback from cell `(i, j)` emits an alignment of a substring of
`seq1` ending at `i` with a substring of `seq2` ending at `j`; its score is the
score of cell `(i, j)`, and it stops on the boundary or at a cell of score 0. -/
theorem local_tracebackLoop_spec (seq1 seq2 : List Char) :
    ∀ n i j, i + j = n → i ≤ seq1.length → j ≤ seq2.length →
    ∃ (al : List Col) (i' j' : Nat), i' ≤ i ∧ j' ≤ j ∧
      spellFst al = (seq1.take i).drop i' ∧ spellSnd al = (seq2.take j).drop j' ∧
      alignmentScore al = (cellAt seq1 seq2 i j).score ∧
      (cellAt seq1 seq2 i' j').score = 0 ∧
      ∀ fuel, n ≤ fuel → ∀ a1 a2,
        tracebackLoop seq1 seq2 (filled seq1 seq2).matrix fuel i j a1 a2 =
          some (al.map Col.top ++ a1, al.map Col.bottom ++ a2) := by
  intro n
  induction n using Nat.strong_induction_on with
  | _ n ih =>
    intro i j hn hi hj
    have hget : (filled seq1 seq2).matrix.get i j = cellAt seq1 seq2 i j :=
      filled_get seq1 seq2 hi hj
    by_cases h0 : (cellAt seq1 seq2 i j).score = 0
    · refine ⟨[], i, j, le_rfl, le_rfl, ?_, ?_, by simp [alignmentScore, h0], h0,
        fun fuel _ a1 a2 => ?_⟩
      · rw [List.drop_eq_nil_of_le (by rw [List.length_take_of_le hi])]; rfl
      · rw [List.drop_eq_nil_of_le (by rw [List.length_take_of_le hj])]; rfl
      · rw [tracebackLoop_stop]
        · rfl
        · simp only [Int.toNat_ofNat, hget, h0]
          omega
    · have hpos : 0 < (cellAt seq1 seq2 i j).score :=
        lt_of_le_of_ne (cellAt_score_nonneg seq1 seq2 i j) (Ne.symm h0)
      obtain ⟨hi0, hj0, hdir⟩ := cellAt_positive seq1 seq2 i j hpos
      have hstep := fun fuel a1 a2 => local_tracebackLoop_succ seq1 seq2 (filled seq1 seq2).matrix
        fuel i j a1 a2 hi0 hj0 (by rw [hget]; exact hpos)
      rcases hdir with ⟨hd, hs⟩ | ⟨hd, hs⟩ | ⟨hd, hs⟩
      · obtain ⟨al, i', j', hi', hj', h1, h2, h3, h4, h5⟩ :=
          ih (i - 1 + (j - 1)) (by omega) (i - 1) (j - 1) rfl (by omega) (by omega)
        refine ⟨al ++ [Col.both (seq1.getD (i - 1) default) (seq2.getD (j - 1) default)],
          i', j', by omega, by omega, ?_, ?_, ?_, h4, ?_⟩
        · rw [spellFst_append, h1]
          have := take_succ_drop seq1 (i - 1) i' (by omega) hi'
          rw [Nat.sub_add_cancel hi0] at this
          rw [this]; rfl
        · rw [spellSnd_append, h2]
          have := take_succ_drop seq2 (j - 1) j' (by omega) hj'
          rw [Nat.sub_add_cancel hj0] at this
          rw [this]; rfl
        · rw [alignmentScore_append, h3, hs]
          simp [alignmentScore, Col.score, substScore, MATCH_SCORE, MISMATCH_SCORE]
        · intro fuel hf a1 a2
          obtain ⟨f, rfl⟩ : ∃ f, fuel = f + 1 := ⟨fuel - 1, by omega⟩
          rw [hstep, hget, if_pos hd, h5 f (by omega)]
          simp [Col.top, Col.bottom]
      · obtain ⟨al, i', j', hi', hj', h1, h2, h3, h4, h5⟩ :=
          ih (i - 1 + j) (by omega) (i - 1) j rfl (by omega) hj
        refine ⟨al ++ [Col.del (seq1.getD (i - 1) default)],
          i', j', by omega, hj', ?_, ?_, ?_, h4, ?_⟩
        · rw [spellFst_append, h1]
          have := take_succ_drop seq1 (i - 1) i' (by omega) hi'
          rw [Nat.sub_add_cancel hi0] at this
          rw [this]; rfl
        · rw [spellSnd_append, h2]; simp [spellSnd]
        · rw [alignmentScore_append, h3, hs]
          simp [alignmentScore, Col.score, GAP_SCORE]
        · intro fuel hf a1 a2
          obtain ⟨f, rfl⟩ : ∃ f, fuel = f + 1 := ⟨fuel - 1, by omega⟩
          rw [hstep, hget, if_neg (by rw [hd]; decide), if_pos hd, h5 f (by omega)]
          simp [Col.top, Col.bottom]
      · obtain ⟨al, i', j', hi', hj', h1, h2, h3, h4, h5⟩ :=
          ih (i + (j - 1)) (by omega) i (j - 1) rfl hi (by omega)
        refine ⟨al ++ [Col.ins (seq2.getD (j - 1) default)],
          i', j', hi', by omega, ?_, ?_, ?_, h4, ?_⟩
        · rw [spellFst_append, h1]; simp [spellFst]
        · rw [spellSnd_append, h2]
          have := take_succ_drop seq2 (j - 1) j' (by omega) hj'
          rw [Nat.sub_add_cancel hj0] at this
          rw [this]; rfl
        · rw [alignmentScore_append, h3, hs]
          simp [alignmentScore, Col.score, GAP_SCORE]
        · intro fuel hf a1 a2
          obtain ⟨f, rfl⟩ : ∃ f, fuel = f + 1 := ⟨fuel - 1, by omega⟩
          rw [hstep, hget, if_neg (by rw [hd]; decide), if_neg (by rw [hd]; decide), if_pos hd,
            h5 f (by omega)]
          simp [Col.top, Col.bottom]

/-- No alignment of a substring of `seq1` ending at `i` with a substring of
`seq2` ending at `j` scores more than cell `(i, j)`. -/
theorem local_alignmentScore_le_cellAt (seq1 seq2 : List Char) (al : List Col) :
    ∀ i j a b, a ≤ i → i ≤ seq1.length → b ≤ j → j ≤ seq2.length →
      spellFst al = (seq1.take i).drop a → spellSnd al = (seq2.take j).drop b →
      alignmentScore al ≤ (cellAt seq1 seq2 i j).score := by
  induction al using List.reverseRecOn with
  | nil =>
    intro i j _ _ _ _ _ _ _ _
    simpa [alignmentScore] using cellAt_score_nonneg seq1 seq2 i j
  | append_singleton cs c ih =>
    intro i j a b ha hi hb hj hf hs
    rw [alignmentScore_append]
    rw [spellFst_append] at hf
    rw [spellSnd_append] at hs
    cases c with
    | both x y =>
      obtain ⟨hai, hf', hx⟩ := snoc_eq_take_drop seq1 _ x i a hi ha hf
      obtain ⟨hbj, hs', hy⟩ := snoc_eq_take_drop seq2 _ y j b hj hb hs
      have := ih (i - 1) (j - 1) a b (by omega) (by omega) (by omega) (by omega) hf' hs'
      obtain ⟨i0, rfl⟩ : ∃ k, i = k + 1 := ⟨i - 1, by omega⟩
      obtain ⟨j0, rfl⟩ : ∃ k, j = k + 1 := ⟨j - 1, by omega⟩
      rw [cellAt_score_succ]
      have hsub : alignmentScore [Col.both x y] = substScore seq1 seq2 (i0 + 1) (j0 + 1) := by
        simp [alignmentScore, Col.score, substScore, MATCH_SCORE, MISMATCH_SCORE, hx, hy]
      rw [hsub]
      simp only [Nat.add_sub_cancel] at this
      exact le_max_of_le_right (le_max_of_le_left (by omega))
    | del x =>
      obtain ⟨hai, hf', _⟩ := snoc_eq_take_drop seq1 _ x i a hi ha hf
      have hs' : spellSnd cs = (seq2.take j).drop b := by simpa [spellSnd] using hs
      have := ih (i - 1) j a b (by omega) (by omega) hb hj hf' hs'
      have hsc : alignmentScore [Col.del x] = -2 := by simp [alignmentScore, Col.score]
      rw [hsc]
      obtain ⟨i0, rfl⟩ : ∃ k, i = k + 1 := ⟨i - 1, by omega⟩
      simp only [Nat.add_sub_cancel] at this
      cases j with
      | zero =>
        rw [local_cellAt_zero_right] at this ⊢
        simp only at this ⊢
        omega
      | succ j0 =>
        rw [cellAt_score_succ]
        exact le_max_of_le_right (le_max_of_le_right (le_max_of_le_left
          (by simp only [GAP_SCORE]; omega)))
    | ins y =>
      obtain ⟨hbj, hs', _⟩ := snoc_eq_take_drop seq2 _ y j b hj hb hs
      have hf' : spellFst cs = (seq1.take i).drop a := by simpa [spellFst] using hf
      have := ih i (j - 1) a b ha hi (by omega) (by omega) hf' hs'
      have hsc : alignmentScore [Col.ins y] = -2 := by simp [alignmentScore, Col.score]
      rw [hsc]
      obtain ⟨j0, rfl⟩ : ∃ k, j = k + 1 := ⟨j - 1, by omega⟩
      simp only [Nat.add_sub_cancel] at this
      cases i with
      | zero =>
        rw [local_cellAt_zero_left] at this ⊢
        simp only at this ⊢
        omega
      | succ i0 =>
        rw [cellAt_score_succ]
        exact le_max_of_le_right (le_max_of_le_right (le_max_of_le_right
          (by simp only [GAP_SCORE]; omega)))

end SmithWaterman

namespace SmithWaterman

/-- The tracked maximum after the whole scan. -/
theorem filled_tracked (seq1 seq2 : List Char) :
    ((filled seq1 seq2).maxScore = 0 ∧ (filled seq1 seq2).maxCell = default ∧
      ∀ i j, i ≤ seq1.length → j ≤ seq2.length → (cellAt seq1 seq2 i j).score = 0) ∨
    (∃ a b, 0 < a ∧ a ≤ seq1.length ∧ 0 < b ∧ b ≤ seq2.length ∧
      0 < (filled seq1 seq2).maxScore ∧
      (filled seq1 seq2).maxScore = (cellAt seq1 seq2 a b).score ∧
      (filled seq1 seq2).maxCell = cellAt seq1 seq2 a b ∧
      (∀ i j, i ≤ seq1.length → j ≤ seq2.length →
        (cellAt seq1 seq2 i j).score ≤ (filled seq1 seq2).maxScore) ∧
      (∀ i j, 0 < i → 0 < j → j ≤ seq2.length → ScanBefore i j a b →
        (cellAt seq1 seq2 i j).score < (filled seq1 seq2).maxScore)) := by
  obtain ⟨_, _, htr⟩ := filled_spec seq1 seq2
  have hbnd : ∀ i j, ¬ (0 < i ∧ 0 < j) → (cellAt seq1 seq2 i j).score = 0 := by
    intro i j h
    have : i = 0 ∨ j = 0 := by omega
    rcases this with rfl | rfl
    · rw [local_cellAt_zero_left]
    · rw [local_cellAt_zero_right]
  rcases htr with ⟨h0, hdef, hz⟩ | ⟨a, b, hb, ⟨ha0, hb0, hv⟩, hp, hsc, hcell, hmax, hfirst⟩
  · refine Or.inl ⟨h0, hdef, fun i j hi hj => ?_⟩
    by_cases hij : 0 < i ∧ 0 < j
    · exact le_antisymm (hz i j hj ⟨hij.1, hij.2, by omega⟩) (cellAt_score_nonneg _ _ _ _)
    · exact hbnd i j hij
  · refine Or.inr ⟨a, b, ha0, by omega, hb0, hb, hp, hsc, hcell, fun i j hi hj => ?_, hfirst⟩
    by_cases hij : 0 < i ∧ 0 < j
    · exact hmax i j hj ⟨hij.1, hij.2, by omega⟩
    · rw [hbnd i j hij]; exact le_of_lt hp

theorem maxScore_nonneg (seq1 seq2 : List Char) : 0 ≤ (filled seq1 seq2).maxScore := by
  rcases filled_tracked seq1 seq2 with ⟨h0, _, _⟩ | ⟨_, _, _, _, _, _, hp, _⟩
  · rw [h0]
  · exact le_of_lt hp

theorem cellAt_le_maxScore (seq1 seq2 : List Char) (i j : Nat) (hi : i ≤ seq1.length)
    (hj : j ≤ seq2.length) : (cellAt seq1 seq2 i j).score ≤ (filled seq1 seq2).maxScore := by
  rcases filled_tracked seq1 seq2 with ⟨h0, _, hz⟩ | ⟨_, _, _, _, _, _, _, _, _, hmax, _⟩
  · rw [h0, hz i j hi hj]
  · exact hmax i j hi hj

/-- The outcome of `align`: it always returns; the outputs render a column
list, empty when a coordinate of `maxCell` is not positive, and otherwise an
alignment of substrings ending at the coordinates of `maxCell`. -/
theorem local_align_spec (seq1 seq2 : List Char) :
    ∃ (r : Aligned) (al : List Col), align seq1 seq2 = some r ∧
      r.matrix = (filled seq1 seq2).matrix ∧ r.maxScore = (filled seq1 seq2).maxScore ∧
      r.maxCell = (filled seq1 seq2).maxCell ∧
      r.aligned1 = al.map Col.top ∧ r.aligned2 = al.map Col.bottom ∧
      ((¬ (0 < r.maxCell.i ∧ 0 < r.maxCell.j) ∧ al = []) ∨
       ∃ i j i' j' : Nat, (i : Int) = r.maxCell.i ∧ (j : Int) = r.maxCell.j ∧
         i ≤ seq1.length ∧ j ≤ seq2.length ∧ i' ≤ i ∧ j' ≤ j ∧
         spellFst al = (seq1.take i).drop i' ∧ spellSnd al = (seq2.take j).drop j' ∧
         alignmentScore al = (cellAt seq1 seq2 i j).score) := by
  by_cases hpos : 0 < (filled seq1 seq2).maxCell.i ∧ 0 < (filled seq1 seq2).maxCell.j
  · have hle : (filled seq1 seq2).maxCell.i ≤ seq1.length ∧
        (filled seq1 seq2).maxCell.j ≤ seq2.length := by
      rcases filled_tracked seq1 seq2 with ⟨_, hdef, _⟩ | ⟨a, b, ha0, ha, hb0, hb, _, _, hc, _, _⟩
      · rw [hdef] at hpos
        exact absurd hpos.1 (lt_irrefl _)
      · rw [hc, (cellAt_index seq1 seq2 a b ha0 hb0).1, (cellAt_index seq1 seq2 a b ha0 hb0).2]
        have h1 := sizeToInt_le a
        have h2 := sizeToInt_le b
        constructor <;> omega
    obtain ⟨i, hi⟩ : ∃ i : Nat, (i : Int) = (filled seq1 seq2).maxCell.i :=
      ⟨((filled seq1 seq2).maxCell.i).toNat, by omega⟩
    obtain ⟨j, hj⟩ : ∃ j : Nat, (j : Int) = (filled seq1 seq2).maxCell.j :=
      ⟨((filled seq1 seq2).maxCell.j).toNat, by omega⟩
    obtain ⟨al, i', j', hi', hj', h1, h2, h3, _, h5⟩ :=
      local_tracebackLoop_spec seq1 seq2 (i + j) i j rfl (by omega) (by omega)
    refine ⟨⟨(filled seq1 seq2).matrix, (filled seq1 seq2).maxScore, (filled seq1 seq2).maxCell,
      al.map Col.top, al.map Col.bottom⟩, al, ?_, rfl, rfl, rfl, rfl, rfl,
      Or.inr ⟨i, j, i', j', hi, hj, by omega, by omega, hi', hj', h1, h2, h3⟩⟩
    unfold align alignWith traceback
    simp only
    rw [← hi, ← hj, h5 _ (by omega)]
    simp
  · refine ⟨⟨(filled seq1 seq2).matrix, (filled seq1 seq2).maxScore, (filled seq1 seq2).maxCell,
      [], []⟩, [], ?_, rfl, rfl, rfl, rfl, rfl, Or.inl ⟨hpos, rfl⟩⟩
    unfold align alignWith traceback
    simp only
    rw [tracebackLoop_stop _ _ _ _ _ _ _ _ (fun h => hpos ⟨h.1, h.2.1⟩)]
    rfl

/-- When no symbol of `seq1` equals a symbol of `seq2`, every cell scores 0. -/
theorem cellAt_score_of_disjoint (seq1 seq2 : List Char)
    (h : ∀ a ∈ seq1, ∀ b ∈ seq2, a ≠ b) :
    ∀ i j, i ≤ seq1.length → j ≤ seq2.length → (cellAt seq1 seq2 i j).score = 0 := by
  intro i
  induction i with
  | zero => intro j _ _; rw [local_cellAt_zero_left]
  | succ i ih =>
    intro j
    induction j with
    | zero => intro _ _; rw [local_cellAt_zero_right]
    | succ j ihj =>
      intro hi hj
      have hne : seq1.getD i default ≠ seq2.getD j default := by
        rw [List.getD_eq_getElem seq1 default (by omega : i < seq1.length),
          List.getD_eq_getElem seq2 default (by omega : j < seq2.length)]
        exact h _ (List.getElem_mem _) _ (List.getElem_mem _)
      rw [cellAt_score_succ, ih j (by omega) (by omega), ih (j + 1) (by omega) hj,
        ihj hi (by omega)]
      have hs : substScore seq1 seq2 (i + 1) (j + 1) = -1 := by
        unfold substScore
        rw [if_neg (by simpa using hne)]
        rfl
      rw [hs]
      simp [GAP_SCORE]

end SmithWaterman

/-! ## Contracts of the local aligner -/

/-- C7: for all sequences `A`, `B`, `SmithWaterman::align` returns with
`maxScore ≥ 0`; and when no symbol of `A` equals a symbol of `B`, or either
input is empty, `maxScore` is 0 and both aligned strings are empty. -/
theorem C7_local_score_nonneg (A B : List Char) :
    (∃ r, SmithWaterman.align A B = some r ∧ 0 ≤ r.maxScore) ∧
    (((∀ a ∈ A, ∀ b ∈ B, a ≠ b) ∨ A = [] ∨ B = []) →
      ∃ r, SmithWaterman.align A B = some r ∧ r.maxScore = 0 ∧
        r.aligned1 = [] ∧ r.aligned2 = []) := by
  obtain ⟨r, al, hr, _, hms, hmc, ha1, ha2, hcase⟩ := SmithWaterman.local_align_spec A B
  refine ⟨⟨r, hr, by rw [hms]; exact SmithWaterman.maxScore_nonneg A B⟩, fun hdis => ?_⟩
  have hdis' : ∀ a ∈ A, ∀ b ∈ B, a ≠ b := by
    rcases hdis with h | rfl | rfl
    · exact h
    · intro a ha; exact absurd ha (List.not_mem_nil a)
    · intro a _ b hb; exact absurd hb (List.not_mem_nil b)
  have hzero := SmithWaterman.cellAt_score_of_disjoint A B hdis'
  rcases SmithWaterman.filled_tracked A B with ⟨h0, hdef, _⟩ | ⟨a, b, _, ha, _, hb, hp, hsc, _⟩
  · refine ⟨r, hr, by rw [hms, h0], ?_⟩
    rcases hcase with ⟨_, rfl⟩ | ⟨i, j, _, _, hi, hj, _, _, _, _, _, _, _⟩
    · exact ⟨ha1, ha2⟩
    · rw [hmc, hdef] at hi hj
      have hi0 : i = 0 := by
        have hd : (default : SmithWaterman.Cell).i = 0 := rfl
        rw [hd] at hi
        exact_mod_cast hi
      have hj0 : j = 0 := by
        have hd : (default : SmithWaterman.Cell).j = 0 := rfl
        rw [hd] at hj
        exact_mod_cast hj
      subst hi0 hj0
      have hnil : al = [] := by
        have h1 : spellFst al = [] := by simp_all
        have h2 : spellSnd al = [] := by simp_all
        cases al with
        | nil => rfl
        | cons c cs => cases c <;> simp [spellFst, spellSnd] at h1 h2
      subst hnil
      exact ⟨ha1, ha2⟩
  · rw [hsc, hzero a b ha hb] at hp
    exact absurd hp (lt_irrefl _)

/-- C7 at `A = "AAAA"`, `B = "TTTT"`. -/
theorem C7_local_score_nonneg_witness :
    ∃ r, SmithWaterman.align ['A', 'A', 'A', 'A'] ['T', 'T', 'T', 'T'] = some r ∧
      r.maxScore = 0 ∧ r.aligned1 = [] ∧ r.aligned2 = [] :=
  (C7_local_score_nonneg ['A', 'A', 'A', 'A'] ['T', 'T', 'T', 'T']).2 (Or.inl (by decide))

theorem take_drop_substring (s : List Char) (i a : Nat) : (s.take i).drop a <:+: s :=
  ⟨(s.take i).take a, s.drop i, by
    rw [List.take_append_drop, List.take_append_drop]⟩

theorem substring_eq_take_drop {s t : List Char} (h : t <:+: s) :
    ∃ i a, a ≤ i ∧ i ≤ s.length ∧ t = (s.take i).drop a := by
  obtain ⟨p, q, rfl⟩ := h
  refine ⟨p.length + t.length, p.length, Nat.le_add_right _ _, by simp, ?_⟩
  rw [List.append_assoc, List.take_append, List.drop_left, List.take_left]

/-- C8: the local score `maxScore` computed by `SmithWaterman::fillMatrix` is
the maximum, over all contiguous substrings `A'` of `A` and `B'` of `B` (empty
ones included), of the optimal global alignment score of `A'` with `B'`: it is
the optimal score of one such pair, and the optimal score of no pair exceeds
it. -/
theorem C8_local_score_is_best_substring_score (A B : List Char) :
    (∃ A' B', A' <:+: A ∧ B' <:+: B ∧
      IsOptimalGlobal A' B' (SmithWaterman.filled A B).maxScore) ∧
    ∀ A' B' v, A' <:+: A → B' <:+: B → IsOptimalGlobal A' B' v →
      v ≤ (SmithWaterman.filled A B).maxScore := by
  constructor
  · have hcell : ∃ a b, a ≤ A.length ∧ b ≤ B.length ∧
        (SmithWaterman.filled A B).maxScore = (SmithWaterman.cellAt A B a b).score := by
      rcases SmithWaterman.filled_tracked A B with ⟨h0, _, hz⟩ | ⟨a, b, _, ha, _, hb, _, hsc, _⟩
      · exact ⟨0, 0, Nat.zero_le _, Nat.zero_le _, by rw [h0, hz 0 0 (Nat.zero_le _) (Nat.zero_le _)]⟩
      · exact ⟨a, b, ha, hb, hsc⟩
    obtain ⟨a, b, ha, hb, hsc⟩ := hcell
    obtain ⟨al, i', j', hi', hj', h1, h2, h3, _, _⟩ :=
      SmithWaterman.local_tracebackLoop_spec A B (a + b) a b rfl ha hb
    refine ⟨(A.take a).drop i', (B.take b).drop j', take_drop_substring A a i',
      take_drop_substring B b j', ⟨al, h1, h2, by rw [h3, hsc]⟩, fun al' hf hs => ?_⟩
    rw [hsc]
    exact SmithWaterman.local_alignmentScore_le_cellAt A B al' a b i' j' hi' ha hj' hb hf hs
  · intro A' B' v hA hB hopt
    obtain ⟨i, a, hai, hi, rfl⟩ := substring_eq_take_drop hA
    obtain ⟨j, b, hbj, hj, rfl⟩ := substring_eq_take_drop hB
    obtain ⟨⟨al, hf, hs, hv⟩, _⟩ := hopt
    rw [← hv]
    exact le_trans (SmithWaterman.local_alignmentScore_le_cellAt A B al i j a b hai hi hbj hj hf hs)
      (SmithWaterman.cellAt_le_maxScore A B i j hi hj)

theorem getD_replicate_append_left (n : Nat) (x y : Char) (k : Nat) (hk : k < n) :
    (List.replicate n x ++ [y]).getD k default = x := by
  rw [List.getD_append _ _ _ _ (by rw [List.length_replicate]; exact hk),
    List.getD_eq_getElem?_getD, List.getElem?_replicate, if_pos hk]
  rfl

theorem getD_replicate_append_right (n : Nat) (x y : Char) :
    (List.replicate n x ++ [y]).getD n default = y := by
  rw [List.getD_eq_getElem?_getD, List.getElem?_append_right (by rw [List.length_replicate])]
  simp

namespace SmithWaterman

theorem scanBefore_trichotomy (i j a b : Nat) :
    ScanBefore i j a b ∨ (i = a ∧ j = b) ∨ ScanBefore a b i j := by
  unfold ScanBefore
  omega

/-- A cell of positive score that bounds every score and is preceded only by
cells of smaller score is the tracked maximum. -/
theorem filled_of_first_maximum (seq1 seq2 : List Char) (a b : Nat)
    (ha0 : 0 < a) (ha : a ≤ seq1.length) (hb0 : 0 < b) (hb : b ≤ seq2.length)
    (hpos : 0 < (cellAt seq1 seq2 a b).score)
    (hmax : ∀ i j, i ≤ seq1.length → j ≤ seq2.length →
      (cellAt seq1 seq2 i j).score ≤ (cellAt seq1 seq2 a b).score)
    (hfirst : ∀ i j, 0 < i → 0 < j → i ≤ seq1.length → j ≤ seq2.length → ScanBefore i j a b →
      (cellAt seq1 seq2 i j).score < (cellAt seq1 seq2 a b).score) :
    (filled seq1 seq2).maxScore = (cellAt seq1 seq2 a b).score ∧
    (filled seq1 seq2).maxCell = cellAt seq1 seq2 a b := by
  rcases filled_tracked seq1 seq2 with ⟨_, _, hz⟩ | ⟨x, y, hx0, hx, hy0, hy, _, hsc, hc, hm, hf⟩
  · rw [hz a b ha hb] at hpos
    exact absurd hpos (lt_irrefl _)
  · rcases scanBefore_trichotomy x y a b with h | ⟨rfl, rfl⟩ | h
    · have h1 := hfirst x y hx0 hy0 hx hy h
      have h2 := hm a b ha hb
      rw [hsc] at h2
      omega
    · exact ⟨hsc, hc⟩
    · have h1 := hf a b ha0 hb0 hb h
      have h2 := hmax x y hx hy
      rw [hsc] at h1
      omega

/-- A single match at the end of a long second sequence: the matrix has one
row, and only its last cell scores. -/
theorem cellAt_last_column (n : Nat) (j : Nat) (hj : j ≤ n) :
    (cellAt ['A'] (List.replicate n 'T' ++ ['A']) 1 j).score = 0 := by
  induction j with
  | zero => rw [local_cellAt_zero_right]
  | succ j ih =>
    rw [cellAt_score_succ, local_cellAt_zero_left, local_cellAt_zero_left, ih (by omega)]
    have hs : substScore ['A'] (List.replicate n 'T' ++ ['A']) (0 + 1) (j + 1) = -1 := by
      unfold substScore
      simp only [Nat.add_sub_cancel]
      rw [getD_replicate_append_left n 'T' 'A' j (by omega)]
      simp [MISMATCH_SCORE]
    rw [hs]
    simp [GAP_SCORE]

theorem cellAt_last_column_end (n : Nat) :
    cellAt ['A'] (List.replicate n 'T' ++ ['A']) 1 (n + 1) =
      ⟨1, sizeToInt 1, sizeToInt (n + 1), 'D'⟩ := by
  rw [local_cellAt_succ, local_cellAt_zero_left, local_cellAt_zero_left, cellAt_last_column n n le_rfl]
  have hs : substScore ['A'] (List.replicate n 'T' ++ ['A']) (0 + 1) (n + 1) = 1 := by
    unfold substScore
    simp only [Nat.add_sub_cancel]
    rw [getD_replicate_append_right n 'T' 'A']
    simp [MATCH_SCORE]
  rw [hs]
  simp [localCell, GAP_SCORE]

theorem filled_last_column (n : Nat) :
    (filled ['A'] (List.replicate n 'T' ++ ['A'])).maxScore = 1 ∧
    (filled ['A'] (List.replicate n 'T' ++ ['A'])).maxCell =
      ⟨1, sizeToInt 1, sizeToInt (n + 1), 'D'⟩ := by
  have hlen : (List.replicate n 'T' ++ ['A']).length = n + 1 := by simp
  have hcell := cellAt_last_column_end n
  have hother : ∀ i j, i ≤ 1 → j ≤ n + 1 → ¬ (i = 1 ∧ j = n + 1) →
      (cellAt ['A'] (List.replicate n 'T' ++ ['A']) i j).score = 0 := by
    intro i j hi hj hne
    rcases Nat.eq_zero_or_pos i with rfl | hi0
    · rw [local_cellAt_zero_left]
    · have hi1 : i = 1 := by omega
      subst hi1
      exact cellAt_last_column n j (by omega)
  have h := filled_of_first_maximum ['A'] (List.replicate n 'T' ++ ['A']) 1 (n + 1)
    Nat.one_pos (by simp) (Nat.succ_pos n) (by rw [hlen])
    (by rw [hcell]; exact Int.one_pos)
    (by
      intro i j hi hj
      rw [hlen] at hj
      by_cases hij : i = 1 ∧ j = n + 1
      · obtain ⟨rfl, rfl⟩ := hij; exact le_rfl
      · rw [hother i j (by simpa using hi) hj hij, hcell]; exact Int.one_nonneg)
    (by
      intro i j _ _ hi hj hbefore
      rw [hlen] at hj
      rw [hother i j (by simpa using hi) hj (by unfold ScanBefore at hbefore; omega), hcell]
      exact Int.one_pos)
  rw [hcell] at h
  exact h

end SmithWaterman

/-- C9 as stated is false: for `A = "A"` and `B` made of `2^31 - 1` symbols `T`
followed by `A`, the best cell is `(1, 2^31)`, its column is narrowed to the
`int` `maxCell.j = -2147483648`, and no substring of `B` ends at that index. -/
theorem C9_local_substring_counterexample :
    '-' ∉ ['A'] ∧ '-' ∉ (List.replicate 2147483647 'T' ++ ['A']) ∧
    ∃ r, SmithWaterman.align ['A'] (List.replicate 2147483647 'T' ++ ['A']) = some r ∧
      r.maxCell.j = -2147483648 ∧
      ¬ ∃ s e : Nat, (e : Int) = r.maxCell.j ∧ s ≤ e ∧
        e ≤ (List.replicate 2147483647 'T' ++ ['A']).length ∧
        stripGaps r.aligned2 = ((List.replicate 2147483647 'T' ++ ['A']).take e).drop s := by
  refine ⟨by decide, ?_, ?_⟩
  · rw [List.mem_append, List.mem_replicate]
    rintro (⟨_, h⟩ | h)
    · exact absurd h (by decide)
    · exact absurd h (by decide)
  · obtain ⟨r, al, hr, _, _, hmc, _, _, _⟩ :=
      SmithWaterman.local_align_spec ['A'] (List.replicate 2147483647 'T' ++ ['A'])
    have hj : r.maxCell.j = -2147483648 := by
      rw [hmc, (SmithWaterman.filled_last_column 2147483647).2]
      decide
    refine ⟨r, hr, hj, ?_⟩
    rintro ⟨s, e, he, _⟩
    rw [hj] at he
    omega

/-- C9 (amended): for sequences `A`, `B` without the gap symbol and shorter
than `2^31`, `SmithWaterman::align` returns, its outputs have equal length,
deleting `'-'` from `aligned1` gives a contiguous substring of `A` ending at
index `maxCell.i`, and deleting `'-'` from `aligned2` gives a contiguous
substring of `B` ending at index `maxCell.j`. -/
theorem C9_local_outputs_are_substrings (A B : List Char) (hA : '-' ∉ A) (hB : '-' ∉ B)
    (hlA : A.length < 2147483648) (hlB : B.length < 2147483648) :
    ∃ r, SmithWaterman.align A B = some r ∧ r.aligned1.length = r.aligned2.length ∧
      (∃ s e : Nat, (e : Int) = r.maxCell.i ∧ s ≤ e ∧ e ≤ A.length ∧
        stripGaps r.aligned1 = (A.take e).drop s) ∧
      (∃ s e : Nat, (e : Int) = r.maxCell.j ∧ s ≤ e ∧ e ≤ B.length ∧
        stripGaps r.aligned2 = (B.take e).drop s) := by
  obtain ⟨r, al, hr, _, _, hmc, ha1, ha2, hcase⟩ := SmithWaterman.local_align_spec A B
  refine ⟨r, hr, by rw [ha1, ha2, List.length_map, List.length_map], ?_⟩
  rcases hcase with ⟨hnp, rfl⟩ | ⟨i, j, i', j', hi, hj, hiA, hjB, hi', hj', h1, h2, _⟩
  · have hdef : r.maxCell = default := by
      rcases SmithWaterman.filled_tracked A B with
        ⟨_, hdef, _⟩ | ⟨a, b, ha0, ha, hb0, hb, _, _, hc, _, _⟩
      · rw [hmc, hdef]
      · exfalso
        apply hnp
        rw [hmc, hc, (SmithWaterman.cellAt_index A B a b ha0 hb0).1,
          (SmithWaterman.cellAt_index A B a b ha0 hb0).2,
          sizeToInt_of_lt a (by omega), sizeToInt_of_lt b (by omega)]
        exact ⟨by exact_mod_cast ha0, by exact_mod_cast hb0⟩
    rw [ha1, ha2, hdef]
    exact ⟨⟨0, 0, rfl, le_rfl, Nat.zero_le _, rfl⟩, ⟨0, 0, rfl, le_rfl, Nat.zero_le _, rfl⟩⟩
  · have hsA : '-' ∉ spellFst al := by
      rw [h1]
      exact fun h => hA ((List.take_subset _ _) ((List.drop_subset _ _) h))
    have hsB : '-' ∉ spellSnd al := by
      rw [h2]
      exact fun h => hB ((List.take_subset _ _) ((List.drop_subset _ _) h))
    refine ⟨⟨i', i, hi, hi', hiA, ?_⟩, ⟨j', j, hj, hj', hjB, ?_⟩⟩
    · rw [ha1, stripGaps_map_top al hsA, h1]
    · rw [ha2, stripGaps_map_bottom al hsB, h2]

/-- C9 (amended) at `A = "TTTACGTTTT"`, `B = "ACGT"`. -/
theorem C9_local_outputs_are_substrings_witness :
    ('-' ∉ ['T', 'T', 'T', 'A', 'C', 'G', 'T', 'T', 'T', 'T'] ∧ '-' ∉ ['A', 'C', 'G', 'T'] ∧
      ['T', 'T', 'T', 'A', 'C', 'G', 'T', 'T', 'T', 'T'].length < 2147483648 ∧
      ['A', 'C', 'G', 'T'].length < 2147483648) ∧
    ∃ r, SmithWaterman.align ['T', 'T', 'T', 'A', 'C', 'G', 'T', 'T', 'T', 'T']
        ['A', 'C', 'G', 'T'] = some r ∧
      r.aligned1.length = r.aligned2.length ∧
      (∃ s e : Nat, (e : Int) = r.maxCell.i ∧ s ≤ e ∧
        e ≤ ['T', 'T', 'T', 'A', 'C', 'G', 'T', 'T', 'T', 'T'].length ∧
        stripGaps r.aligned1 =
          (['T', 'T', 'T', 'A', 'C', 'G', 'T', 'T', 'T', 'T'].take e).drop s) ∧
      (∃ s e : Nat, (e : Int) = r.maxCell.j ∧ s ≤ e ∧ e ≤ ['A', 'C', 'G', 'T'].length ∧
        stripGaps r.aligned2 = (['A', 'C', 'G', 'T'].take e).drop s) :=
  ⟨⟨by decide, by decide, by decide, by decide⟩,
    C9_local_outputs_are_substrings ['T', 'T', 'T', 'A', 'C', 'G', 'T', 'T', 'T', 'T']
      ['A', 'C', 'G', 'T'] (by decide) (by decide) (by decide) (by decide)⟩

namespace SmithWaterman

/-- A single match at the end of a long first sequence: the matrix has one
interior column, and only its last cell scores. -/
theorem cellAt_last_row (n : Nat) (i : Nat) (hi : i ≤ n) :
    (cellAt (List.replicate n 'T' ++ ['A']) ['A'] i 1).score = 0 := by
  induction i with
  | zero => rw [local_cellAt_zero_left]
  | succ i ih =>
    rw [cellAt_score_succ, local_cellAt_zero_right, local_cellAt_zero_right, ih (by omega)]
    have hs : substScore (List.replicate n 'T' ++ ['A']) ['A'] (i + 1) (0 + 1) = -1 := by
      unfold substScore
      simp only [Nat.add_sub_cancel]
      rw [getD_replicate_append_left n 'T' 'A' i (by omega)]
      simp [MISMATCH_SCORE]
    rw [hs]
    simp [GAP_SCORE]

theorem cellAt_last_row_end (n : Nat) :
    cellAt (List.replicate n 'T' ++ ['A']) ['A'] (n + 1) 1 =
      ⟨1, sizeToInt (n + 1), sizeToInt 1, 'D'⟩ := by
  rw [local_cellAt_succ, local_cellAt_zero_right, local_cellAt_zero_right, cellAt_last_row n n le_rfl]
  have hs : substScore (List.replicate n 'T' ++ ['A']) ['A'] (n + 1) (0 + 1) = 1 := by
    unfold substScore
    simp only [Nat.add_sub_cancel]
    rw [getD_replicate_append_right n 'T' 'A']
    simp [MATCH_SCORE]
  rw [hs]
  simp [localCell, GAP_SCORE]

theorem filled_last_row (n : Nat) :
    (filled (List.replicate n 'T' ++ ['A']) ['A']).maxScore = 1 ∧
    (filled (List.replicate n 'T' ++ ['A']) ['A']).maxCell =
      ⟨1, sizeToInt (n + 1), sizeToInt 1, 'D'⟩ := by
  have hlen : (List.replicate n 'T' ++ ['A']).length = n + 1 := by simp
  have hcell := cellAt_last_row_end n
  have hother : ∀ i j, i ≤ n + 1 → j ≤ 1 → ¬ (i = n + 1 ∧ j = 1) →
      (cellAt (List.replicate n 'T' ++ ['A']) ['A'] i j).score = 0 := by
    intro i j hi hj hne
    rcases Nat.eq_zero_or_pos j with rfl | hj0
    · rw [local_cellAt_zero_right]
    · have hj1 : j = 1 := by omega
      subst hj1
      exact cellAt_last_row n i (by omega)
  have h := filled_of_first_maximum (List.replicate n 'T' ++ ['A']) ['A'] (n + 1) 1
    (Nat.succ_pos n) (by rw [hlen]) Nat.one_pos (by simp)
    (by rw [hcell]; exact Int.one_pos)
    (by
      intro i j hi hj
      rw [hlen] at hi
      by_cases hij : i = n + 1 ∧ j = 1
      · obtain ⟨rfl, rfl⟩ := hij; exact le_rfl
      · rw [hother i j hi (by simpa using hj) hij, hcell]; exact Int.one_nonneg)
    (by
      intro i j _ _ hi hj hbefore
      rw [hlen] at hi
      rw [hother i j hi (by simpa using hj) (by unfold ScanBefore at hbefore; omega), hcell]
      exact Int.one_pos)
  rw [hcell] at h
  exact h

theorem cellAt_score_le_index (seq1 seq2 : List Char) :
    ∀ i j, (cellAt seq1 seq2 i j).score ≤ i ∧ (cellAt seq1 seq2 i j).score ≤ j := by
  intro i
  induction i with
  | zero => intro j; rw [local_cellAt_zero_left]; simp
  | succ i ih =>
    intro j
    induction j with
    | zero => rw [local_cellAt_zero_right]; simp only; omega
    | succ j ihj =>
      rw [cellAt_score_succ]
      have h1 := ih j
      have h2 := ih (j + 1)
      have h3 := local_substScore_le seq1 seq2 (i + 1) (j + 1)
      simp only [GAP_SCORE]
      push_cast at h1 h2 ihj ⊢
      omega

theorem substScore_eq_one (seq1 seq2 : List Char) (i j : Nat)
    (h : substScore seq1 seq2 i j = 1) :
    seq1.getD (i - 1) default = seq2.getD (j - 1) default := by
  unfold substScore at h
  by_contra hne
  rw [if_neg hne] at h
  exact absurd h (by decide)

/-- An occurrence of `seq2` inside `seq1` scores its full length along the
diagonal through the occurrence. -/
theorem cellAt_occurrence (p q seq2 : List Char) :
    ∀ k, k ≤ seq2.length → (k : Int) ≤ (cellAt (p ++ seq2 ++ q) seq2 (p.length + k) k).score := by
  intro k
  induction k with
  | zero => intro _; simpa using cellAt_score_nonneg _ _ _ _
  | succ k ih =>
    intro hk
    rw [← Nat.add_assoc, cellAt_score_succ]
    have hs : substScore (p ++ seq2 ++ q) seq2 (p.length + k + 1) (k + 1) = 1 := by
      unfold substScore
      simp only [Nat.add_sub_cancel]
      rw [if_pos]
      · rfl
      · rw [List.append_assoc, List.getD_eq_getElem?_getD, List.getD_eq_getElem?_getD,
          List.getElem?_append_right (Nat.le_add_right _ _), Nat.add_sub_cancel_left,
          List.getElem?_append_left (by omega)]
    rw [hs]
    have := ih (by omega)
    push_cast
    exact le_max_of_le_right (le_max_of_le_left (by omega))

/-- From a cell whose score equals its column index, the traceback walks the
diagonal and emits the first `j` symbols of `seq2` on both sides. -/
theorem tracebackLoop_full_match (seq1 seq2 : List Char) :
    ∀ j i, i ≤ seq1.length → j ≤ seq2.length → (cellAt seq1 seq2 i j).score = j →
      ∀ fuel, j ≤ fuel → ∀ a1 a2,
        tracebackLoop seq1 seq2 (filled seq1 seq2).matrix fuel i j a1 a2 =
          some (seq2.take j ++ a1, seq2.take j ++ a2) := by
  intro j
  induction j with
  | zero =>
    intro i _ _ _ fuel _ a1 a2
    rw [tracebackLoop_stop]
    · rfl
    · simp
  | succ j ih =>
    intro i hi hj hs fuel hf a1 a2
    have hget : (filled seq1 seq2).matrix.get i (j + 1) = cellAt seq1 seq2 i (j + 1) :=
      filled_get seq1 seq2 hi hj
    have hpos : 0 < (cellAt seq1 seq2 i (j + 1)).score := by rw [hs]; exact_mod_cast Nat.succ_pos j
    obtain ⟨hi0, _, hdir⟩ := cellAt_positive seq1 seq2 i (j + 1) hpos
    obtain ⟨f, rfl⟩ : ∃ f, fuel = f + 1 := ⟨fuel - 1, by omega⟩
    have hb1 := (cellAt_score_le_index seq1 seq2 (i - 1) j).2
    have hb2 := (cellAt_score_le_index seq1 seq2 (i - 1) (j + 1)).2
    have hb3 := (cellAt_score_le_index seq1 seq2 i j).2
    have hb4 := local_substScore_le seq1 seq2 i (j + 1)
    simp only [Nat.add_sub_cancel, GAP_SCORE] at hdir
    push_cast at hs hb2
    rcases hdir with ⟨hd, hsc⟩ | ⟨_, hsc⟩ | ⟨_, hsc⟩
    · have hprev : (cellAt seq1 seq2 (i - 1) j).score = j := by omega
      have hsub : substScore seq1 seq2 i (j + 1) = 1 := by omega
      have heq := substScore_eq_one seq1 seq2 i (j + 1) hsub
      simp only [Nat.add_sub_cancel] at heq
      rw [local_tracebackLoop_succ _ _ _ _ _ _ _ _ hi0 (Nat.succ_pos j) (by rw [hget]; exact hpos),
        hget, if_pos hd]
      show tracebackLoop seq1 seq2 (filled seq1 seq2).matrix f ((i - 1 : Nat) : Int) (j : Nat)
        (seq1.getD (i - 1) default :: a1) (seq2.getD j default :: a2) = _
      rw [ih (i - 1) (by omega) (by omega) hprev f (by omega), heq,
        take_succ_getD seq2 j (by omega)]
      simp
    · omega
    · omega

end SmithWaterman

/-- C10 as stated is false: for `A` made of `2^31 - 1` symbols `T` followed by
`A`, and `B = "A"` (a substring of `A`), the best cell is `(2^31, 1)`, its row is
narrowed to a negative `int`, and the traceback emits nothing although
`maxScore` is 1. -/
theorem C10_exact_substring_counterexample :
    (['A'] : List Char) ≠ [] ∧ ['A'] <:+: (List.replicate 2147483647 'T' ++ ['A']) ∧
    ∃ r, SmithWaterman.align (List.replicate 2147483647 'T' ++ ['A']) ['A'] = some r ∧
      r.maxScore = 1 ∧ r.aligned1 = [] ∧ r.aligned2 = [] ∧ r.aligned1 ≠ ['A'] := by
  refine ⟨by decide, ⟨List.replicate 2147483647 'T', [], List.append_nil _⟩, ?_⟩
  obtain ⟨r, al, hr, _, hms, hmc, ha1, ha2, hcase⟩ :=
    SmithWaterman.local_align_spec (List.replicate 2147483647 'T' ++ ['A']) ['A']
  have hi : r.maxCell.i = -2147483648 := by
    rw [hmc, (SmithWaterman.filled_last_row 2147483647).2]
    decide
  have hal : al = [] := by
    rcases hcase with ⟨_, h⟩ | ⟨i, _, _, _, hi', _⟩
    · exact h
    · rw [hi] at hi'
      omega
  subst hal
  refine ⟨r, hr, ?_, ha1, ha2, ?_⟩
  · rw [hms, (SmithWaterman.filled_last_row 2147483647).1]
  · rw [ha1]
    decide

/-- C10 (amended): for every sequence `A` shorter than `2^31` and every
non-empty sequence `B` that occurs as a contiguous substring of `A`,
`SmithWaterman::align` returns `aligned1 = B`, `aligned2 = B` and
`maxScore = len(B)`. -/
theorem C10_exact_substring (A B : List Char) (hB : B ≠ []) (hsub : B <:+: A)
    (hlen : A.length < 2147483648) :
    ∃ r, SmithWaterman.align A B = some r ∧ r.aligned1 = B ∧ r.aligned2 = B ∧
      r.maxScore = (B.length : Int) := by
  obtain ⟨p, q, rfl⟩ := hsub
  have hBpos : 0 < B.length := List.length_pos.mpr hB
  have hlenB : B.length ≤ (p ++ B ++ q).length := by simp; omega
  have hocc := SmithWaterman.cellAt_occurrence p q B B.length le_rfl
  have hupper := SmithWaterman.cellAt_score_le_index (p ++ B ++ q) B
  rcases SmithWaterman.filled_tracked (p ++ B ++ q) B with
    ⟨_, _, hz⟩ | ⟨a, b, ha0, ha, hb0, hb, _, hsc, hc, hm, _⟩
  · rw [hz (p.length + B.length) B.length (by simp) le_rfl] at hocc
    omega
  · have h1 := hm (p.length + B.length) B.length (by simp) le_rfl
    have h2 := (hupper a b).2
    have hbB : b = B.length := by omega
    subst hbB
    have hscore : (SmithWaterman.cellAt (p ++ B ++ q) B a B.length).score = B.length := by omega
    refine ⟨⟨(SmithWaterman.filled (p ++ B ++ q) B).matrix,
      (SmithWaterman.filled (p ++ B ++ q) B).maxScore,
      (SmithWaterman.filled (p ++ B ++ q) B).maxCell, B, B⟩, ?_, rfl, rfl, ?_⟩
    · unfold SmithWaterman.align SmithWaterman.alignWith SmithWaterman.traceback
      simp only
      rw [hc, (SmithWaterman.cellAt_index _ _ a B.length ha0 hb0).1,
        (SmithWaterman.cellAt_index _ _ a B.length ha0 hb0).2,
        sizeToInt_of_lt a (by omega), sizeToInt_of_lt B.length (by omega),
        SmithWaterman.tracebackLoop_full_match _ _ B.length a ha le_rfl hscore _
          (Nat.le_add_left _ _)]
      simp
    · show (SmithWaterman.filled (p ++ B ++ q) B).maxScore = _
      rw [hsc, hscore]

/-- C10 (amended) at `A = "TTTACGTTTT"`, `B = "ACGT"`. -/
theorem C10_exact_substring_witness :
    ((['A', 'C', 'G', 'T'] : List Char) ≠ [] ∧
      ['A', 'C', 'G', 'T'] <:+: ['T', 'T', 'T', 'A', 'C', 'G', 'T', 'T', 'T', 'T'] ∧
      ['T', 'T', 'T', 'A', 'C', 'G', 'T', 'T', 'T', 'T'].length < 2147483648) ∧
    ∃ r, SmithWaterman.align ['T', 'T', 'T', 'A', 'C', 'G', 'T', 'T', 'T', 'T']
        ['A', 'C', 'G', 'T'] = some r ∧
      r.aligned1 = ['A', 'C', 'G', 'T'] ∧ r.aligned2 = ['A', 'C', 'G', 'T'] ∧
      r.maxScore = ((['A', 'C', 'G', 'T'] : List Char).length : Int) :=
  ⟨⟨by decide, ⟨['T', 'T', 'T'], ['T', 'T', 'T'], rfl⟩, by decide⟩,
    C10_exact_substring ['T', 'T', 'T', 'A', 'C', 'G', 'T', 'T', 'T', 'T'] ['A', 'C', 'G', 'T']
      (by decide) ⟨['T', 'T', 'T'], ['T', 'T', 'T'], rfl⟩ (by decide)⟩

/-! ## Further contracts of the global aligner -/

theorem spellSnd_eq_nil (al : List Col) (h : spellSnd al = []) :
    al.map Col.top = spellFst al ∧ al.map Col.bottom = List.replicate (spellFst al).length '-' := by
  induction al with
  | nil => exact ⟨rfl, rfl⟩
  | cons c cs ih =>
    cases c with
    | both a b => simp [spellSnd] at h
    | del a =>
      simp only [spellSnd] at h
      obtain ⟨h1, h2⟩ := ih h
      exact ⟨by simp [Col.top, spellFst, h1], by simp [Col.bottom, spellFst, h2, List.replicate_succ]⟩
    | ins b => simp [spellSnd] at h

theorem spellFst_eq_nil (al : List Col) (h : spellFst al = []) :
    al.map Col.bottom = spellSnd al ∧ al.map Col.top = List.replicate (spellSnd al).length '-' := by
  induction al with
  | nil => exact ⟨rfl, rfl⟩
  | cons c cs ih =>
    cases c with
    | both a b => simp [spellFst] at h
    | del a => simp [spellFst] at h
    | ins b =>
      simp only [spellFst] at h
      obtain ⟨h1, h2⟩ := ih h
      exact ⟨by simp [Col.bottom, spellSnd, h1], by simp [Col.top, spellSnd, h2, List.replicate_succ]⟩

set_option maxRecDepth 1000000 in
/-- C11: with the built-in constants and the diagonal-first, then up, then left
tie-break, `NeedlemanWunsch::align` on `seq1 = "ACGT"`, `seq2 = "AGT"` returns
`aligned1 = "ACGT"`, `aligned2 = "A-GT"` and `matrix[4][3].score = 1`. -/
theorem C11_acgt_agt_example :
    (NeedlemanWunsch.align ['A', 'C', 'G', 'T'] ['A', 'G', 'T']).map
        (fun r => (r.aligned1, r.aligned2, (r.matrix.get 4 3).score)) =
      some (['A', 'C', 'G', 'T'], ['A', '-', 'G', 'T'], 1) := by
  decide

/-- C12: empty input is not an error for the global aligner. For every `A` and
`B` whose boundary products `len * GAP_SCORE` fit a 32-bit `int` (lengths at
most `2^30`), aligning `A` with the empty sequence returns `aligned1 = A`,
`aligned2 = len(A)` copies of `'-'` and score `-2 * len(A)`; aligning the empty
sequence with `B` returns `aligned1 = len(B)` copies of `'-'`, `aligned2 = B`
and score `-2 * len(B)`. -/
theorem C12_empty_input_all_gaps (A B : List Char) (hA : A.length ≤ 1073741824)
    (hB : B.length ≤ 1073741824) :
    (∃ r, NeedlemanWunsch.align A [] = some r ∧ r.aligned1 = A ∧
      r.aligned2 = List.replicate A.length '-' ∧
      (r.matrix.get A.length 0).score = (A.length : Int) * GAP_SCORE) ∧
    (∃ r, NeedlemanWunsch.align [] B = some r ∧
      r.aligned1 = List.replicate B.length '-' ∧ r.aligned2 = B ∧
      (r.matrix.get 0 B.length).score = (B.length : Int) * GAP_SCORE) := by
  constructor
  · obtain ⟨al, h1, h2, _, r, hr, hm, ha1, ha2⟩ := NeedlemanWunsch.align_spec A []
    obtain ⟨e1, e2⟩ := spellSnd_eq_nil al h2
    refine ⟨r, hr, by rw [ha1, e1, h1], by rw [ha2, e2, h1], ?_⟩
    rw [hm, NeedlemanWunsch.scoreMatrix_get A [] le_rfl (Nat.zero_le _),
      NeedlemanWunsch.cellAt_boundary_score A [] A.length 0 (Or.inr rfl) hA (by decide)]
    simp only [GAP_SCORE]
    push_cast
    ring
  · obtain ⟨al, h1, h2, _, r, hr, hm, ha1, ha2⟩ := NeedlemanWunsch.align_spec [] B
    obtain ⟨e1, e2⟩ := spellFst_eq_nil al h1
    refine ⟨r, hr, by rw [ha1, e2, h2], by rw [ha2, e1, h2], ?_⟩
    rw [hm, NeedlemanWunsch.scoreMatrix_get [] B (Nat.zero_le _) le_rfl,
      NeedlemanWunsch.cellAt_boundary_score [] B 0 B.length (Or.inl rfl) (by decide) hB]
    simp only [GAP_SCORE]
    push_cast
    ring

/-- C12 at `A = "ACGT"`, `B = "AGT"`. -/
theorem C12_empty_input_all_gaps_witness :
    (['A', 'C', 'G', 'T'].length ≤ 1073741824 ∧ ['A', 'G', 'T'].length ≤ 1073741824) ∧
    ((∃ r, NeedlemanWunsch.align ['A', 'C', 'G', 'T'] [] = some r ∧
      r.aligned1 = ['A', 'C', 'G', 'T'] ∧
      r.aligned2 = List.replicate ['A', 'C', 'G', 'T'].length '-' ∧
      (r.matrix.get ['A', 'C', 'G', 'T'].length 0).score =
        (['A', 'C', 'G', 'T'].length : Int) * GAP_SCORE) ∧
    (∃ r, NeedlemanWunsch.align [] ['A', 'G', 'T'] = some r ∧
      r.aligned1 = List.replicate ['A', 'G', 'T'].length '-' ∧ r.aligned2 = ['A', 'G', 'T'] ∧
      (r.matrix.get 0 ['A', 'G', 'T'].length).score =
        (['A', 'G', 'T'].length : Int) * GAP_SCORE)) :=
  ⟨⟨by decide, by decide⟩,
    C12_empty_input_all_gaps ['A', 'C', 'G', 'T'] ['A', 'G', 'T'] (by decide) (by decide)⟩

/-! ## Statistics, substitution score and file reading -/

theorem foldl_range'_congr {σ : Type} (f g : σ → Nat → σ) (lo n : Nat) (s : σ)
    (h : ∀ k, k < n → ∀ t, f t (lo + k) = g t (lo + k)) :
    (List.range' lo n).foldl f s = (List.range' lo n).foldl g s := by
  induction n with
  | zero => rfl
  | succ n ih =>
    rw [List.range'_concat, List.foldl_append, List.foldl_append,
      ih (fun k hk t => h k (Nat.lt_succ_of_lt hk) t)]
    simp only [List.foldl_cons, List.foldl_nil, one_mul]
    exact h n (Nat.lt_succ_self n) _

/-- The two statistics loops agree on every pair of aligned strings that has no
column with the gap symbol on both sides. -/
theorem alignmentStats_agree (aligned1 aligned2 : List Char)
    (h : ∀ i, i < aligned1.length →
      ¬ (aligned1.getD i default = '-' ∧ aligned2.getD i default = '-')) :
    SmithWaterman.alignmentStats aligned1 aligned2 =
      AlignmentVisualizer.alignmentStats aligned1 aligned2 := by
  unfold SmithWaterman.alignmentStats AlignmentVisualizer.alignmentStats
  apply foldl_range'_congr
  intro k hk t
  have hk' := h (0 + k) (by omega)
  show SmithWaterman.statsStep _ _ _ = AlignmentVisualizer.statsStep _ _ _
  unfold SmithWaterman.statsStep AlignmentVisualizer.statsStep
  by_cases heq : aligned1.getD (0 + k) default = aligned2.getD (0 + k) default
  · have hne : aligned1.getD (0 + k) default ≠ '-' := fun hc => hk' ⟨hc, heq ▸ hc⟩
    rw [if_pos heq, if_pos ⟨heq, hne⟩]
  · have hn : ¬ (aligned1.getD (0 + k) default = aligned2.getD (0 + k) default ∧
        aligned1.getD (0 + k) default ≠ '-') := fun hc => heq hc.1
    rw [if_neg heq, if_neg hn]

set_option maxRecDepth 1000000 in
/-- C13 fails on the code: there is no guard on the alignment length. For the
local alignment of `"AAAA"` with `"TTTT"` (no match, both outputs empty)
`printResults` evaluates `(float)matches / aligned1.length() * 100` with a zero
divisor, and for the global alignment of two empty sequences
`visualizeAlignment` evaluates `100.0 * matches / seq1.length()` with a zero
divisor; whatever the rounding, both results are `0.0 / 0.0`, not `0`. -/
theorem C13_percent_identity_unguarded (single double : Rounding) :
    (∃ r, SmithWaterman.align ['A', 'A', 'A', 'A'] ['T', 'T', 'T', 'T'] = some r ∧
      r.aligned1.length = 0 ∧
      floatOfNat single r.aligned1.length = FloatValue.finite 0 ∧
      SmithWaterman.sequenceIdentity single r.aligned1 r.aligned2 = FloatValue.nan ∧
      SmithWaterman.sequenceIdentity single r.aligned1 r.aligned2 ≠ FloatValue.finite 0) ∧
    (∃ r, NeedlemanWunsch.align [] [] = some r ∧ r.aligned1.length = 0 ∧
      floatOfNat double r.aligned1.length = FloatValue.finite 0 ∧
      AlignmentVisualizer.matchPercent double r.aligned1 r.aligned2 = FloatValue.nan ∧
      AlignmentVisualizer.matchPercent double r.aligned1 r.aligned2 ≠ FloatValue.finite 0) := by
  have h1 : (SmithWaterman.align ['A', 'A', 'A', 'A'] ['T', 'T', 'T', 'T']).map
      (fun r => (r.aligned1, r.aligned2)) = some ([], []) := by decide
  have h2 : (NeedlemanWunsch.align [] []).map
      (fun r => (r.aligned1, r.aligned2)) = some ([], []) := by decide
  obtain ⟨r1, hr1, hp1⟩ := Option.map_eq_some'.mp h1
  obtain ⟨r2, hr2, hp2⟩ := Option.map_eq_some'.mp h2
  have e1 : r1.aligned1 = [] := congrArg Prod.fst hp1
  have e2 : r1.aligned2 = [] := congrArg Prod.snd hp1
  have e3 : r2.aligned1 = [] := congrArg Prod.fst hp2
  have e4 : r2.aligned2 = [] := congrArg Prod.snd hp2
  have z1 : floatOfNat single ([] : List Char).length = FloatValue.finite 0 := by
    simp [floatOfNat, single.round_zero]
  have z2 : floatOfNat double ([] : List Char).length = FloatValue.finite 0 := by
    simp [floatOfNat, double.round_zero]
  have n1 : SmithWaterman.sequenceIdentity single [] [] = FloatValue.nan := by
    simp [SmithWaterman.sequenceIdentity, SmithWaterman.alignmentStats, floatOfNat, floatDiv,
      floatMul, single.round_zero]
  have n2 : AlignmentVisualizer.matchPercent double [] [] = FloatValue.nan := by
    simp [AlignmentVisualizer.matchPercent, AlignmentVisualizer.alignmentStats, floatOfNat,
      floatDiv, floatMul, double.round_zero]
  refine ⟨⟨r1, hr1, by rw [e1]; rfl, by rw [e1]; exact z1, by rw [e1, e2, n1],
      by rw [e1, e2, n1]; exact fun h => nomatch h⟩,
    ⟨r2, hr2, by rw [e3]; rfl, by rw [e3]; exact z2, by rw [e3, e4, n2],
      by rw [e3, e4, n2]; exact fun h => nomatch h⟩⟩

set_option maxRecDepth 1000000 in
/-- C14 fails on the code: `printResults` tests only `aligned1[i] == aligned2[i]`
for a match. On the column `'-'`/`'-'`, which `SmithWaterman::align` emits for
the inputs `"-"` and `"-"`, its loop counts one match, while the loop of
`visualizeAlignment` counts one gap. -/
theorem C14_statistics_differ_on_double_gap :
    (SmithWaterman.align ['-'] ['-']).map (fun r => (r.aligned1, r.aligned2)) =
      some (['-'], ['-']) ∧
    SmithWaterman.alignmentStats ['-'] ['-'] =
      { numMatches := 1, numMismatches := 0, numGaps := 0 } ∧
    AlignmentVisualizer.alignmentStats ['-'] ['-'] =
      { numMatches := 0, numMismatches := 0, numGaps := 1 } := by
  decide

theorem substitutionScore_eq (x y : Char) :
    substitutionScore x y = if x = y then 1 else -1 := rfl

theorem substitutionScore_ge (x y : Char) : -1 ≤ substitutionScore x y := by
  unfold substitutionScore MATCH_SCORE MISMATCH_SCORE
  split_ifs <;> omega

/-- The global fill routine adds `substitutionScore` of the two symbols to the
diagonal neighbour. -/
theorem fillCell_substitutionScore (seq1 seq2 : List Char) (i : Nat)
    (m : Grid NeedlemanWunsch.Cell) (j : Nat) :
    NeedlemanWunsch.fillCell seq1 seq2 i m j = m.set i j
      (NeedlemanWunsch.chooseCell ((m.get (i - 1) (j - 1)).score +
          substitutionScore (seq1.getD (i - 1) default) (seq2.getD (j - 1) default))
        ((m.get (i - 1) j).score + GAP_SCORE) ((m.get i (j - 1)).score + GAP_SCORE)) :=
  NeedlemanWunsch.fillCell_eq seq1 seq2 i m j

/-- Aligning two single symbols globally leaves their substitution score in
cell `(1, 1)`. -/
theorem scoreMatrix_single (x y : Char) :
    ((NeedlemanWunsch.scoreMatrix [x] [y]).get 1 1).score = substitutionScore x y := by
  rw [NeedlemanWunsch.scoreMatrix_get [x] [y] (by simp) (by simp),
    NeedlemanWunsch.cellAt_succ, NeedlemanWunsch.chooseCell_score,
    NeedlemanWunsch.cellAt_boundary_score [x] [y] 0 1 (Or.inl rfl) (by decide) (by decide),
    NeedlemanWunsch.cellAt_boundary_score [x] [y] 1 0 (Or.inr rfl) (by decide) (by decide)]
  have h0 : (NeedlemanWunsch.cellAt [x] [y] 0 0).score = 0 := by simp [NeedlemanWunsch.cellAt]
  have hs : NeedlemanWunsch.substScore [x] [y] (0 + 1) (0 + 1) = substitutionScore x y := rfl
  have := substitutionScore_ge x y
  rw [h0, hs]
  simp only [GAP_SCORE]
  push_cast
  omega

/-- Aligning `[z, x]` with `[z, y]` locally leaves `1` plus the substitution
score of `x` and `y` in cell `(2, 2)`. -/
theorem filled_pair (x y z : Char) :
    ((SmithWaterman.filled [z, x] [z, y]).matrix.get 2 2).score = 1 + substitutionScore x y := by
  rw [SmithWaterman.filled_get [z, x] [z, y] (by simp) (by simp),
    SmithWaterman.cellAt_score_succ]
  have h11 : (SmithWaterman.cellAt [z, x] [z, y] 1 1).score = 1 := by
    rw [SmithWaterman.cellAt_score_succ, SmithWaterman.local_cellAt_zero_left,
      SmithWaterman.local_cellAt_zero_left, SmithWaterman.local_cellAt_zero_right]
    have hs : SmithWaterman.substScore [z, x] [z, y] (0 + 1) (0 + 1) = 1 := by
      simp [SmithWaterman.substScore, MATCH_SCORE]
    rw [hs]
    simp [GAP_SCORE]
  have h12 := (SmithWaterman.cellAt_score_le_index [z, x] [z, y] 1 2).1
  have h21 := (SmithWaterman.cellAt_score_le_index [z, x] [z, y] 2 1).2
  have hs : SmithWaterman.substScore [z, x] [z, y] (1 + 1) (1 + 1) = substitutionScore x y := rfl
  have := substitutionScore_ge x y
  rw [h11, hs]
  simp only [GAP_SCORE]
  push_cast at h12 h21 ⊢
  omega

set_option maxRecDepth 1000000 in
/-- C15 as stated is false: for two gap markers the contract gives the mismatch
score `-1`, but both fill routines add the match score `+1`; aligning `"-"` with
`"-"` leaves score 1 in cell `(1, 1)` of either matrix. -/
theorem C15_gap_marker_counterexample :
    contractSubstitutionScore '-' '-' = -1 ∧ substitutionScore '-' '-' = 1 ∧
    ((NeedlemanWunsch.scoreMatrix ['-'] ['-']).get 1 1).score = 1 ∧
    ((SmithWaterman.filled ['-'] ['-']).matrix.get 1 1).score = 1 := by
  decide

/-- C15 (amended): for every pair of symbols the substitution score used by both
fill routines is `+1` if the symbols are equal and `-1` otherwise, the gap
marker not being treated specially: it is what the global fill leaves in cell
`(1, 1)` for two single symbols and what the local fill adds to a preceding
match, and it agrees with the contract on every pair other than two gap
markers. -/
theorem C15_substitution_score (x y z : Char) :
    substitutionScore x y = (if x = y then 1 else -1) ∧
    ((NeedlemanWunsch.scoreMatrix [x] [y]).get 1 1).score = (if x = y then 1 else -1) ∧
    ((SmithWaterman.filled [z, x] [z, y]).matrix.get 2 2).score =
      1 + (if x = y then 1 else -1) ∧
    (¬ (x = '-' ∧ y = '-') → substitutionScore x y = contractSubstitutionScore x y) := by
  refine ⟨rfl, ?_, ?_, fun h => ?_⟩
  · rw [scoreMatrix_single]; rfl
  · rw [filled_pair]; rfl
  · unfold substitutionScore contractSubstitutionScore
    by_cases hxy : x = y
    · subst hxy
      have hx : x ≠ '-' := fun hc => h ⟨hc, hc⟩
      rw [if_pos rfl, if_pos ⟨rfl, hx, hx⟩]
    · rw [if_neg hxy, if_neg (fun hc => hxy hc.1)]

/-- C15 (amended) at `x = 'A'`, `y = 'C'`, `z = 'G'`. -/
theorem C15_substitution_score_witness :
    ¬ ('A' = '-' ∧ 'C' = '-') ∧ substitutionScore 'A' 'C' = contractSubstitutionScore 'A' 'C' :=
  ⟨by decide, (C15_substitution_score 'A' 'C' 'G').2.2.2 (by decide)⟩

theorem isHeader_iff (line : List Char) (h : line.isEmpty = false) :
    isHeader line = true ↔ line.getD 0 default = '>' := by
  cases line with
  | nil => simp at h
  | cons c cs => simp [isHeader]

/-- The loop of `NeedlemanWunsch::readFasta` appends the cleaned sequence of the
remaining lines. -/
theorem readFastaLoop_eq (lines : List (List Char)) :
    ∀ (firstLine : Bool) (sequence : List Char),
      NeedlemanWunsch.readFastaLoop lines firstLine sequence =
        sequence ++ (((untilSecondHeader lines (!firstLine)).filter
          (fun line => !line.isEmpty && !isHeader line)).flatten.filter
            (fun c => !isSpace c)) := by
  induction lines with
  | nil => intro _ _; simp [NeedlemanWunsch.readFastaLoop, untilSecondHeader]
  | cons line rest ih =>
    intro firstLine sequence
    unfold NeedlemanWunsch.readFastaLoop untilSecondHeader
    by_cases he : line.isEmpty = true
    · have hl : line = [] := List.isEmpty_iff.mp he
      subst hl
      simp [isHeader, ih]
    · have he' : line.isEmpty = false := by simpa using he
      rw [if_neg he]
      by_cases hh : line.getD 0 default = '>'
      · have hH : isHeader line = true := (isHeader_iff line he').mpr hh
        rw [if_pos hh, if_pos hH]
        cases firstLine with
        | true => simp [ih, hH]
        | false => simp
      · have hH : isHeader line = false := by
          cases hc : isHeader line with
          | false => rfl
          | true => exact absurd ((isHeader_iff line he').mp hc) hh
        rw [if_neg hh, if_neg (by simp [hH]), ih]
        simp [he', hH, List.append_assoc]

/-- `NeedlemanWunsch::readFasta` returns the cleaned sequence of the file. -/
theorem readFasta_eq_cleanedSequence (lines : List (List Char)) :
    NeedlemanWunsch.readFasta lines = cleanedSequence lines := by
  unfold NeedlemanWunsch.readFasta cleanedSequence sequenceLines
  rw [readFastaLoop_eq]
  simp

/-- What `NeedlemanWunsch::readFasta` returns contains no whitespace. -/
theorem readFasta_no_whitespace (lines : List (List Char)) :
    ∀ c ∈ NeedlemanWunsch.readFasta lines, isSpace c = false := by
  intro c hc
  rw [readFasta_eq_cleanedSequence] at hc
  unfold cleanedSequence at hc
  simpa using (List.mem_filter.mp hc).2

/-- The loop of `SmithWaterman::readFasta` appends the sequence lines of the
remaining lines unchanged. -/
theorem local_readFastaLoop_eq (lines : List (List Char)) :
    ∀ (firstLine : Bool) (sequence : List Char),
      SmithWaterman.readFastaLoop lines firstLine sequence =
        sequence ++ ((untilSecondHeader lines (!firstLine)).filter
          (fun line => !line.isEmpty && !isHeader line)).flatten := by
  induction lines with
  | nil => intro _ _; simp [SmithWaterman.readFastaLoop, untilSecondHeader]
  | cons line rest ih =>
    intro firstLine sequence
    unfold SmithWaterman.readFastaLoop untilSecondHeader
    by_cases he : line.isEmpty = true
    · have hl : line = [] := List.isEmpty_iff.mp he
      subst hl
      simp [isHeader, ih]
    · have he' : line.isEmpty = false := by simpa using he
      rw [if_neg he]
      by_cases hh : line.getD 0 default = '>'
      · have hH : isHeader line = true := (isHeader_iff line he').mpr hh
        rw [if_pos hh, if_pos hH]
        cases firstLine with
        | true => simp [ih, hH]
        | false => simp
      · have hH : isHeader line = false := by
          cases hc : isHeader line with
          | false => rfl
          | true => exact absurd ((isHeader_iff line he').mp hc) hh
        rw [if_neg hh, if_neg (by simp [hH]), ih]
        simp [he', hH, List.append_assoc]

/-- `SmithWaterman::readFasta` returns the sequence lines of the file joined,
whitespace included. -/
theorem local_readFasta_eq (lines : List (List Char)) :
    SmithWaterman.readFasta lines = (sequenceLines lines).flatten := by
  unfold SmithWaterman.readFasta sequenceLines
  rw [local_readFastaLoop_eq]
  simp

/-- C16 fails on the code of `SmithWaterman::readFasta`, which does not remove
whitespace: for the file with lines `">s"` and `"AC GT"` it returns `"AC GT"`,
with the space, while `NeedlemanWunsch::readFasta` returns the cleaned sequence
`"ACGT"`. -/
theorem C16_local_readFasta_keeps_whitespace :
    SmithWaterman.readFasta [['>', 's'], ['A', 'C', ' ', 'G', 'T']] =
      ['A', 'C', ' ', 'G', 'T'] ∧
    isSpace ' ' = true ∧
    cleanedSequence [['>', 's'], ['A', 'C', ' ', 'G', 'T']] = ['A', 'C', 'G', 'T'] ∧
    NeedlemanWunsch.readFasta [['>', 's'], ['A', 'C', ' ', 'G', 'T']] =
      ['A', 'C', 'G', 'T'] := by
  decide

/-! ## Further contracts of the local aligner -/

/-- C17 as stated is false: for `A = "A"` and `B` made of `2^31 - 1` symbols `T`
followed by `A`, cell `(1, 2^31)` has a positive score, but the tracked column
`maxCell.j` is the `int` `-2147483648` and names no cell. -/
theorem C17_tracked_cell_counterexample :
    (∃ i j, i ≤ ['A'].length ∧ j ≤ (List.replicate 2147483647 'T' ++ ['A']).length ∧
      0 < ((SmithWaterman.filled ['A'] (List.replicate 2147483647 'T' ++ ['A'])).matrix.get
        i j).score) ∧
    (SmithWaterman.filled ['A'] (List.replicate 2147483647 'T' ++ ['A'])).maxCell.j
      = -2147483648 ∧
    ¬ ∃ b : Nat,
      (b : Int) = (SmithWaterman.filled ['A'] (List.replicate 2147483647 'T' ++ ['A'])).maxCell.j := by
  have hlen : (List.replicate 2147483647 'T' ++ ['A']).length = 2147483647 + 1 := by
    rw [List.length_append, List.length_replicate]; rfl
  have hj : (SmithWaterman.filled ['A'] (List.replicate 2147483647 'T' ++ ['A'])).maxCell.j
      = -2147483648 := by
    rw [(SmithWaterman.filled_last_column 2147483647).2]
    decide
  refine ⟨⟨1, 2147483647 + 1, le_rfl, by rw [hlen], ?_⟩, hj, ?_⟩
  · have hg := SmithWaterman.filled_get ['A'] (List.replicate 2147483647 'T' ++ ['A'])
      (show 1 ≤ ['A'].length from le_rfl)
      (show 2147483647 + 1 ≤ (List.replicate 2147483647 'T' ++ ['A']).length from by rw [hlen])
    rw [hg, SmithWaterman.cellAt_last_column_end 2147483647]
    exact Int.one_pos
  · rintro ⟨b, hb⟩
    rw [hj] at hb
    omega

/-- C17 (amended): for sequences `A`, `B` shorter than `2^31` for which some
cell has a positive score, after `SmithWaterman::fillMatrix` the cell
`(maxCell.i, maxCell.j)` holds the maximum score of the whole matrix, `maxScore`
equals that maximum, and no cell before it in row-major scan order has score
`maxScore`. -/
theorem C17_tracked_maximum (A B : List Char) (hlA : A.length < 2147483648)
    (hlB : B.length < 2147483648)
    (hpos : ∃ i j, i ≤ A.length ∧ j ≤ B.length ∧
      0 < ((SmithWaterman.filled A B).matrix.get i j).score) :
    ∃ a b : Nat, (a : Int) = (SmithWaterman.filled A B).maxCell.i ∧
      (b : Int) = (SmithWaterman.filled A B).maxCell.j ∧ a ≤ A.length ∧ b ≤ B.length ∧
      ((SmithWaterman.filled A B).matrix.get a b).score = (SmithWaterman.filled A B).maxScore ∧
      (∀ i j, i ≤ A.length → j ≤ B.length →
        ((SmithWaterman.filled A B).matrix.get i j).score ≤ (SmithWaterman.filled A B).maxScore) ∧
      (∀ i j, i ≤ A.length → j ≤ B.length → (i < a ∨ (i = a ∧ j < b)) →
        ((SmithWaterman.filled A B).matrix.get i j).score ≠
          (SmithWaterman.filled A B).maxScore) := by
  rcases SmithWaterman.filled_tracked A B with
    ⟨_, _, hz⟩ | ⟨a, b, ha0, ha, hb0, hb, hp, hsc, hc, hmax, hfirst⟩
  · obtain ⟨i, j, hi, hj, h⟩ := hpos
    rw [SmithWaterman.filled_get A B hi hj, hz i j hi hj] at h
    exact absurd h (lt_irrefl _)
  · refine ⟨a, b, ?_, ?_, ha, hb, ?_, ?_, ?_⟩
    · rw [hc, (SmithWaterman.cellAt_index A B a b ha0 hb0).1, sizeToInt_of_lt a (by omega)]
    · rw [hc, (SmithWaterman.cellAt_index A B a b ha0 hb0).2, sizeToInt_of_lt b (by omega)]
    · rw [SmithWaterman.filled_get A B ha hb, hsc]
    · intro i j hi hj
      rw [SmithWaterman.filled_get A B hi hj]
      exact hmax i j hi hj
    · intro i j hi hj hbefore
      rw [SmithWaterman.filled_get A B hi hj]
      by_cases hij : 0 < i ∧ 0 < j
      · exact ne_of_lt (hfirst i j hij.1 hij.2 hj hbefore)
      · have h0 : (SmithWaterman.cellAt A B i j).score = 0 := by
          have : i = 0 ∨ j = 0 := by omega
          rcases this with rfl | rfl
          · rw [SmithWaterman.local_cellAt_zero_left]
          · rw [SmithWaterman.local_cellAt_zero_right]
        rw [h0]
        exact ne_of_lt hp

set_option maxRecDepth 1000000 in
/-- C17 (amended) at `A = "GA"`, `B = "A"`. -/
theorem C17_tracked_maximum_witness :
    (['G', 'A'].length < 2147483648 ∧ ['A'].length < 2147483648 ∧
      ∃ i j, i ≤ ['G', 'A'].length ∧ j ≤ ['A'].length ∧
        0 < ((SmithWaterman.filled ['G', 'A'] ['A']).matrix.get i j).score) ∧
    ∃ a b : Nat,
      (a : Int) = (SmithWaterman.filled ['G', 'A'] ['A']).maxCell.i ∧
      (b : Int) = (SmithWaterman.filled ['G', 'A'] ['A']).maxCell.j ∧
      a ≤ ['G', 'A'].length ∧ b ≤ ['A'].length ∧
      ((SmithWaterman.filled ['G', 'A'] ['A']).matrix.get a b).score =
        (SmithWaterman.filled ['G', 'A'] ['A']).maxScore ∧
      (∀ i j, i ≤ ['G', 'A'].length → j ≤ ['A'].length →
        ((SmithWaterman.filled ['G', 'A'] ['A']).matrix.get i j).score ≤
          (SmithWaterman.filled ['G', 'A'] ['A']).maxScore) ∧
      (∀ i j, i ≤ ['G', 'A'].length → j ≤ ['A'].length → (i < a ∨ (i = a ∧ j < b)) →
        ((SmithWaterman.filled ['G', 'A'] ['A']).matrix.get i j).score ≠
          (SmithWaterman.filled ['G', 'A'] ['A']).maxScore) :=
  ⟨⟨by decide, by decide, 2, 1, by decide, by decide, by decide⟩,
    C17_tracked_maximum ['G', 'A'] ['A']
      (by decide) (by decide) ⟨2, 1, by decide, by decide, by decide⟩⟩

/-- C19 as stated is false: for `A` made of `2^31 - 1` symbols `T` followed by
`A`, and `B = "A"`, `maxScore` is 1 but `maxCell.i` is a negative `int`, so the
traceback emits two empty strings, which re-score to 0. -/
theorem C19_local_rescore_counterexample :
    '-' ∉ (List.replicate 2147483647 'T' ++ ['A']) ∧ '-' ∉ ['A'] ∧
    ∃ r, SmithWaterman.align (List.replicate 2147483647 'T' ++ ['A']) ['A'] = some r ∧
      rescore r.aligned1 r.aligned2 = 0 ∧ r.maxScore = 1 := by
  refine ⟨?_, by decide, ?_⟩
  · rw [List.mem_append, List.mem_replicate]
    rintro (⟨_, h⟩ | h)
    · exact absurd h (by decide)
    · exact absurd h (by decide)
  · obtain ⟨r, al, hr, _, hms, hmc, ha1, ha2, hcase⟩ :=
      SmithWaterman.local_align_spec (List.replicate 2147483647 'T' ++ ['A']) ['A']
    have hi : r.maxCell.i = -2147483648 := by
      rw [hmc, (SmithWaterman.filled_last_row 2147483647).2]
      decide
    have hal : al = [] := by
      rcases hcase with ⟨_, h⟩ | ⟨i, _, _, _, hi', _⟩
      · exact h
      · rw [hi] at hi'
        omega
    subst hal
    refine ⟨r, hr, by rw [ha1, ha2]; rfl, ?_⟩
    rw [hms, (SmithWaterman.filled_last_row 2147483647).1]

/-- C19 (amended): for sequences `A`, `B` without the gap symbol and shorter
than `2^31`, `SmithWaterman::align` returns and re-scoring the emitted pair
column by column gives exactly `maxScore`. -/
theorem C19_local_rescore (A B : List Char) (hA : '-' ∉ A) (hB : '-' ∉ B)
    (hlA : A.length < 2147483648) (hlB : B.length < 2147483648) :
    ∃ r, SmithWaterman.align A B = some r ∧ rescore r.aligned1 r.aligned2 = r.maxScore := by
  obtain ⟨r, al, hr, _, hms, hmc, ha1, ha2, hcase⟩ := SmithWaterman.local_align_spec A B
  refine ⟨r, hr, ?_⟩
  rw [ha1, ha2, hms]
  rcases hcase with ⟨hnp, rfl⟩ | ⟨i, j, i', j', hi, hj, _, _, _, _, h1, h2, h3⟩
  · rcases SmithWaterman.filled_tracked A B with
      ⟨h0, _, _⟩ | ⟨a, b, ha0, ha, hb0, hb, _, _, hc, _, _⟩
    · rw [h0]; rfl
    · exfalso
      apply hnp
      rw [hmc, hc, (SmithWaterman.cellAt_index A B a b ha0 hb0).1,
        (SmithWaterman.cellAt_index A B a b ha0 hb0).2,
        sizeToInt_of_lt a (by omega), sizeToInt_of_lt b (by omega)]
      exact ⟨by exact_mod_cast ha0, by exact_mod_cast hb0⟩
  · have hsA : '-' ∉ spellFst al := by
      rw [h1]
      exact fun h => hA ((List.take_subset _ _) ((List.drop_subset _ _) h))
    have hsB : '-' ∉ spellSnd al := by
      rw [h2]
      exact fun h => hB ((List.take_subset _ _) ((List.drop_subset _ _) h))
    rw [rescore_render al hsA hsB, h3]
    rcases SmithWaterman.filled_tracked A B with
      ⟨h0, hdef, hz⟩ | ⟨a, b, ha0, ha, hb0, hb, _, hsc, hc, _, _⟩
    · rw [hmc, hdef] at hi hj
      have hd1 : (default : SmithWaterman.Cell).i = 0 := rfl
      have hd2 : (default : SmithWaterman.Cell).j = 0 := rfl
      rw [hd1] at hi
      rw [hd2] at hj
      have hi0 : i = 0 := by exact_mod_cast hi
      have hj0 : j = 0 := by exact_mod_cast hj
      rw [hi0, hj0, h0, SmithWaterman.local_cellAt_zero_left]
    · rw [hmc, hc, (SmithWaterman.cellAt_index A B a b ha0 hb0).1,
        sizeToInt_of_lt a (by omega)] at hi
      rw [hmc, hc, (SmithWaterman.cellAt_index A B a b ha0 hb0).2,
        sizeToInt_of_lt b (by omega)] at hj
      have hia : i = a := by exact_mod_cast hi
      have hjb : j = b := by exact_mod_cast hj
      rw [hia, hjb, hsc]

/-- C19 (amended) at `A = "TTTACGTTTT"`, `B = "ACGT"`. -/
theorem C19_local_rescore_witness :
    ('-' ∉ ['T', 'T', 'T', 'A', 'C', 'G', 'T', 'T', 'T', 'T'] ∧ '-' ∉ ['A', 'C', 'G', 'T'] ∧
      ['T', 'T', 'T', 'A', 'C', 'G', 'T', 'T', 'T', 'T'].length < 2147483648 ∧
      ['A', 'C', 'G', 'T'].length < 2147483648) ∧
    ∃ r, SmithWaterman.align ['T', 'T', 'T', 'A', 'C', 'G', 'T', 'T', 'T', 'T']
        ['A', 'C', 'G', 'T'] = some r ∧
      rescore r.aligned1 r.aligned2 = r.maxScore :=
  ⟨⟨by decide, by decide, by decide, by decide⟩,
    C19_local_rescore ['T', 'T', 'T', 'A', 'C', 'G', 'T', 'T', 'T', 'T'] ['A', 'C', 'G', 'T']
      (by decide) (by decide) (by decide) (by decide)⟩

/-! ## Termination of the traceback loops -/

namespace NeedlemanWunsch

theorem tracebackRun_done (seq1 seq2 : List Char) (m : Grid Cell) (fuel : Nat)
    (a1 a2 : List Char) (it idle : Nat) :
    tracebackRun seq1 seq2 m fuel 0 0 a1 a2 it idle = some ⟨0, 0, a1, a2, it, idle⟩ := by
  unfold tracebackRun
  simp

theorem tracebackRun_succ (seq1 seq2 : List Char) (m : Grid Cell) (fuel i j : Nat)
    (a1 a2 : List Char) (it idle : Nat) (h : i > 0 ∨ j > 0) :
    tracebackRun seq1 seq2 m (fuel + 1) i j a1 a2 it idle =
      if (m.get i j).direction = 'D' ∧ i > 0 ∧ j > 0 then
        tracebackRun seq1 seq2 m fuel (i - 1) (j - 1)
          (seq1.getD (i - 1) default :: a1) (seq2.getD (j - 1) default :: a2) (it + 1) idle
      else if (m.get i j).direction = 'U' ∧ i > 0 then
        tracebackRun seq1 seq2 m fuel (i - 1) j (seq1.getD (i - 1) default :: a1) ('-' :: a2)
          (it + 1) idle
      else if j > 0 then
        tracebackRun seq1 seq2 m fuel i (j - 1) ('-' :: a1) (seq2.getD (j - 1) default :: a2)
          (it + 1) idle
      else tracebackRun seq1 seq2 m fuel i j a1 a2 (it + 1) (idle + 1) := by
  rw [tracebackRun]
  simp only [h, if_true]

/-- The counted loop returns what `tracebackLoop` returns. -/
theorem tracebackRun_erase (seq1 seq2 : List Char) (m : Grid Cell) :
    ∀ fuel i j a1 a2 it idle,
      (tracebackRun seq1 seq2 m fuel i j a1 a2 it idle).map
          (fun e => (e.aligned1, e.aligned2)) =
        tracebackLoop seq1 seq2 m fuel i j a1 a2 := by
  intro fuel
  induction fuel with
  | zero =>
    intro i j a1 a2 it idle
    unfold tracebackRun tracebackLoop
    split_ifs <;> rfl
  | succ f ih =>
    intro i j a1 a2 it idle
    by_cases h : i > 0 ∨ j > 0
    · rw [tracebackRun_succ _ _ _ _ _ _ _ _ _ _ h, tracebackLoop_succ _ _ _ _ _ _ _ _ h]
      split_ifs <;> exact ih _ _ _ _ _ _
    · have hi : i = 0 := by omega
      have hj : j = 0 := by omega
      subst hi hj
      rw [tracebackRun_done, tracebackLoop_done]
      rfl

/-- From any cell of the filled matrix the global traceback reaches `(0, 0)`,
never idles, and makes at most `i + j` iterations. -/
theorem tracebackRun_spec (seq1 seq2 : List Char) :
    ∀ n i j, i + j = n → i ≤ seq1.length → j ≤ seq2.length →
      ∀ fuel, n ≤ fuel → ∀ a1 a2 it idle,
        ∃ e, tracebackRun seq1 seq2 (scoreMatrix seq1 seq2) fuel i j a1 a2 it idle = some e ∧
          e.i = 0 ∧ e.j = 0 ∧ e.idle = idle ∧ e.iterations ≤ it + n := by
  intro n
  induction n using Nat.strong_induction_on with
  | _ n ih =>
    intro i j hn hi hj fuel hf a1 a2 it idle
    by_cases h0 : i = 0 ∧ j = 0
    · obtain ⟨rfl, rfl⟩ := h0
      exact ⟨_, tracebackRun_done _ _ _ _ _ _ _ _, rfl, rfl, rfl, Nat.le_add_right _ _⟩
    · have hpos : i > 0 ∨ j > 0 := by omega
      obtain ⟨f, rfl⟩ : ∃ f, fuel = f + 1 := ⟨fuel - 1, by omega⟩
      rw [tracebackRun_succ _ _ _ _ _ _ _ _ _ _ hpos, scoreMatrix_get seq1 seq2 hi hj]
      by_cases hD : (cellAt seq1 seq2 i j).direction = 'D' ∧ i > 0 ∧ j > 0
      · rw [if_pos hD]
        obtain ⟨e, he, h1, h2, h3, h4⟩ := ih (i - 1 + (j - 1)) (by omega) (i - 1) (j - 1) rfl
          (by omega) (by omega) f (by omega) (seq1.getD (i - 1) default :: a1)
          (seq2.getD (j - 1) default :: a2) (it + 1) idle
        exact ⟨e, he, h1, h2, h3, by omega⟩
      · rw [if_neg hD]
        by_cases hU : (cellAt seq1 seq2 i j).direction = 'U' ∧ i > 0
        · rw [if_pos hU]
          obtain ⟨e, he, h1, h2, h3, h4⟩ := ih (i - 1 + j) (by omega) (i - 1) j rfl
            (by omega) hj f (by omega) (seq1.getD (i - 1) default :: a1) ('-' :: a2)
            (it + 1) idle
          exact ⟨e, he, h1, h2, h3, by omega⟩
        · rw [if_neg hU]
          have hj0 : j > 0 := by
            by_contra hc
            have hj' : j = 0 := by omega
            subst hj'
            have hi0 : 0 < i := by omega
            apply hU
            rw [cellAt_zero_right _ _ i hi0]
            exact ⟨rfl, hi0⟩
          rw [if_pos hj0]
          obtain ⟨e, he, h1, h2, h3, h4⟩ := ih (i + (j - 1)) (by omega) i (j - 1) rfl
            hi (by omega) f (by omega) ('-' :: a1) (seq2.getD (j - 1) default :: a2)
            (it + 1) idle
          exact ⟨e, he, h1, h2, h3, by omega⟩

end NeedlemanWunsch

namespace SmithWaterman

theorem tracebackRun_stop (seq1 seq2 : List Char) (m : Grid Cell) (fuel : Nat) (i j : Int)
    (a1 a2 : List Char) (it idle : Nat)
    (h : ¬ (i > 0 ∧ j > 0 ∧ (m.get i.toNat j.toNat).score > 0)) :
    tracebackRun seq1 seq2 m fuel i j a1 a2 it idle = some ⟨i, j, a1, a2, it, idle⟩ := by
  unfold tracebackRun
  rw [if_neg h]

theorem local_tracebackRun_succ (seq1 seq2 : List Char) (m : Grid Cell) (fuel i j : Nat)
    (a1 a2 : List Char) (it idle : Nat) (hi : 0 < i) (hj : 0 < j)
    (hs : 0 < (m.get i j).score) :
    tracebackRun seq1 seq2 m (fuel + 1) i j a1 a2 it idle =
      if (m.get i j).direction = 'D' then
        tracebackRun seq1 seq2 m fuel ((i - 1 : Nat) : Int) ((j - 1 : Nat) : Int)
          (seq1.getD (i - 1) default :: a1) (seq2.getD (j - 1) default :: a2) (it + 1) idle
      else if (m.get i j).direction = 'U' then
        tracebackRun seq1 seq2 m fuel ((i - 1 : Nat) : Int) j
          (seq1.getD (i - 1) default :: a1) ('-' :: a2) (it + 1) idle
      else if (m.get i j).direction = 'L' then
        tracebackRun seq1 seq2 m fuel i ((j - 1 : Nat) : Int)
          ('-' :: a1) (seq2.getD (j - 1) default :: a2) (it + 1) idle
      else tracebackRun seq1 seq2 m fuel i j a1 a2 (it + 1) (idle + 1) := by
  have e1 : ((i : Int) - 1) = ((i - 1 : Nat) : Int) := by omega
  have e2 : ((j : Int) - 1) = ((j - 1 : Nat) : Int) := by omega
  rw [tracebackRun]
  simp only [Int.toNat_ofNat, e1, e2]
  rw [if_pos ⟨by omega, by omega, hs⟩]

/-- The counted loop returns what `tracebackLoop` returns. -/
theorem local_tracebackRun_erase (seq1 seq2 : List Char) (m : Grid Cell) :
    ∀ fuel i j a1 a2 it idle,
      (tracebackRun seq1 seq2 m fuel i j a1 a2 it idle).map
          (fun e => (e.aligned1, e.aligned2)) =
        tracebackLoop seq1 seq2 m fuel i j a1 a2 := by
  intro fuel
  induction fuel with
  | zero =>
    intro i j a1 a2 it idle
    unfold tracebackRun tracebackLoop
    split_ifs <;> rfl
  | succ f ih =>
    intro i j a1 a2 it idle
    unfold tracebackRun tracebackLoop
    simp only
    split_ifs <;> first | rfl | exact ih _ _ _ _ _ _

/-- From any cell of the filled matrix the local traceback never idles, makes
at most as many iterations as `i + j` decreases, and stops at a cell of
score 0. -/
theorem local_tracebackRun_spec (seq1 seq2 : List Char) :
    ∀ n (i j : Nat), i + j = n → i ≤ seq1.length → j ≤ seq2.length →
      ∀ fuel, n ≤ fuel → ∀ a1 a2 it idle,
        ∃ e, tracebackRun seq1 seq2 (filled seq1 seq2).matrix fuel i j a1 a2 it idle = some e ∧
          e.idle = idle ∧
          ∃ i' j' : Nat, e.i = i' ∧ e.j = j' ∧ i' ≤ i ∧ j' ≤ j ∧
            e.iterations + i' + j' ≤ it + i + j ∧ (cellAt seq1 seq2 i' j').score = 0 := by
  intro n
  induction n using Nat.strong_induction_on with
  | _ n ih =>
    intro i j hn hi hj fuel hf a1 a2 it idle
    have hget : (filled seq1 seq2).matrix.get i j = cellAt seq1 seq2 i j :=
      filled_get seq1 seq2 hi hj
    by_cases h0 : (cellAt seq1 seq2 i j).score = 0
    · refine ⟨_, tracebackRun_stop _ _ _ _ _ _ _ _ _ _ ?_, rfl, i, j, rfl, rfl, le_rfl, le_rfl,
        le_rfl, h0⟩
      simp only [Int.toNat_ofNat, hget, h0]
      omega
    · have hpos : 0 < (cellAt seq1 seq2 i j).score :=
        lt_of_le_of_ne (cellAt_score_nonneg seq1 seq2 i j) (Ne.symm h0)
      obtain ⟨hi0, hj0, hdir⟩ := cellAt_positive seq1 seq2 i j hpos
      obtain ⟨f, rfl⟩ : ∃ f, fuel = f + 1 := ⟨fuel - 1, by omega⟩
      rw [local_tracebackRun_succ seq1 seq2 _ f i j a1 a2 it idle hi0 hj0 (by rw [hget]; exact hpos),
        hget]
      rcases hdir with ⟨hd, _⟩ | ⟨hd, _⟩ | ⟨hd, _⟩
      · rw [if_pos hd]
        obtain ⟨e, he, h1, i', j', h2, h3, h4, h5, h6, h7⟩ :=
          ih (i - 1 + (j - 1)) (by omega) (i - 1) (j - 1) rfl (by omega) (by omega) f
            (by omega) (seq1.getD (i - 1) default :: a1) (seq2.getD (j - 1) default :: a2)
            (it + 1) idle
        exact ⟨e, he, h1, i', j', h2, h3, by omega, by omega, by omega, h7⟩
      · rw [if_neg (by rw [hd]; decide), if_pos hd]
        obtain ⟨e, he, h1, i', j', h2, h3, h4, h5, h6, h7⟩ :=
          ih (i - 1 + j) (by omega) (i - 1) j rfl (by omega) hj f (by omega)
            (seq1.getD (i - 1) default :: a1) ('-' :: a2) (it + 1) idle
        exact ⟨e, he, h1, i', j', h2, h3, by omega, by omega, by omega, h7⟩
      · rw [if_neg (by rw [hd]; decide), if_neg (by rw [hd]; decide), if_pos hd]
        obtain ⟨e, he, h1, i', j', h2, h3, h4, h5, h6, h7⟩ :=
          ih (i + (j - 1)) (by omega) i (j - 1) rfl hi (by omega) f (by omega)
            ('-' :: a1) (seq2.getD (j - 1) default :: a2) (it + 1) idle
        exact ⟨e, he, h1, i', j', h2, h3, by omega, by omega, by omega, h7⟩

end SmithWaterman

/-- C18 as stated is false in its last clause: for `A = "A"` and `B` made of
`2^31 - 1` symbols `T` followed by `A`, the local traceback starts at
`(maxCell.i, maxCell.j) = (1, -2147483648)` and stops there at once; that is
neither a cell of score 0 nor on row 0 or column 0. -/
theorem C18_local_end_counterexample :
    ∃ e, SmithWaterman.tracebackRun ['A'] (List.replicate 2147483647 'T' ++ ['A'])
        (SmithWaterman.filled ['A'] (List.replicate 2147483647 'T' ++ ['A'])).matrix
        (['A'].length + (List.replicate 2147483647 'T' ++ ['A']).length)
        (SmithWaterman.filled ['A'] (List.replicate 2147483647 'T' ++ ['A'])).maxCell.i
        (SmithWaterman.filled ['A'] (List.replicate 2147483647 'T' ++ ['A'])).maxCell.j
        [] [] 0 0 = some e ∧
      e.i = 1 ∧ e.j = -2147483648 ∧ e.iterations = 0 ∧
      ¬ ∃ a b : Nat, e.i = (a : Int) ∧ e.j = (b : Int) := by
  have hj : sizeToInt (2147483647 + 1) = -2147483648 := by decide
  have hi : sizeToInt 1 = 1 := by decide
  rw [(SmithWaterman.filled_last_column 2147483647).2]
  simp only [hi, hj]
  refine ⟨_, SmithWaterman.tracebackRun_stop _ _ _ _ _ _ _ _ _ _ ?_, rfl, rfl, rfl, ?_⟩
  · rintro ⟨_, h, _⟩
    exact absurd h (by decide)
  · rintro ⟨a, b, _, hb⟩
    simp only at hb
    omega

/-- C18 (amended): for all sequences `A` and `B` both traceback loops terminate
within `len1 + len2` iterations and every iteration takes one of the three
branches. The global traceback, started at `(len1, len2)`, ends with `i = 0`
and `j = 0`. Every cell of the local matrix with positive score carries
direction `'D'`, `'U'` or `'L'`; the local traceback, started at `maxCell`,
lowers `i + j` by at least one per iteration, and for sequences shorter than
`2^31` it ends at a cell whose score is 0 or that lies on row 0 or column 0. -/
theorem C18_tracebacks_terminate (A B : List Char) :
    (∃ e, NeedlemanWunsch.tracebackRun A B (NeedlemanWunsch.scoreMatrix A B)
        (A.length + B.length) A.length B.length [] [] 0 0 = some e ∧
      e.i = 0 ∧ e.j = 0 ∧ e.idle = 0 ∧ e.iterations ≤ A.length + B.length) ∧
    (∀ i j, i ≤ A.length → j ≤ B.length →
      0 < ((SmithWaterman.filled A B).matrix.get i j).score →
      ((SmithWaterman.filled A B).matrix.get i j).direction = 'D' ∨
      ((SmithWaterman.filled A B).matrix.get i j).direction = 'U' ∨
      ((SmithWaterman.filled A B).matrix.get i j).direction = 'L') ∧
    (∃ e, SmithWaterman.tracebackRun A B (SmithWaterman.filled A B).matrix
        (A.length + B.length) (SmithWaterman.filled A B).maxCell.i
        (SmithWaterman.filled A B).maxCell.j [] [] 0 0 = some e ∧
      e.idle = 0 ∧ e.iterations ≤ A.length + B.length ∧
      (e.iterations : Int) + e.i + e.j ≤
        (SmithWaterman.filled A B).maxCell.i + (SmithWaterman.filled A B).maxCell.j ∧
      (A.length < 2147483648 → B.length < 2147483648 →
        ∃ a b : Nat, e.i = (a : Int) ∧ e.j = (b : Int) ∧ a ≤ A.length ∧ b ≤ B.length ∧
          (((SmithWaterman.filled A B).matrix.get a b).score = 0 ∨ a = 0 ∨ b = 0))) := by
  refine ⟨?_, ?_, ?_⟩
  · obtain ⟨e, he, h1, h2, h3, h4⟩ := NeedlemanWunsch.tracebackRun_spec A B
      (A.length + B.length) A.length B.length rfl le_rfl le_rfl (A.length + B.length) le_rfl
      [] [] 0 0
    exact ⟨e, he, h1, h2, h3, by omega⟩
  · intro i j hi hj hpos
    rw [SmithWaterman.filled_get A B hi hj] at hpos ⊢
    obtain ⟨_, _, hd⟩ := SmithWaterman.cellAt_positive A B i j hpos
    rcases hd with h | h | h
    · exact Or.inl h.1
    · exact Or.inr (Or.inl h.1)
    · exact Or.inr (Or.inr h.1)
  · by_cases hpos : 0 < (SmithWaterman.filled A B).maxCell.i ∧
        0 < (SmithWaterman.filled A B).maxCell.j
    · have hle : (SmithWaterman.filled A B).maxCell.i ≤ A.length ∧
          (SmithWaterman.filled A B).maxCell.j ≤ B.length := by
        rcases SmithWaterman.filled_tracked A B with
          ⟨_, hdef, _⟩ | ⟨a, b, ha0, ha, hb0, hb, _, _, hc, _, _⟩
        · rw [hdef] at hpos
          exact absurd hpos.1 (lt_irrefl _)
        · rw [hc, (SmithWaterman.cellAt_index A B a b ha0 hb0).1,
            (SmithWaterman.cellAt_index A B a b ha0 hb0).2]
          have h1 := sizeToInt_le a
          have h2 := sizeToInt_le b
          constructor <;> omega
      obtain ⟨i, hi⟩ : ∃ i : Nat, (i : Int) = (SmithWaterman.filled A B).maxCell.i :=
        ⟨((SmithWaterman.filled A B).maxCell.i).toNat, by omega⟩
      obtain ⟨j, hj⟩ : ∃ j : Nat, (j : Int) = (SmithWaterman.filled A B).maxCell.j :=
        ⟨((SmithWaterman.filled A B).maxCell.j).toNat, by omega⟩
      obtain ⟨e, he, h1, i', j', h2, h3, h4, h5, h6, h7⟩ :=
        SmithWaterman.local_tracebackRun_spec A B (i + j) i j rfl (by omega) (by omega)
          (A.length + B.length) (by omega) [] [] 0 0
      rw [← hi, ← hj]
      refine ⟨e, he, h1, by omega, by rw [h2, h3]; omega, fun _ _ =>
        ⟨i', j', h2, h3, by omega, by omega, Or.inl ?_⟩⟩
      rw [SmithWaterman.filled_get A B (by omega) (by omega)]
      exact h7
    · refine ⟨_, SmithWaterman.tracebackRun_stop _ _ _ _ _ _ _ _ _ _
        (fun h => hpos ⟨h.1, h.2.1⟩), rfl, Nat.zero_le _, by simp, fun hlA hlB => ?_⟩
      rcases SmithWaterman.filled_tracked A B with
        ⟨_, hdef, _⟩ | ⟨a, b, ha0, ha, hb0, hb, _, _, hc, _, _⟩
      · rw [hdef]
        exact ⟨0, 0, rfl, rfl, Nat.zero_le _, Nat.zero_le _, Or.inr (Or.inl rfl)⟩
      · exfalso
        apply hpos
        rw [hc, (SmithWaterman.cellAt_index A B a b ha0 hb0).1,
          (SmithWaterman.cellAt_index A B a b ha0 hb0).2,
          sizeToInt_of_lt a (by omega), sizeToInt_of_lt b (by omega)]
        exact ⟨by exact_mod_cast ha0, by exact_mod_cast hb0⟩

/-- C18 (amended) at `A = "GA"`, `B = "A"`: the end of the local traceback. -/
theorem C18_tracebacks_terminate_witness :
    (['G', 'A'].length < 2147483648 ∧ ['A'].length < 2147483648) ∧
    ∃ e, SmithWaterman.tracebackRun ['G', 'A'] ['A'] (SmithWaterman.filled ['G', 'A'] ['A']).matrix
        (['G', 'A'].length + ['A'].length) (SmithWaterman.filled ['G', 'A'] ['A']).maxCell.i
        (SmithWaterman.filled ['G', 'A'] ['A']).maxCell.j [] [] 0 0 = some e ∧
      ∃ a b : Nat, e.i = (a : Int) ∧ e.j = (b : Int) ∧ a ≤ ['G', 'A'].length ∧
        b ≤ ['A'].length ∧
        (((SmithWaterman.filled ['G', 'A'] ['A']).matrix.get a b).score = 0 ∨ a = 0 ∨ b = 0) := by
  obtain ⟨e, he, _, _, _, hend⟩ := (C18_tracebacks_terminate ['G', 'A'] ['A']).2.2
  exact ⟨⟨by decide, by decide⟩, e, he, hend (by decide) (by decide)⟩
